import Mathlib

/-! # Nonogram solver: shallow embedding of `main.cpp` and its verified properties

The C++ program keeps a board (`struct Nonogram`) and a backtracking engine
(`class NonogramSolver`) that owns four counter arrays and mutates the grid of
the board in place.  The embedding is state passing: every member function
takes the solver state and returns the new one.  C++ `int` values are `Int`
(the counters never leave the range `0 .. max rows cols`, so no wrap-around is
modelled); the comparisons the source makes against `size() - 1`, which is a
`size_t`, are made after the conversion to 64-bit unsigned values.  An indexing outside a vector is the
fault `outOfBounds`; recursion is bounded by a fuel argument and running out
of it is the fault `outOfFuel`.  The `debug` flag only prints and is omitted.
-/

set_option autoImplicit false

/-! ## Execution model -/

/-- Faults of the embedding: an index outside a vector, or fuel exhausted. -/
inductive Fault where
  | outOfBounds
  | outOfFuel
deriving DecidableEq

deriving instance DecidableEq for Except

/-- Read `v[i]` of a `std::vector`, the index being a C++ integer. -/
def vecGet {α : Type} (v : List α) (i : Int) : Except Fault α :=
  if i < 0 then .error .outOfBounds
  else match v[i.toNat]? with
    | some a => .ok a
    | none => .error .outOfBounds

/-- Write `v[i] = a` of a `std::vector`. -/
def vecSet {α : Type} (v : List α) (i : Int) (a : α) : Except Fault (List α) :=
  if i < 0 then .error .outOfBounds
  else if i.toNat < v.length then .ok (v.set i.toNat a)
  else .error .outOfBounds

/-- The member `back()` of a `std::vector`. -/
def vecBack {α : Type} (v : List α) : Except Fault α :=
  match v.getLast? with
  | some a => .ok a
  | none => .error .outOfBounds

/-- Conversion of an `int` to `size_t` (64 bit), as done by the usual
arithmetic conversions when an `int` meets a `size_t`: the value modulo
`2 ^ 64`, which for an `int` adds `2 ^ 64` to the negative values and keeps
the others. -/
def toSizeT (i : Int) : Int := if i < 0 then i + 2 ^ 64 else i

/-- The expression `v.size() - 1`, computed in `size_t`: the subtraction
wraps around to `2 ^ 64 - 1` exactly when the vector is empty. -/
def sizeMinusOne {α : Type} (v : List α) : Int :=
  if v.length = 0 then 2 ^ 64 - 1 else (v.length : Int) - 1

/-- Short-circuit `a && b`. -/
def andThen (a b : Except Fault Bool) : Except Fault Bool := do
  if (← a) then b else pure false

/-- Short-circuit `a || b`. -/
def orElse (a b : Except Fault Bool) : Except Fault Bool := do
  if (← a) then pure true else b

/-! ## The board -/

/-- The struct `Nonogram`: clue numbers, dimensions and the grid of tiles. -/
structure Nonogram where
  rowNums : List (List Int)
  colNums : List (List Int)
  rows : Int
  cols : Int
  grid : List (List Bool)
deriving DecidableEq

/-- The class `NonogramSolver`: the board it points to and its four counter
arrays. -/
structure NonogramSolver where
  nonogram : Nonogram
  rowNumIdxs : List Int
  colNumIdxs : List Int
  rowNumPlaced : List Int
  colNumPlaced : List Int
deriving DecidableEq

namespace NonogramSolver

/-- The constructor `NonogramSolver(Nonogram&)`: the four `resize` calls
value-initialise the counters to zero. -/
def new (n : Nonogram) : NonogramSolver :=
  { nonogram := n
    rowNumIdxs := List.replicate n.rowNums.length 0
    colNumIdxs := List.replicate n.colNums.length 0
    rowNumPlaced := List.replicate n.rowNums.length 0
    colNumPlaced := List.replicate n.colNums.length 0 }

/-- The expression `nonogram->rowNums[row][rowNumIdxs[row]]`. -/
def rowNum (s : NonogramSolver) (row : Int) : Except Fault Int := do
  let v ← vecGet s.nonogram.rowNums row
  let i ← vecGet s.rowNumIdxs row
  vecGet v i

/-- The expression `nonogram->colNums[col][colNumIdxs[col]]`. -/
def colNum (s : NonogramSolver) (col : Int) : Except Fault Int := do
  let v ← vecGet s.nonogram.colNums col
  let i ← vecGet s.colNumIdxs col
  vecGet v i

/-- The expression `nonogram->grid[row][col]`. -/
def gridGet (s : NonogramSolver) (row col : Int) : Except Fault Bool := do
  let r ← vecGet s.nonogram.grid row
  vecGet r col

/-- The assignment `nonogram->grid[row][col] = val`. -/
def gridSet (s : NonogramSolver) (row col : Int) (val : Bool) :
    Except Fault NonogramSolver := do
  let r ← vecGet s.nonogram.grid row
  let r ← vecSet r col val
  let g ← vecSet s.nonogram.grid row r
  pure { s with nonogram := { s.nonogram with grid := g } }

/-- Member `isLegal` (source lines 119-132): the check made before a tile
is placed. -/
def isLegal (s : NonogramSolver) (row col : Int) (val : Bool) : Except Fault Bool := do
  if (← andThen (pure val)
        (orElse (do pure (decide ((← vecGet s.rowNumPlaced row) ≥ (← rowNum s row))))
                (do pure (decide ((← vecGet s.colNumPlaced col) ≥ (← colNum s col)))))) then
    return false
  if (← andThen (pure (!val))
        (orElse
          (andThen (do pure (decide ((← vecGet s.rowNumPlaced row) > 0)))
                   (do pure (decide ((← vecGet s.rowNumPlaced row) < (← rowNum s row)))))
          (andThen (do pure (decide ((← vecGet s.colNumPlaced col) > 0)))
                   (do pure (decide ((← vecGet s.colNumPlaced col) < (← colNum s col))))))) then
    return false
  return true

/-- The row half of `isIllegalEnd`:
`rowNumIdxs[row] == rowNums[row].size() - 1 && rowNumPlaced[row] == rowNums[row].back()`. -/
def rowDone (s : NonogramSolver) (row : Int) : Except Fault Bool :=
  andThen (do pure (decide (toSizeT (← vecGet s.rowNumIdxs row)
                      = sizeMinusOne (← vecGet s.nonogram.rowNums row))))
          (do pure (decide ((← vecGet s.rowNumPlaced row)
                      = (← vecBack (← vecGet s.nonogram.rowNums row)))))

/-- The column half of `isIllegalEnd`. -/
def colDone (s : NonogramSolver) (col : Int) : Except Fault Bool :=
  andThen (do pure (decide (toSizeT (← vecGet s.colNumIdxs col)
                      = sizeMinusOne (← vecGet s.nonogram.colNums col))))
          (do pure (decide ((← vecGet s.colNumPlaced col)
                      = (← vecBack (← vecGet s.nonogram.colNums col)))))

/-- Member `isIllegalEnd` (source lines 135-140): the check made after a
tile is placed. -/
def isIllegalEnd (s : NonogramSolver) (row col : Int) : Except Fault Bool :=
  orElse
    (andThen (pure (decide (col = s.nonogram.cols - 1))) (do pure (!(← rowDone s row))))
    (andThen (pure (decide (row = s.nonogram.rows - 1))) (do pure (!(← colDone s col))))

/-- The statement `if (col > 0 && grid[row][col - 1] && rowNumIdxs[row] <
rowNums[row].size() - 1) { ++rowNumIdxs[row]; rowNumPlaced[row] = 0; }`
(source lines 168-173): an empty tile finishes a horizontal block. -/
def finishRowBlock (s : NonogramSolver) (row col : Int) : Except Fault NonogramSolver := do
  if (← andThen (andThen (pure (decide (col > 0))) (gridGet s row (col - 1)))
        (do pure (decide (toSizeT (← vecGet s.rowNumIdxs row)
                    < sizeMinusOne (← vecGet s.nonogram.rowNums row))))) then do
    let i ← vecGet s.rowNumIdxs row
    let s := { s with rowNumIdxs := (← vecSet s.rowNumIdxs row (i + 1)) }
    pure { s with rowNumPlaced := (← vecSet s.rowNumPlaced row 0) }
  else pure s

/-- The statement `if (row > 0 && grid[row - 1][col] && colNumIdxs[col] <
colNums[col].size() - 1) { ++colNumIdxs[col]; colNumPlaced[col] = 0; }`
(source lines 174-179): an empty tile finishes a vertical block. -/
def finishColBlock (s : NonogramSolver) (row col : Int) : Except Fault NonogramSolver := do
  if (← andThen (andThen (pure (decide (row > 0))) (gridGet s (row - 1) col))
        (do pure (decide (toSizeT (← vecGet s.colNumIdxs col)
                    < sizeMinusOne (← vecGet s.nonogram.colNums col))))) then do
    let i ← vecGet s.colNumIdxs col
    let s := { s with colNumIdxs := (← vecSet s.colNumIdxs col (i + 1)) }
    pure { s with colNumPlaced := (← vecSet s.colNumPlaced col 0) }
  else pure s

/-- The state update of a placement (source lines 159-180). -/
def place (s : NonogramSolver) (row col : Int) (val : Bool) :
    Except Fault NonogramSolver := do
  let s ← gridSet s row col val
  if val then
    let rp ← vecGet s.rowNumPlaced row
    let s := { s with rowNumPlaced := (← vecSet s.rowNumPlaced row (rp + 1)) }
    let cp ← vecGet s.colNumPlaced col
    pure { s with colNumPlaced := (← vecSet s.colNumPlaced col (cp + 1)) }
  else
    let s ← finishRowBlock s row col
    finishColBlock s row col

/-- The statement `if (col > 0 && grid[row][col - 1] && rowNumPlaced[row] == 0)
rowNumPlaced[row] = rowNums[row][--rowNumIdxs[row]];` (source lines
198-200): the decrement is sequenced before the indexing and the assignment. -/
def revertRowBlock (s : NonogramSolver) (row col : Int) : Except Fault NonogramSolver := do
  if (← andThen (andThen (pure (decide (col > 0))) (gridGet s row (col - 1)))
        (do pure (decide ((← vecGet s.rowNumPlaced row) = 0)))) then do
    let i ← vecGet s.rowNumIdxs row
    let s := { s with rowNumIdxs := (← vecSet s.rowNumIdxs row (i - 1)) }
    let x ← rowNum s row
    pure { s with rowNumPlaced := (← vecSet s.rowNumPlaced row x) }
  else pure s

/-- The statement `if (row > 0 && grid[row - 1][col] && colNumPlaced[col] == 0)
colNumPlaced[col] = colNums[col][--colNumIdxs[col]];` (source lines 201-203). -/
def revertColBlock (s : NonogramSolver) (row col : Int) : Except Fault NonogramSolver := do
  if (← andThen (andThen (pure (decide (row > 0))) (gridGet s (row - 1) col))
        (do pure (decide ((← vecGet s.colNumPlaced col) = 0)))) then do
    let i ← vecGet s.colNumIdxs col
    let s := { s with colNumIdxs := (← vecSet s.colNumIdxs col (i - 1)) }
    let x ← colNum s col
    pure { s with colNumPlaced := (← vecSet s.colNumPlaced col x) }
  else pure s

/-- The undo of a placement (source lines 189-204). -/
def undo (s : NonogramSolver) (row col : Int) (val : Bool) :
    Except Fault NonogramSolver := do
  let s ← gridSet s row col false
  if val then
    let rp ← vecGet s.rowNumPlaced row
    let s := { s with rowNumPlaced := (← vecSet s.rowNumPlaced row (rp - 1)) }
    let cp ← vecGet s.colNumPlaced col
    pure { s with colNumPlaced := (← vecSet s.colNumPlaced col (cp - 1)) }
  else
    let s ← revertRowBlock s row col
    revertColBlock s row col

/-- One iteration of the loop `for (bool val : { false, true })` of
`backtrack` (source lines 157-205); `k` is the recursive call.  The result
is `(true, _)` when the iteration executed `return true`. -/
def tryVal (k : NonogramSolver → Int → Int → Except Fault (Bool × NonogramSolver))
    (s : NonogramSolver) (row col : Int) (val : Bool) :
    Except Fault (Bool × NonogramSolver) := do
  if (← isLegal s row col val) then
    let s ← place s row col val
    let (found, s) ←
      if (← isIllegalEnd s row col) then pure (false, s) else k s row col
    if found then
      return (true, s)
    let s ← undo s row col val
    return (false, s)
  else
    return (false, s)

/-- The loop `for (bool val : { false, true })` followed by `return false`. -/
def tryBoth (k : NonogramSolver → Int → Int → Except Fault (Bool × NonogramSolver))
    (s : NonogramSolver) (row col : Int) : Except Fault (Bool × NonogramSolver) := do
  let (found, s) ← tryVal k s row col false
  if found then
    return (true, s)
  let (found, s) ← tryVal k s row col true
  if found then
    return (true, s)
  return (false, s)

/-- Member `backtrack` (source lines 143-209), with a fuel bound on the
recursion depth. -/
def backtrack : Nat → NonogramSolver → Int → Int → Except Fault (Bool × NonogramSolver)
  | 0, _, _, _ => .error .outOfFuel
  | fuel + 1, s, row, col =>
    if col + 1 = s.nonogram.cols then
      -- reached end of row
      if row + 1 = s.nonogram.rows then
        -- reached end of grid, aka solution
        .ok (true, s)
      else tryBoth (backtrack fuel) s (row + 1) 0
    else tryBoth (backtrack fuel) s row (col + 1)

/-- The message of the exception thrown by `solve`. -/
def unsolvableMsg : String := "Unsolvable Board!"

end NonogramSolver

/-- How a call of `solve` ends: it returns, or it throws
`std::invalid_argument`; either way the solver is left in some state. -/
inductive SolveOutcome where
  | returned (s : NonogramSolver)
  | thrown (msg : String) (s : NonogramSolver)
deriving DecidableEq

namespace NonogramSolver

/-- Fuel that suffices for a whole search: one call per cell, plus the
call that sees the end of the grid. -/
def solveFuel (s : NonogramSolver) : Nat := (s.nonogram.rows * s.nonogram.cols).toNat + 1

/-- Member `solve` (source lines 222-228). -/
def solve (s : NonogramSolver) : Except Fault SolveOutcome := do
  let (found, s) ← backtrack (solveFuel s) s 0 (-1)
  if !found then
    return .thrown unsolvableMsg s
  return .returned s

end NonogramSolver

/-! ## What a solution is -/

/-- Lengths of the maximal runs of `true` in a line, in reading order; the
first argument is the length of the run that is open at the start. -/
def runsAux : Nat → List Bool → List Nat
  | n, [] => if n = 0 then [] else [n]
  | n, true :: xs => runsAux (n + 1) xs
  | n, false :: xs => if n = 0 then runsAux 0 xs else n :: runsAux 0 xs

/-- Lengths of the maximal runs of `true` cells of a line, in reading order. -/
def runs (line : List Bool) : List Nat := runsAux 0 line

/-- The runs a clue sequence asks for: `[0]` asks for none. -/
def clueRuns (clue : List Int) : List Int := if clue = [0] then [] else clue

/-- A clue sequence is well formed when it is `[0]` or a non-empty list of
positive numbers. -/
def WellFormedClue (clue : List Int) : Prop := clue = [0] ∨ (clue ≠ [] ∧ ∀ x ∈ clue, 0 < x)

instance (clue : List Int) : Decidable (WellFormedClue clue) := by
  unfold WellFormedClue; infer_instance

/-- Cell `(r, c)` of a grid (`false` outside the grid). -/
def cell (g : List (List Bool)) (r c : Nat) : Bool := (g.getD r []).getD c false

/-- Column `c` of a grid, read top to bottom. -/
def column (g : List (List Bool)) (c : Nat) : List Bool := g.map (fun row => row.getD c false)

/-- The runs of a line equal the clue sequence. -/
def LineMatches (line : List Bool) (clue : List Int) : Prop :=
  (runs line).map Int.ofNat = clueRuns clue

instance (line : List Bool) (clue : List Int) : Decidable (LineMatches line clue) := by
  unfold LineMatches; infer_instance

/-- Grid `g` has the dimensions of the board and every row and column of it
matches its clue sequence. -/
def IsSolution (n : Nonogram) (g : List (List Bool)) : Prop :=
  g.length = n.rowNums.length ∧ (∀ row ∈ g, row.length = n.colNums.length) ∧
  (∀ r, r < n.rowNums.length → LineMatches (g.getD r []) (n.rowNums.getD r [])) ∧
  (∀ c, c < n.colNums.length → LineMatches (column g c) (n.colNums.getD c []))

instance (n : Nonogram) (g : List (List Bool)) : Decidable (IsSolution n g) := by
  unfold IsSolution; infer_instance

/-- A board as its constructor leaves it: at least one row and one column, the
dimensions are the numbers of clue sequences, and the grid is all `false`. -/
structure Nonogram.Fresh (n : Nonogram) : Prop where
  rows_pos : 0 < n.rowNums.length
  cols_pos : 0 < n.colNums.length
  rows_eq : n.rows = n.rowNums.length
  cols_eq : n.cols = n.colNums.length
  grid_eq : n.grid = List.replicate n.rowNums.length (List.replicate n.colNums.length false)

/-- Every clue sequence of the board is well formed. -/
def Nonogram.WellFormed (n : Nonogram) : Prop :=
  (∀ clue ∈ n.rowNums, WellFormedClue clue) ∧ (∀ clue ∈ n.colNums, WellFormedClue clue)

instance (n : Nonogram) : Decidable n.WellFormed := by
  unfold Nonogram.WellFormed; infer_instance

/-! ## The automaton a single line goes through

The four counter arrays give every row and every column a pair
`(index of the current clue, tiles placed in the current block)`.  The checks
and updates `backtrack` makes on the pair of one line only depend on that
line; they are isolated here as a small automaton over the cells of the line,
which the proofs relate to the code on one side and to `runs` on the other. -/

/-- The clue the line is at, when the index is inside the clue sequence. -/
def clueAt (clue : List Int) (idx : Int) : Option Int :=
  if idx < 0 then none else clue[idx.toNat]?

/-- The half of `isLegal` that concerns one line. -/
def lineLegal (clue : List Int) (st : Int × Int) (val : Bool) : Bool :=
  match val with
  | true =>
    match clueAt clue st.1 with
    | some x => decide (st.2 < x)
    | none => false
  | false =>
    decide (st.2 ≤ 0) ||
    match clueAt clue st.1 with
    | some x => decide (x ≤ st.2)
    | none => false

/-- The update a placement makes on the pair of one line; `prev` is the
value of the preceding cell of the line (`false` when there is none). -/
def lineNext (clue : List Int) (st : Int × Int) (prev val : Bool) : Int × Int :=
  if val then (st.1, st.2 + 1)
  else if prev && decide (toSizeT st.1 < sizeMinusOne clue) then (st.1 + 1, 0)
  else st

/-- The half of `isIllegalEnd` that concerns one line: the last clue is
the current one and it is complete. -/
def lineDone (clue : List Int) (st : Int × Int) : Bool :=
  decide (toSizeT st.1 = sizeMinusOne clue) && decide (clue.getLast? = some st.2)

/-- Run the automaton over some cells, from a given pair. -/
def lineRunFrom (clue : List Int) : Int × Int → Bool → List Bool → Option (Int × Int)
  | st, _, [] => some st
  | st, prev, v :: xs =>
    if lineLegal clue st v then lineRunFrom clue (lineNext clue st prev v) v xs else none

/-- Run the automaton over the first cells of a line, from the start. -/
def lineRun (clue : List Int) (cells : List Bool) : Option (Int × Int) :=
  lineRunFrom clue (0, 0) false cells

/-- The automaton runs through the cells and ends in a final pair. -/
def acceptsFrom (clue : List Int) (st : Int × Int) (prev : Bool) (cells : List Bool) : Bool :=
  match lineRunFrom clue st prev cells with
  | some st' => lineDone clue st'
  | none => false

/-- The automaton accepts a whole line. -/
def lineAccepts (clue : List Int) (line : List Bool) : Bool :=
  acceptsFrom clue (0, 0) false line

/-- What holds of the pair of a line after any cells, whatever the clue
sequence is. -/
structure LineInv (clue : List Int) (cells : List Bool) (st : Int × Int) : Prop where
  idx_nonneg : 0 ≤ st.1
  placed_nonneg : 0 ≤ st.2
  idx_lt : clue ≠ [] → st.1 < clue.length
  empty : clue = [] → st = (0, 0) ∧ cells.getLast? ≠ some true
  open_run : cells.getLast? = some true → ∃ x, clueAt clue st.1 = some x ∧ 1 ≤ st.2 ∧ st.2 ≤ x

/-! ## The state of the search

The search decides the cells in row-major order.  When it is about to decide
cell `(r, c)`, row `r'` has `rowLen C r c r'` decided cells and column `c'`
has `colLen r c c'`; the position `(r, C)`, one past the end of row `r`,
describes the same set of decided cells as `(r + 1, 0)`. -/

/-- The first `n` cells of row `r`. -/
def rowCells (g : List (List Bool)) (r n : Nat) : List Bool :=
  (List.range n).map (fun c => cell g r c)

/-- The first `n` cells of column `c`. -/
def colCells (g : List (List Bool)) (c n : Nat) : List Bool :=
  (List.range n).map (fun r => cell g r c)

/-- Number of decided cells of row `r'` when the search is at `(r, c)`. -/
def rowLen (C r c r' : Nat) : Nat := if r' < r then C else if r' = r then c else 0

/-- Number of decided cells of column `c'` when the search is at `(r, c)`. -/
def colLen (r c c' : Nat) : Nat := if c' < c then r + 1 else r

namespace NonogramSolver

/-- Clue sequence of row `r`. -/
def rowClue (s : NonogramSolver) (r : Nat) : List Int := s.nonogram.rowNums.getD r []

/-- Clue sequence of column `c`. -/
def colClue (s : NonogramSolver) (c : Nat) : List Int := s.nonogram.colNums.getD c []

/-- The pair of counters of row `r`. -/
def rowState (s : NonogramSolver) (r : Nat) : Int × Int :=
  (s.rowNumIdxs.getD r 0, s.rowNumPlaced.getD r 0)

/-- The pair of counters of column `c`. -/
def colState (s : NonogramSolver) (c : Nat) : Int × Int :=
  (s.colNumIdxs.getD c 0, s.colNumPlaced.getD c 0)

/-- The vectors of the solver and of its board have the sizes the
constructors give them. -/
structure Shape (s : NonogramSolver) : Prop where
  rows_pos : 0 < s.nonogram.rowNums.length
  cols_pos : 0 < s.nonogram.colNums.length
  rows_eq : s.nonogram.rows = s.nonogram.rowNums.length
  cols_eq : s.nonogram.cols = s.nonogram.colNums.length
  grid_len : s.nonogram.grid.length = s.nonogram.rowNums.length
  grid_row : ∀ row ∈ s.nonogram.grid, row.length = s.nonogram.colNums.length
  rowIdxs_len : s.rowNumIdxs.length = s.nonogram.rowNums.length
  rowPlaced_len : s.rowNumPlaced.length = s.nonogram.rowNums.length
  colIdxs_len : s.colNumIdxs.length = s.nonogram.colNums.length
  colPlaced_len : s.colNumPlaced.length = s.nonogram.colNums.length

/-- The invariant of the search at position `(r, c)`: the counters of every
line are what the automaton computes from the decided cells of the line,
every fully decided line is in a final pair, and the cells that are not
decided are `false`. -/
structure Inv (s : NonogramSolver) (r c : Nat) : Prop where
  shape : Shape s
  rowSt : ∀ r', r' < s.nonogram.rowNums.length →
    lineRun (s.rowClue r') (rowCells s.nonogram.grid r' (rowLen s.nonogram.colNums.length r c r'))
      = some (s.rowState r')
  rowFin : ∀ r', r' < s.nonogram.rowNums.length →
    rowLen s.nonogram.colNums.length r c r' = s.nonogram.colNums.length →
      lineDone (s.rowClue r') (s.rowState r') = true
  colSt : ∀ c', c' < s.nonogram.colNums.length →
    lineRun (s.colClue c') (colCells s.nonogram.grid c' (colLen r c c')) = some (s.colState c')
  colFin : ∀ c', c' < s.nonogram.colNums.length →
    colLen r c c' = s.nonogram.rowNums.length →
      lineDone (s.colClue c') (s.colState c') = true
  rest : ∀ r' c', ¬ c' < rowLen s.nonogram.colNums.length r c r' → cell s.nonogram.grid r' c' = false

/-- Two solver states are about the same board. -/
def SameBoard (s s' : NonogramSolver) : Prop :=
  s'.nonogram.rowNums = s.nonogram.rowNums ∧ s'.nonogram.colNums = s.nonogram.colNums ∧
  s'.nonogram.rows = s.nonogram.rows ∧ s'.nonogram.cols = s.nonogram.cols

end NonogramSolver

/-- Grid `G` is accepted line by line by the automaton. -/
def Accepted (n : Nonogram) (G : List (List Bool)) : Prop :=
  (∀ r, r < n.rowNums.length →
    lineAccepts (n.rowNums.getD r []) (rowCells G r n.colNums.length) = true) ∧
  (∀ c, c < n.colNums.length →
    lineAccepts (n.colNums.getD c []) (colCells G c n.rowNums.length) = true)

/-- Grids `G` and `g` agree on the cells decided at position `(r, c)`. -/
def Agree (C : Nat) (G g : List (List Bool)) (r c : Nat) : Prop :=
  ∀ r' c', c' < rowLen C r c r' → cell G r' c' = cell g r' c'

/-- Some clue sequence of the board is the empty list. -/
def HasEmptyClue (n : Nonogram) : Prop := [] ∈ n.rowNums ∨ [] ∈ n.colNums

instance (n : Nonogram) : Decidable (HasEmptyClue n) := by
  unfold HasEmptyClue; infer_instance

namespace NonogramSolver

/-- The state with grid cell `(r, c)` set to `v`. -/
def withCell (s : NonogramSolver) (r c : Nat) (v : Bool) : NonogramSolver :=
  { s with nonogram :=
      { s.nonogram with
        grid := s.nonogram.grid.set r ((s.nonogram.grid.getD r []).set c v) } }

/-- The state with the pair of counters of row `r` set to `st`. -/
def withRow (s : NonogramSolver) (r : Nat) (st : Int × Int) : NonogramSolver :=
  { s with rowNumIdxs := s.rowNumIdxs.set r st.1, rowNumPlaced := s.rowNumPlaced.set r st.2 }

/-- The state with the pair of counters of column `c` set to `st`. -/
def withCol (s : NonogramSolver) (c : Nat) (st : Int × Int) : NonogramSolver :=
  { s with colNumIdxs := s.colNumIdxs.set c st.1, colNumPlaced := s.colNumPlaced.set c st.2 }

/-- The value of the cell to the left of `(r, c)`, `false` in column 0. -/
def rowPrev (s : NonogramSolver) (r c : Nat) : Bool :=
  decide (0 < c) && cell s.nonogram.grid r (c - 1)

/-- The value of the cell above `(r, c)`, `false` in row 0. -/
def colPrev (s : NonogramSolver) (r c : Nat) : Bool :=
  decide (0 < r) && cell s.nonogram.grid (r - 1) c

/-- The state a placement of `v` at `(r, c)` leads to, in terms of the
automaton. -/
def placedAt (s : NonogramSolver) (r c : Nat) (v : Bool) : NonogramSolver :=
  ((s.withCell r c v).withRow r
      (lineNext (s.rowClue r) (s.rowState r) (s.rowPrev r c) v)).withCol c
    (lineNext (s.colClue c) (s.colState c) (s.colPrev r c) v)

end NonogramSolver

/-- What a call of the search may give when it starts at position `(r, c)` in
state `s`: a full grid that extends the decided cells and puts every line in
a final pair; or `false`, with the state as it was at the call, when no
accepted grid extends the decided cells; or an out-of-bounds read, which
needs an empty clue sequence. -/
def SearchResult (s : NonogramSolver) (r c : Nat)
    (res : Except Fault (Bool × NonogramSolver)) : Prop :=
  (∃ s', res = .ok (true, s') ∧ s.SameBoard s' ∧
      s'.Inv (s.nonogram.rowNums.length - 1) s.nonogram.colNums.length ∧
      Agree s.nonogram.colNums.length s'.nonogram.grid s.nonogram.grid r c) ∨
  (res = .ok (false, s) ∧
      ∀ G, Accepted s.nonogram G → ¬ Agree s.nonogram.colNums.length G s.nonogram.grid r c) ∨
  (res = .error .outOfBounds ∧ HasEmptyClue s.nonogram)

/-- What one iteration of the loop of `backtrack` may give for the value
`v` at cell `(r, c)`: as `SearchResult`, the failure now only excluding the
accepted grids that have `v` at `(r, c)`. -/
def TryResult (s : NonogramSolver) (r c : Nat) (v : Bool)
    (res : Except Fault (Bool × NonogramSolver)) : Prop :=
  (∃ s', res = .ok (true, s') ∧ s.SameBoard s' ∧
      s'.Inv (s.nonogram.rowNums.length - 1) s.nonogram.colNums.length ∧
      Agree s.nonogram.colNums.length s'.nonogram.grid s.nonogram.grid r c) ∨
  (res = .ok (false, s) ∧
      ∀ G, Accepted s.nonogram G → Agree s.nonogram.colNums.length G s.nonogram.grid r c →
        cell G r c ≠ v) ∨
  (res = .error .outOfBounds ∧ HasEmptyClue s.nonogram)

/-! ## Boards given by their clues -/

/-- The board the constructor of `Nonogram` builds once the clue numbers
are read: the dimensions are the numbers of clue sequences and the grid is
all `false` (`grid.resize(rows, std::vector<bool>(cols))`). -/
def Nonogram.ofClues (R C : List (List Int)) : Nonogram :=
  { rowNums := R
    colNums := C
    rows := R.length
    cols := C.length
    grid := List.replicate R.length (List.replicate C.length false) }

/-- Scenario 1: the board string `3/1/3/1/1|0/1 1/1 1/5/0`. -/
def board1 : Nonogram := Nonogram.ofClues [[3], [1], [3], [1], [1]] [[0], [1, 1], [1, 1], [5], [0]]

/-- Scenario 2: a 1x1 board with row clue `[1]` and column clue `[1]`. -/
def board2 : Nonogram := Nonogram.ofClues [[1]] [[1]]

/-- Scenario 3: a 2x2 board with row clues `[[1],[1]]` and column clues
`[[2],[0]]`. -/
def board3 : Nonogram := Nonogram.ofClues [[1], [1]] [[2], [0]]

/-- Scenario 4: a 1x2 board with row clue `[2]` and column clues
`[[1],[0]]`. -/
def board4 : Nonogram := Nonogram.ofClues [[2]] [[1], [0]]

/-! ## The calls made during a solve -/

namespace NonogramSolver

/-- The cell a call `backtrack(row, col)` decides: the one after `(row, col)`
in row-major order (source lines 145-152); none when `(row, col)` is the last
cell, where the call returns `true`. -/
def nextCell (s : NonogramSolver) (row col : Int) : Option (Int × Int) :=
  if col + 1 = s.nonogram.cols then
    if row + 1 = s.nonogram.rows then none else some (row + 1, 0)
  else some (row, col + 1)

/-- The calls `backtrack fuel s row col` made while `solve` runs on a fresh
solver over the board `n`: the call made by `solve`, and the calls a call
makes in the two iterations of its loop.  The second iteration starts in the
state `s0` the first one left. -/
inductive Called (n : Nonogram) : Nat → NonogramSolver → Int → Int → Prop
  | start : Called n (new n).solveFuel (new n) 0 (-1)
  | onFalse {fuel : Nat} {s s1 : NonogramSolver} {row col row' col' : Int} :
      Called n (fuel + 1) s row col → nextCell s row col = some (row', col') →
      isLegal s row' col' false = .ok true → place s row' col' false = .ok s1 →
      isIllegalEnd s1 row' col' = .ok false → Called n fuel s1 row' col'
  | onTrue {fuel : Nat} {s s0 s1 : NonogramSolver} {row col row' col' : Int} :
      Called n (fuel + 1) s row col → nextCell s row col = some (row', col') →
      tryVal (backtrack fuel) s row' col' false = .ok (false, s0) →
      isLegal s0 row' col' true = .ok true → place s0 row' col' true = .ok s1 →
      isIllegalEnd s1 row' col' = .ok false → Called n fuel s1 row' col'

end NonogramSolver

namespace NonogramSolver

/-- The four counter arrays of `s'` equal those of `s`, entry by entry. -/
def SameCounters (s s' : NonogramSolver) : Prop :=
  s'.rowNumIdxs = s.rowNumIdxs ∧ s'.rowNumPlaced = s.rowNumPlaced ∧
  s'.colNumIdxs = s.colNumIdxs ∧ s'.colNumPlaced = s.colNumPlaced

end NonogramSolver

/-- Member `clearGrid` (source lines 84-87):
`grid.assign(rows, std::vector<bool>(cols))`.  The members `rows` and `cols`
are sizes of vectors, so they are not negative and `toNat` is their
conversion to `size_t`. -/
def Nonogram.clearGrid (n : Nonogram) : Nonogram :=
  { n with grid := List.replicate n.rows.toNat (List.replicate n.cols.toNat false) }

/-- The solver state the first `solve` on scenario 2 ends in. -/
def board2Solved : NonogramSolver :=
  { nonogram := { board2 with grid := [[true]] }
    rowNumIdxs := [0]
    colNumIdxs := [0]
    rowNumPlaced := [1]
    colNumPlaced := [1] }

/-- The solver state a second `solve` on the same solver ends in. -/
def board2SolvedAgain : NonogramSolver :=
  { nonogram := { board2 with grid := [[false]] }
    rowNumIdxs := [0]
    colNumIdxs := [0]
    rowNumPlaced := [1]
    colNumPlaced := [1] }

/-- The grid scenario 1 is solved with. -/
def grid1 : List (List Bool) :=
  [[false, true, true, true, false],
   [false, false, false, true, false],
   [false, true, true, true, false],
   [false, false, false, true, false],
   [false, false, false, true, false]]

/-- The solver state `solve` ends in on scenario 1. -/
def board1Solved : NonogramSolver :=
  { nonogram := { board1 with grid := grid1 }
    rowNumIdxs := [0, 0, 0, 0, 0]
    colNumIdxs := [0, 1, 1, 0, 0]
    rowNumPlaced := [3, 1, 3, 1, 1]
    colNumPlaced := [0, 1, 1, 5, 0] }

/-! ## The constructor of the board from a board string -/

/-- How the constructor of `Nonogram` can fail: the two exceptions of
`std::stoi`, and the fuel of the embedding running out. -/
inductive CtorError where
  | invalidArgument
  | outOfRange
  | outOfFuel
deriving DecidableEq

/-- The expression `boardStr[i]` on a `const std::string`: the character at
`i`, and the null character at `i == boardStr.length()`.  The constructor
never reads further: it only increments `i` past a character that is not
null. -/
def charAt (boardStr : List Char) (i : Nat) : Char := boardStr.getD i (Char.ofNat 0)

/-- The value of a string of decimal digits. -/
def digitsValue (numStr : List Char) : Nat :=
  numStr.foldl (fun acc ch => 10 * acc + (ch.toNat - 48)) 0

/-- The function `std::stoi` on a string of decimal digits, the only strings
the constructor passes to it: `std::invalid_argument` on the empty string,
`std::out_of_range` when the value does not fit an `int`. -/
def stoi (numStr : List Char) : Except CtorError Int :=
  if numStr = [] then .error .invalidArgument
  else
    if digitsValue numStr < 2 ^ 31 then .ok (digitsValue numStr : Int) else .error .outOfRange

/-- The loop `while (std::isdigit(boardStr[i])) numStr += boardStr[i++];`
(source lines 41-42). -/
def readDigits (boardStr : List Char) : Nat → Nat → List Char → Except CtorError (List Char × Nat)
  | 0, _, _ => .error .outOfFuel
  | fuel + 1, i, numStr =>
    if (charAt boardStr i).isDigit then
      readDigits boardStr fuel (i + 1) (numStr ++ [charAt boardStr i])
    else .ok (numStr, i)

/-- The loop `while (i < boardStr.length() && std::isdigit(boardStr[i]))
numStr += boardStr[i++];` (source lines 68-69). -/
def readDigitsBounded (boardStr : List Char) :
    Nat → Nat → List Char → Except CtorError (List Char × Nat)
  | 0, _, _ => .error .outOfFuel
  | fuel + 1, i, numStr =>
    if decide (i < boardStr.length) && (charAt boardStr i).isDigit then
      readDigitsBounded boardStr fuel (i + 1) (numStr ++ [charAt boardStr i])
    else .ok (numStr, i)

/-- The loop that reads `rowNums` (source lines 20-45); it gives the rows
and the position of the `'|'`. -/
def readRowNums (boardStr : List Char) :
    Nat → Nat → List Int → List (List Int) → Except CtorError (List (List Int) × Nat)
  | 0, _, _, _ => .error .outOfFuel
  | fuel + 1, i, curr, rowNums =>
    if charAt boardStr i = '|' then
      -- reached end of rowNums
      .ok (rowNums ++ [curr], i)
    else if charAt boardStr i = '/' then
      -- reached end of current rowNum
      readRowNums boardStr fuel (i + 1) [] (rowNums ++ [curr])
    else if charAt boardStr i = ' ' then
      readRowNums boardStr fuel (i + 1) curr rowNums
    else do
      -- parse the number and add it to curr
      let (numStr, j) ← readDigits boardStr (boardStr.length + 1) i []
      let v ← stoi numStr
      readRowNums boardStr fuel j (curr ++ [v]) rowNums

/-- The loop that reads `colNums` (source lines 51-73), with the
`colNums.push_back(curr)` that follows it. -/
def readColNums (boardStr : List Char) :
    Nat → Nat → List Int → List (List Int) → Except CtorError (List (List Int))
  | 0, _, _, _ => .error .outOfFuel
  | fuel + 1, i, curr, colNums =>
    if i < boardStr.length then
      if charAt boardStr i = '/' then
        -- reached end of current colNum
        readColNums boardStr fuel (i + 1) [] (colNums ++ [curr])
      else if charAt boardStr i = ' ' then
        readColNums boardStr fuel (i + 1) curr colNums
      else do
        -- parse the number and add it to curr
        let (numStr, j) ← readDigitsBounded boardStr (boardStr.length + 1) i []
        let v ← stoi numStr
        readColNums boardStr fuel j (curr ++ [v]) colNums
    else .ok (colNums ++ [curr])

/-- The constructor `Nonogram(const std::string &boardStr)` (source lines
14-81), on the characters of the board string. -/
def Nonogram.ofString (boardStr : List Char) : Except CtorError Nonogram := do
  let (rowNums, i) ← readRowNums boardStr (boardStr.length + 1) 0 [] []
  let colNums ← readColNums boardStr (boardStr.length + 1) (i + 1) [] []
  pure (Nonogram.ofClues rowNums colNums)

/-! ## Writing a board string -/

/-- The number `n` written in decimal. -/
def decimal (n : Nat) : List Char := Nat.toDigits 10 n

/-- The numbers of a line written in decimal and joined with a single
space. -/
def encodeLine : List Nat → List Char
  | [] => []
  | [n] => decimal n
  | n :: m :: rest => decimal n ++ ' ' :: encodeLine (m :: rest)

/-- The lines joined with `'/'`. -/
def encodeLines : List (List Nat) → List Char
  | [] => []
  | [l] => encodeLine l
  | l :: l' :: rest => encodeLine l ++ '/' :: encodeLines (l' :: rest)

/-- The board string of the row clues `R` and the column clues `C`: the row
part and the column part joined with `'|'`. -/
def encodeBoard (R C : List (List Nat)) : List Char :=
  encodeLines R ++ '|' :: encodeLines C

/-! ## Rendering the board -/

/-- The member `pop_back()` of a `std::string`, which is undefined on the
empty string. -/
def popBack (res : List Char) : Except Fault (List Char) :=
  if res = [] then .error .outOfBounds else .ok res.dropLast

/-- The glyph of a tile: `U+25A0` when it is filled, `U+25A1` when it is
empty. -/
def glyph (sq : Bool) : Char := if sq then Char.ofNat 0x25A0 else Char.ofNat 0x25A1

/-- The loop `for (bool sq : row) res += sq ? "■ " : "□ ";`
(source lines 96-98). -/
def appendTiles (res : List Char) (row : List Bool) : List Char :=
  row.foldl (fun res sq => res ++ [glyph sq, ' ']) res

/-- Member `toString` (source lines 90-105).  The `std::string` is taken as
a list of characters; in the source it holds the UTF-8 bytes of the glyphs
and `pop_back` removes one byte, which whenever the string is not empty is
the space or the newline that was appended last. -/
def Nonogram.toString (n : Nonogram) : Except Fault (List Char) := do
  let res ← n.grid.foldlM (fun res row => do
    let res ← popBack (appendTiles res row)
    pure (res ++ ['\n'])) []
  popBack res

/-- The rendering of a row: the glyphs of its cells joined by a single
space. -/
def renderRow (row : List Bool) : List Char :=
  List.intercalate [' '] (row.map fun sq => [glyph sq])

/-- The rendering of a grid: the renderings of its rows joined by a single
newline. -/
def renderGrid (g : List (List Bool)) : List Char :=
  List.intercalate ['\n'] (g.map renderRow)

/-! ## Filled cells at the end of a decided prefix -/

/-- The number of consecutive `true` cells at the end of some cells: the
filled cells that immediately precede the next cell. -/
def trailingFilled (cells : List Bool) : Nat := (cells.reverse.takeWhile fun b => b).length

/-- A 1x3 board with row clue `[1]` and column clues `[[1],[0],[0]]`. -/
def board5 : Nonogram := Nonogram.ofClues [[1]] [[1], [0], [0]]

/-- The state in which the search on `board5` enters `backtrack(0, 1)`: cell
`(0, 0)` is filled and cell `(0, 1)` is empty. -/
def board5Mid : NonogramSolver :=
  { nonogram := { board5 with grid := [[true, false, false]] }
    rowNumIdxs := [0]
    colNumIdxs := [0, 0, 0]
    rowNumPlaced := [1]
    colNumPlaced := [1, 0, 0] }

/-! ## Completing a line -/

/-- Cells that hold one block for each of the given lengths, every block
after an empty cell. -/
def blocks : List Nat → List Bool
  | [] => []
  | y :: ys => false :: (List.replicate y true ++ blocks ys)

/-- A 2x2 board with row clues `[[2],[0]]` and column clues `[[1],[1]]`. -/
def board6 : Nonogram := Nonogram.ofClues [[2], [0]] [[1], [1]]

/-! ## The order of the search -/

/-- Grid `g` comes before grid `G` in the lexicographic order on grids read
in row-major order with `false < true`: at the first cell at which the two
differ, `g` is empty and `G` is filled.  `C` is the number of columns. -/
def LexBefore (C : Nat) (g G : List (List Bool)) : Prop :=
  ∃ r c, c < C ∧ Agree C G g r c ∧ cell g r c = false ∧ cell G r c = true

/-- What a successful call of the search at position `(r, c)` gives, in the
order of the grids: every accepted grid that extends the decided cells is the
grid found or comes after it. -/
def LexLeast (s : NonogramSolver) (r c : Nat)
    (res : Except Fault (Bool × NonogramSolver)) : Prop :=
  ∀ s', res = .ok (true, s') → ∀ G, Accepted s.nonogram G →
    Agree s.nonogram.colNums.length G s.nonogram.grid r c →
      (∀ r' c', r' < s.nonogram.rowNums.length → c' < s.nonogram.colNums.length →
        cell G r' c' = cell s'.nonogram.grid r' c') ∨
      LexBefore s.nonogram.colNums.length s'.nonogram.grid G

/-- A 2x2 board with two solutions: row clues `[[1],[1]]` and column clues
`[[1],[1]]`. -/
def board7 : Nonogram := Nonogram.ofClues [[1], [1]] [[1], [1]]

/-- The solver state `solve` ends in on `board7`. -/
def board7Solved : NonogramSolver :=
  { nonogram := { board7 with grid := [[false, true], [true, false]] }
    rowNumIdxs := [0, 0]
    colNumIdxs := [0, 0]
    rowNumPlaced := [1, 1]
    colNumPlaced := [1, 1] }

/-! ## Searches that start from another grid -/

namespace NonogramSolver

/-- The state with the grid replaced by `g`. -/
def withGrid (t : NonogramSolver) (g : List (List Bool)) : NonogramSolver :=
  { t with nonogram := { t.nonogram with grid := g } }

/-- State `s` is state `t` with another grid of the same shape, which has
the cells of `t` that are decided at position `(r, c)`. -/
def Shadow (t : NonogramSolver) (r c : Nat) (s : NonogramSolver) : Prop :=
  ∃ g, s = t.withGrid g ∧ g.length = t.nonogram.rowNums.length ∧
    (∀ row ∈ g, row.length = t.nonogram.colNums.length) ∧
    Agree t.nonogram.colNums.length g t.nonogram.grid r c

/-- How the result `rs` of a step of the search from a shadow of `t` is
related to the result `rt` of the same step from `t`: both find the same
final state, or both fail and leave a shadow of `t`, or both run into the
same fault. -/
def ShadowResult (t : NonogramSolver) (r c : Nat)
    (rt rs : Except Fault (Bool × NonogramSolver)) : Prop :=
  (∃ t', rt = .ok (true, t') ∧ rs = .ok (true, t')) ∨
  (rt = .ok (false, t) ∧ ∃ s', rs = .ok (false, s') ∧ Shadow t r c s') ∨
  (∃ e, rt = .error e ∧ rs = .error e)

end NonogramSolver

/-- The state in which the search on `board7` enters `backtrack(0, 1)`: row 0
is decided as `[false, true]`. -/
def board7Row : NonogramSolver :=
  { nonogram := { board7 with grid := [[false, true], [false, false]] }
    rowNumIdxs := [0, 0]
    colNumIdxs := [0, 0]
    rowNumPlaced := [1, 0]
    colNumPlaced := [0, 1] }

/-! # Theorems -/

/-! ## Runs of a line -/

theorem runsAux_succ_ne_nil (k : Nat) (xs : List Bool) : runsAux (k + 1) xs ≠ [] := by
  induction xs generalizing k with
  | nil => simp [runsAux]
  | cons v xs ih => cases v <;> simp [runsAux, ih]

theorem runsAux_succ_head (k : Nat) (xs : List Bool) :
    ∃ a rest, runsAux (k + 1) xs = a :: rest ∧ k + 1 ≤ a := by
  induction xs generalizing k with
  | nil => exact ⟨k + 1, [], by simp [runsAux], le_refl _⟩
  | cons v xs ih =>
    cases v
    · exact ⟨k + 1, runsAux 0 xs, by simp [runsAux], le_refl _⟩
    · obtain ⟨a, rest, h, hle⟩ := ih (k + 1)
      exact ⟨a, rest, by simp [runsAux, h], by omega⟩

/-! ## The line automaton against `runs` -/

theorem toSizeT_of_nonneg {i : Int} (h : 0 ≤ i) : toSizeT i = i := by
  unfold toSizeT; split <;> omega

theorem sizeMinusOne_of_ne_nil {α : Type} {v : List α} (h : v ≠ []) :
    sizeMinusOne v = (v.length : Int) - 1 := by
  unfold sizeMinusOne
  have : v.length ≠ 0 := by simpa using h
  simp [this]

theorem clueAt_append_length (pre post : List Int) (x : Int) :
    clueAt (pre ++ x :: post) (pre.length : Int) = some x := by
  unfold clueAt
  have h : ¬ ((pre.length : Int) < 0) := by omega
  rw [if_neg h, Int.toNat_ofNat, List.getElem?_append_right (le_refl _)]
  simp

theorem acceptsFrom_nil (clue : List Int) (st : Int × Int) (prev : Bool) :
    acceptsFrom clue st prev [] = lineDone clue st := by
  simp [acceptsFrom, lineRunFrom]

theorem acceptsFrom_cons (clue : List Int) (st : Int × Int) (prev v : Bool) (xs : List Bool) :
    acceptsFrom clue st prev (v :: xs) =
      (lineLegal clue st v && acceptsFrom clue (lineNext clue st prev v) v xs) := by
  unfold acceptsFrom
  simp only [lineRunFrom]
  split <;> simp_all

/-- After the last block is complete the automaton accepts exactly the
cells that are all empty. -/
theorem acceptsFrom_finished (pre : List Int) (x : Int) (xs : List Bool) :
    acceptsFrom (pre ++ [x]) ((pre.length : Int), x) false xs = true ↔ runsAux 0 xs = [] := by
  induction xs with
  | nil =>
    simp [acceptsFrom_nil, lineDone, runsAux, toSizeT_of_nonneg, sizeMinusOne_of_ne_nil]
  | cons v xs ih =>
    rw [acceptsFrom_cons]
    cases v
    · have hl : lineLegal (pre ++ [x]) ((pre.length : Int), x) false = true := by
        simp [lineLegal, clueAt_append_length]
      simp [hl, lineNext, runsAux, ih]
    · have hl : lineLegal (pre ++ [x]) ((pre.length : Int), x) true = false := by
        simp [lineLegal, clueAt_append_length]
      simp [hl, runsAux, runsAux_succ_ne_nil]

theorem lineDone_append_cons (pre post : List Int) (x k : Int) :
    lineDone (pre ++ x :: post) ((pre.length : Int), k) = true ↔ post = [] ∧ x = k := by
  have hne : pre ++ x :: post ≠ [] := by simp
  have h0 : (0 : Int) ≤ (pre.length : Int) := by omega
  cases post with
  | nil =>
    simp [lineDone, toSizeT_of_nonneg h0, sizeMinusOne_of_ne_nil hne]
  | cons y ys =>
    simp only [lineDone, toSizeT_of_nonneg h0, sizeMinusOne_of_ne_nil hne]
    simp
    intro h
    omega

theorem lineNext_false_append_cons (pre post : List Int) (x k : Int) (prev : Bool) :
    lineNext (pre ++ x :: post) ((pre.length : Int), k) prev false =
      if prev = true ∧ post ≠ [] then ((pre.length : Int) + 1, 0) else ((pre.length : Int), k) := by
  have hne : pre ++ x :: post ≠ [] := by simp
  have h0 : (0 : Int) ≤ (pre.length : Int) := by omega
  simp only [lineNext, toSizeT_of_nonneg h0, sizeMinusOne_of_ne_nil hne]
  cases post with
  | nil => simp
  | cons y ys =>
    cases prev <;> simp

/-- From a pair inside the clue sequence `pre ++ x :: post`, at the clue
`x`, the automaton accepts exactly the cells whose runs, the open block
included, are `x :: post`. -/
theorem acceptsFrom_open (xs : List Bool) :
    ∀ (pre post : List Int) (x : Int) (k : Nat), 0 < x → (∀ y ∈ post, 0 < y) →
      (1 ≤ k → (k : Int) ≤ x →
        (acceptsFrom (pre ++ x :: post) ((pre.length : Int), (k : Int)) true xs = true ↔
          (runsAux k xs).map Int.ofNat = x :: post)) ∧
      (acceptsFrom (pre ++ x :: post) ((pre.length : Int), 0) false xs = true ↔
          (runsAux 0 xs).map Int.ofNat = x :: post) := by
  induction xs with
  | nil =>
    intro pre post x k hx hpost
    refine ⟨fun hk1 hkx => ?_, ?_⟩
    · rw [acceptsFrom_nil, lineDone_append_cons]
      have : k ≠ 0 := by omega
      simp [runsAux, this]
      constructor
      · rintro ⟨h1, h2⟩; exact ⟨h2.symm, h1⟩
      · rintro ⟨h1, h2⟩; exact ⟨h2, h1.symm⟩
    · rw [acceptsFrom_nil, lineDone_append_cons]
      simp [runsAux]
      intro _; omega
  | cons v xs ih =>
    intro pre post x k hx hpost
    cases v with
    | false =>
      refine ⟨fun hk1 hkx => ?_, ?_⟩
      · rw [acceptsFrom_cons]
        have hk0 : k ≠ 0 := by omega
        have hleg : lineLegal (pre ++ x :: post) ((pre.length : Int), (k : Int)) false
            = decide (x ≤ (k : Int)) := by
          have : ¬ ((k : Int) ≤ 0) := by omega
          simp [lineLegal, clueAt_append_length, this]
        rw [hleg, lineNext_false_append_cons]
        simp only [runsAux, if_neg hk0, List.map_cons, Bool.and_eq_true, decide_eq_true_eq]
        cases post with
        | nil =>
          simp only [ne_eq, not_true_eq_false, and_false, if_false]
          constructor
          · rintro ⟨h1, h2⟩
            have hkx' : (k : Int) = x := by omega
            rw [← hkx'] at h2
            have := (acceptsFrom_finished pre (k : Int) xs).1 (by simpa using h2)
            simp [this, hkx']
          · intro h
            simp only [List.cons.injEq, List.map_eq_nil_iff] at h
            obtain ⟨h1, h2⟩ := h
            have h1' : (k : Int) = x := h1
            refine ⟨by omega, ?_⟩
            rw [h1']
            exact (acceptsFrom_finished pre x xs).2 h2
        | cons y ys =>
          have hy : 0 < y := hpost y (by simp)
          have hys : ∀ z ∈ ys, 0 < z := fun z hz => hpost z (by simp [hz])
          have hB := (ih (pre ++ [x]) ys y 0 hy hys).2
          have hcl : (pre ++ [x]) ++ y :: ys = pre ++ x :: y :: ys := by simp
          have hlen : (((pre ++ [x]).length : Nat) : Int) = (pre.length : Int) + 1 := by simp
          rw [hcl, hlen] at hB
          simp only [ne_eq, reduceCtorEq, not_false_eq_true, and_self, if_true]
          rw [hB]
          simp only [List.cons.injEq]
          constructor
          · rintro ⟨h1, h2⟩
            exact ⟨by show (k : Int) = x; omega, h2⟩
          · rintro ⟨h1, h2⟩
            have h1' : (k : Int) = x := h1
            exact ⟨by omega, h2⟩
      · rw [acceptsFrom_cons]
        have hleg : lineLegal (pre ++ x :: post) ((pre.length : Int), 0) false = true := by
          simp [lineLegal]
        rw [hleg, lineNext_false_append_cons]
        simp only [Bool.true_and, Bool.false_eq_true, false_and, if_false, runsAux, if_true]
        exact (ih pre post x 0 hx hpost).2
    | true =>
      refine ⟨fun hk1 hkx => ?_, ?_⟩
      · rw [acceptsFrom_cons]
        have hleg : lineLegal (pre ++ x :: post) ((pre.length : Int), (k : Int)) true
            = decide ((k : Int) < x) := by
          simp [lineLegal, clueAt_append_length]
        rw [hleg]
        simp only [lineNext, if_true, runsAux, Bool.and_eq_true, decide_eq_true_eq]
        by_cases hlt : (k : Int) < x
        · have hA := (ih pre post x (k + 1) hx hpost).1 (by omega) (by push_cast; omega)
          have hc : ((k : Int) + 1) = ((k + 1 : Nat) : Int) := by push_cast; rfl
          rw [hc, hA]
          simp [hlt]
        · constructor
          · rintro ⟨h1, _⟩; exact absurd h1 hlt
          · intro h
            obtain ⟨a, rest, hr, hle⟩ := runsAux_succ_head k xs
            rw [hr] at h
            simp only [List.map_cons, List.cons.injEq] at h
            have : (a : Int) = x := h.1
            omega
      · rw [acceptsFrom_cons]
        have hleg : lineLegal (pre ++ x :: post) ((pre.length : Int), 0) true = true := by
          simp [lineLegal, clueAt_append_length, hx]
        rw [hleg]
        simp only [lineNext, if_true, runsAux, Bool.true_and]
        have hA := (ih pre post x 1 hx hpost).1 (le_refl _) (by omega)
        simpa using hA

/-- On a well-formed clue sequence the automaton accepts exactly the lines
whose runs are the clue sequence. -/
theorem lineAccepts_iff {clue : List Int} (h : WellFormedClue clue) (line : List Bool) :
    lineAccepts clue line = true ↔ LineMatches line clue := by
  rcases h with h | ⟨hne, hpos⟩
  · subst h
    have := acceptsFrom_finished [] 0 line
    simp only [List.nil_append, List.length_nil, Nat.cast_zero] at this
    unfold lineAccepts LineMatches clueRuns runs
    rw [this, if_pos rfl]
    simp
  · cases clue with
    | nil => exact absurd rfl hne
    | cons x post =>
      have hx : 0 < x := hpos x (by simp)
      have hpost : ∀ y ∈ post, 0 < y := fun y hy => hpos y (by simp [hy])
      have := (acceptsFrom_open line [] post x 0 hx hpost).2
      simp only [List.nil_append, List.length_nil, Nat.cast_zero] at this
      have hne0 : ¬ (x :: post = [0]) := by
        intro h0
        simp only [List.cons.injEq] at h0
        omega
      unfold lineAccepts LineMatches clueRuns runs
      rw [this, if_neg hne0]

/-! ## General facts on the automaton -/

theorem lineRunFrom_append (clue : List Int) (xs : List Bool) (v : Bool) :
    ∀ (st : Int × Int) (prev : Bool),
      lineRunFrom clue st prev (xs ++ [v]) =
        match lineRunFrom clue st prev xs with
        | some st' =>
          if lineLegal clue st' v then some (lineNext clue st' (xs.getLast?.getD prev) v)
          else none
        | none => none := by
  induction xs with
  | nil => intro st prev; simp [lineRunFrom]
  | cons x xs ih =>
    intro st prev
    simp only [List.cons_append, lineRunFrom]
    by_cases hl : lineLegal clue st x = true
    · have hlast : (x :: xs).getLast?.getD prev = xs.getLast?.getD x := by
        cases xs with
        | nil => simp
        | cons y ys =>
          rw [List.getLast?_cons_cons, List.getLast?_eq_getLast (y :: ys) (by simp)]
          simp
      simp only [hl, if_true, List.append_eq]
      rw [ih, hlast]
    · simp [hl]

theorem lineRun_append (clue : List Int) (xs : List Bool) (v : Bool) :
    lineRun clue (xs ++ [v]) =
      match lineRun clue xs with
      | some st' =>
        if lineLegal clue st' v then some (lineNext clue st' (xs.getLast?.getD false) v)
        else none
      | none => none :=
  lineRunFrom_append clue xs v (0, 0) false

theorem lineRunFrom_isSome_of_append (clue : List Int) (xs ys : List Bool) :
    ∀ (st : Int × Int) (prev : Bool),
      (lineRunFrom clue st prev (xs ++ ys)).isSome = true →
        (lineRunFrom clue st prev xs).isSome = true := by
  induction xs with
  | nil => intro st prev _; simp [lineRunFrom]
  | cons x xs ih =>
    intro st prev h
    simp only [List.cons_append, lineRunFrom] at h ⊢
    by_cases hl : lineLegal clue st x = true
    · simp only [hl, if_true] at h ⊢
      exact ih _ _ h
    · simp [hl] at h

theorem clueAt_nil (i : Int) : clueAt [] i = none := by
  unfold clueAt; split <;> simp

theorem lineInv_of_lineRun (clue : List Int) (cells : List Bool) :
    ∀ st, lineRun clue cells = some st → LineInv clue cells st := by
  induction cells using List.reverseRecOn with
  | nil =>
    intro st h
    simp only [lineRun, lineRunFrom, Option.some.injEq] at h
    subst h
    refine ⟨le_refl _, le_refl _, ?_, ?_, ?_⟩
    · intro hne
      have : 0 < clue.length := List.length_pos.2 hne
      simp only; omega
    · intro _; simp
    · simp
  | append_singleton xs v ih =>
    intro st h
    rw [lineRun_append] at h
    cases hrun : lineRun clue xs with
    | none => simp [hrun] at h
    | some st0 =>
      have h0 := ih st0 hrun
      simp only [hrun] at h
      by_cases hl : lineLegal clue st0 v = true
      · simp only [hl, if_true, Option.some.injEq] at h
        subst h
        cases v with
        | true =>
          simp only [lineLegal] at hl
          cases hc : clueAt clue st0.1 with
          | none => simp [hc] at hl
          | some x =>
            simp only [hc, decide_eq_true_eq] at hl
            have hne : clue ≠ [] := by
              intro he; rw [he, clueAt_nil] at hc; cases hc
            refine ⟨h0.idx_nonneg, ?_, ?_, ?_, ?_⟩
            · simp only [lineNext, if_true]; have := h0.placed_nonneg; omega
            · intro _; exact h0.idx_lt hne
            · intro he; exact absurd he hne
            · intro _
              refine ⟨x, ?_, ?_, ?_⟩
              · simpa [lineNext] using hc
              · simp only [lineNext, if_true]; have := h0.placed_nonneg; omega
              · simp only [lineNext, if_true]; omega
        | false =>
          by_cases hadv : (xs.getLast?.getD false && decide (toSizeT st0.1 < sizeMinusOne clue)) = true
          · have hst : lineNext clue st0 (xs.getLast?.getD false) false = (st0.1 + 1, 0) := by
              simp only [lineNext, Bool.false_eq_true, if_false, hadv, if_true]
            rw [hst]
            simp only [Bool.and_eq_true, decide_eq_true_eq] at hadv
            have hlast : xs.getLast? = some true := by
              cases hx : xs.getLast? with
              | none => simp [hx] at hadv
              | some b => cases b <;> simp_all
            have hne : clue ≠ [] := fun he => (h0.empty he).2 hlast
            have hlt := h0.idx_lt hne
            have h1 := hadv.2
            rw [toSizeT_of_nonneg h0.idx_nonneg, sizeMinusOne_of_ne_nil hne] at h1
            refine ⟨?_, le_refl _, ?_, ?_, ?_⟩
            · have := h0.idx_nonneg; simp only; omega
            · intro _; simp only; omega
            · intro he; exact absurd he hne
            · simp
          · have hst : lineNext clue st0 (xs.getLast?.getD false) false = st0 := by
              simp only [lineNext, Bool.false_eq_true, if_false, hadv]
            rw [hst]
            refine ⟨h0.idx_nonneg, h0.placed_nonneg, h0.idx_lt, ?_, ?_⟩
            · intro he; exact ⟨(h0.empty he).1, by simp⟩
            · simp
      · simp [hl] at h

/-! ## Vectors -/

theorem vecGet_nat {α : Type} (v : List α) (n : Nat) (d : α) (h : n < v.length) :
    vecGet v (n : Int) = .ok (v.getD n d) := by
  unfold vecGet
  have h0 : ¬ ((n : Int) < 0) := by omega
  rw [if_neg h0, Int.toNat_ofNat]
  simp [List.getD, List.getElem?_eq_getElem h]

theorem vecSet_nat {α : Type} (v : List α) (n : Nat) (a : α) (h : n < v.length) :
    vecSet v (n : Int) a = .ok (v.set n a) := by
  unfold vecSet
  have h0 : ¬ ((n : Int) < 0) := by omega
  rw [if_neg h0, Int.toNat_ofNat, if_pos h]

theorem getD_set {α : Type} (v : List α) (n m : Nat) (a d : α) (h : n < v.length) :
    (v.set n a).getD m d = if m = n then a else v.getD m d := by
  simp only [List.getD_eq_getElem?_getD, List.getElem?_set]
  by_cases hmn : n = m
  · subst hmn; simp [h]
  · have : ¬ m = n := fun h => hmn h.symm
    simp [hmn, this]

theorem set_getD_self {α : Type} (v : List α) (n : Nat) (d : α) :
    v.set n (v.getD n d) = v := by
  by_cases h : n < v.length
  · apply List.ext_getElem?
    intro m
    rw [List.getElem?_set]
    by_cases hm : n = m
    · subst hm
      simp [h, List.getElem?_eq_getElem h]
    · simp [hm]
  · rw [List.set_eq_of_length_le (by omega)]

@[simp] theorem Except_ok_bind {ε α β : Type} (a : α) (f : α → Except ε β) :
    (Except.ok a >>= f) = f a := rfl

@[simp] theorem Except_error_bind {ε α β : Type} (e : ε) (f : α → Except ε β) :
    (Except.error e >>= f) = Except.error e := rfl

@[simp] theorem Except_ite_bind {ε α β : Type} (p : Prop) [Decidable p] (a b : Except ε α)
    (f : α → Except ε β) :
    ((if p then a else b) >>= f) = if p then a >>= f else b >>= f := by
  split <;> rfl

@[simp] theorem Except_pure_eq {ε α : Type} (a : α) : (pure a : Except ε α) = Except.ok a := rfl

@[simp] theorem andThen_ok (a : Bool) (b : Except Fault Bool) :
    andThen (.ok a) b = if a then b else .ok false := by
  cases a <;> rfl

@[simp] theorem orElse_ok (a : Bool) (b : Except Fault Bool) :
    orElse (.ok a) b = if a then .ok true else b := by
  cases a <;> rfl

@[simp] theorem andThen_error (e : Fault) (b : Except Fault Bool) :
    andThen (.error e) b = .error e := rfl

@[simp] theorem orElse_error (e : Fault) (b : Except Fault Bool) :
    orElse (.error e) b = .error e := rfl

theorem vecGet_eq_clueAt (v : List Int) (i : Int) :
    vecGet v i =
      match clueAt v i with
      | some x => .ok x
      | none => .error .outOfBounds := by
  unfold vecGet clueAt
  by_cases h : i < 0
  · simp [h]
  · simp only [h, if_false]
    cases v[i.toNat]? <;> rfl

namespace NonogramSolver

theorem rowNum_eq (s : NonogramSolver) (hs : s.Shape) (r : Nat)
    (hr : r < s.nonogram.rowNums.length) :
    s.rowNum (r : Int) =
      match clueAt (s.rowClue r) (s.rowState r).1 with
      | some x => .ok x
      | none => .error .outOfBounds := by
  unfold rowNum
  rw [vecGet_nat _ r [] hr, vecGet_nat _ r 0 (by rw [hs.rowIdxs_len]; exact hr)]
  simp only [Except_ok_bind, rowClue, rowState, colClue, colState]
  exact vecGet_eq_clueAt _ _

theorem colNum_eq (s : NonogramSolver) (hs : s.Shape) (c : Nat)
    (hc : c < s.nonogram.colNums.length) :
    s.colNum (c : Int) =
      match clueAt (s.colClue c) (s.colState c).1 with
      | some x => .ok x
      | none => .error .outOfBounds := by
  unfold colNum
  rw [vecGet_nat _ c [] hc, vecGet_nat _ c 0 (by rw [hs.colIdxs_len]; exact hc)]
  simp only [Except_ok_bind, rowClue, rowState, colClue, colState]
  exact vecGet_eq_clueAt _ _

end NonogramSolver

namespace NonogramSolver

theorem isLegal_cases (s : NonogramSolver) (hs : s.Shape) (r c : Nat)
    (hr : r < s.nonogram.rowNums.length) (hc : c < s.nonogram.colNums.length) (val : Bool) :
    s.isLegal (r : Int) (c : Int) val =
        .ok (lineLegal (s.rowClue r) (s.rowState r) val &&
             lineLegal (s.colClue c) (s.colState c) val) ∨
    (s.isLegal (r : Int) (c : Int) val = .error .outOfBounds ∧
      (clueAt (s.rowClue r) (s.rowState r).1 = none ∨
       clueAt (s.colClue c) (s.colState c).1 = none)) := by
  unfold isLegal
  rw [vecGet_nat _ r 0 (by rw [hs.rowPlaced_len]; exact hr),
    vecGet_nat _ c 0 (by rw [hs.colPlaced_len]; exact hc), rowNum_eq s hs r hr,
    colNum_eq s hs c hc]
  have e1 : s.rowNumPlaced.getD r 0 = (s.rowState r).2 := rfl
  have e2 : s.colNumPlaced.getD c 0 = (s.colState c).2 := rfl
  rw [e1, e2]
  generalize s.rowState r = rst
  generalize s.colState c = cst
  generalize s.rowClue r = rcl
  generalize s.colClue c = ccl
  obtain ⟨ri, rp⟩ := rst
  obtain ⟨ci, cp⟩ := cst
  simp only [lineLegal]
  cases hrc : clueAt rcl ri with
  | none =>
    cases hcc : clueAt ccl ci with
    | none =>
      cases val <;> by_cases h1 : 0 < rp <;> by_cases h2 : 0 < cp <;>
        simp [h1, h2]
      omega
    | some y =>
      cases val <;> by_cases h1 : 0 < rp <;> by_cases h2 : 0 < cp <;> by_cases h4 : cp < y <;>
        simp [h1, h2, h4] <;> omega
  | some x =>
    cases hcc : clueAt ccl ci with
    | none =>
      cases val <;> by_cases h1 : 0 < rp <;> by_cases h2 : 0 < cp <;> by_cases h3 : rp < x <;>
        simp [h1, h2, h3] <;> omega
    | some y =>
      cases val <;> by_cases h1 : 0 < rp <;> by_cases h2 : 0 < cp <;> by_cases h3 : rp < x <;>
        by_cases h4 : cp < y <;> simp [h1, h2, h3, h4] <;> (try split_ifs) <;>
        (try simp) <;> omega

end NonogramSolver

/-! ## Cells of the grid -/

theorem cell_set (g : List (List Bool)) (r c r' c' : Nat) (v : Bool)
    (hr : r < g.length) (hc : c < (g.getD r []).length) :
    cell (g.set r ((g.getD r []).set c v)) r' c' =
      if r' = r ∧ c' = c then v else cell g r' c' := by
  unfold cell
  rw [getD_set _ _ _ _ _ hr]
  by_cases h1 : r' = r
  · subst h1
    rw [if_pos rfl, getD_set _ _ _ _ _ hc]
    by_cases h2 : c' = c <;> simp [h2]
  · simp [h1]

namespace NonogramSolver

theorem Shape.row_len {s : NonogramSolver} (hs : s.Shape) {r : Nat}
    (hr : r < s.nonogram.rowNums.length) :
    (s.nonogram.grid.getD r []).length = s.nonogram.colNums.length := by
  apply hs.grid_row
  have h : r < s.nonogram.grid.length := by rw [hs.grid_len]; exact hr
  rw [List.getD_eq_getElem?_getD, List.getElem?_eq_getElem h]
  exact List.getElem_mem h

theorem gridGet_eq (s : NonogramSolver) (hs : s.Shape) (r c : Nat)
    (hr : r < s.nonogram.rowNums.length) (hc : c < s.nonogram.colNums.length) :
    s.gridGet (r : Int) (c : Int) = .ok (cell s.nonogram.grid r c) := by
  unfold gridGet
  rw [vecGet_nat _ r [] (by rw [hs.grid_len]; exact hr)]
  simp only [Except_ok_bind]
  rw [vecGet_nat _ c false (by rw [hs.row_len hr]; exact hc)]
  rfl

theorem gridSet_eq (s : NonogramSolver) (hs : s.Shape) (r c : Nat)
    (hr : r < s.nonogram.rowNums.length) (hc : c < s.nonogram.colNums.length) (v : Bool) :
    s.gridSet (r : Int) (c : Int) v = .ok (s.withCell r c v) := by
  unfold gridSet
  rw [vecGet_nat _ r [] (by rw [hs.grid_len]; exact hr)]
  simp only [Except_ok_bind]
  rw [vecSet_nat _ c v (by rw [hs.row_len hr]; exact hc)]
  simp only [Except_ok_bind]
  rw [vecSet_nat _ r _ (by rw [hs.grid_len]; exact hr)]
  rfl

theorem Shape.withCell {s : NonogramSolver} (hs : s.Shape) (r c : Nat) (v : Bool) :
    (s.withCell r c v).Shape := by
  refine ⟨hs.rows_pos, hs.cols_pos, hs.rows_eq, hs.cols_eq, ?_, ?_, hs.rowIdxs_len,
    hs.rowPlaced_len, hs.colIdxs_len, hs.colPlaced_len⟩
  · simp [NonogramSolver.withCell, hs.grid_len]
  · intro row hrow
    simp only [NonogramSolver.withCell] at hrow ⊢
    rcases List.mem_or_eq_of_mem_set hrow with h | h
    · exact hs.grid_row row h
    · subst h
      rw [List.length_set]
      by_cases hr : r < s.nonogram.grid.length
      · rw [List.getD_eq_getElem?_getD, List.getElem?_eq_getElem hr]
        exact hs.grid_row _ (List.getElem_mem hr)
      · rw [List.set_eq_of_length_le (by omega)] at hrow
        have := hs.grid_row _ hrow
        rwa [List.length_set] at this

theorem Shape.withRow {s : NonogramSolver} (hs : s.Shape) (r : Nat) (st : Int × Int) :
    (s.withRow r st).Shape := by
  refine ⟨hs.rows_pos, hs.cols_pos, hs.rows_eq, hs.cols_eq, hs.grid_len, hs.grid_row, ?_, ?_,
    hs.colIdxs_len, hs.colPlaced_len⟩
  · simp [NonogramSolver.withRow, hs.rowIdxs_len]
  · simp [NonogramSolver.withRow, hs.rowPlaced_len]

theorem Shape.withCol {s : NonogramSolver} (hs : s.Shape) (c : Nat) (st : Int × Int) :
    (s.withCol c st).Shape := by
  refine ⟨hs.rows_pos, hs.cols_pos, hs.rows_eq, hs.cols_eq, hs.grid_len, hs.grid_row,
    hs.rowIdxs_len, hs.rowPlaced_len, ?_, ?_⟩
  · simp [NonogramSolver.withCol, hs.colIdxs_len]
  · simp [NonogramSolver.withCol, hs.colPlaced_len]

theorem Shape.placedAt {s : NonogramSolver} (hs : s.Shape) (r c : Nat) (v : Bool) :
    (s.placedAt r c v).Shape :=
  ((hs.withCell r c v).withRow r _).withCol c _

end NonogramSolver

namespace NonogramSolver

theorem natCast_succ_sub_one (n : Nat) : ((n + 1 : Nat) : Int) - 1 = (n : Int) := by
  push_cast; omega

theorem withRow_self (s : NonogramSolver) (r : Nat) : s.withRow r (s.rowState r) = s := by
  simp only [withRow, rowState, set_getD_self]

theorem withCol_self (s : NonogramSolver) (c : Nat) : s.withCol c (s.colState c) = s := by
  simp only [withCol, colState, set_getD_self]

theorem finishRowBlock_eq (s : NonogramSolver) (hs : s.Shape) (r c : Nat)
    (hr : r < s.nonogram.rowNums.length) (hc : c < s.nonogram.colNums.length) :
    s.finishRowBlock (r : Int) (c : Int) =
      .ok (s.withRow r (lineNext (s.rowClue r) (s.rowState r) (s.rowPrev r c) false)) := by
  have hi : r < s.rowNumIdxs.length := by rw [hs.rowIdxs_len]; exact hr
  have hp : r < s.rowNumPlaced.length := by rw [hs.rowPlaced_len]; exact hr
  unfold finishRowBlock
  rw [vecGet_nat _ r 0 hi, vecGet_nat _ r [] hr]
  cases c with
  | zero =>
    simp [-List.getD_eq_getElem?_getD, rowPrev, lineNext, withRow_self]
  | succ c' =>
    rw [natCast_succ_sub_one, gridGet_eq s hs r c' hr (by omega)]
    have hpos : ((c' + 1 : Nat) : Int) > 0 := by push_cast; omega
    simp only [hpos, decide_True, Except_pure_eq, andThen_ok, if_true, Except_ok_bind]
    by_cases hcell : cell s.nonogram.grid r c' = true
    · by_cases hlt : toSizeT (s.rowNumIdxs.getD r 0) < sizeMinusOne (s.nonogram.rowNums.getD r [])
      · simp only [hcell, if_true, hlt, decide_True, Except_ok_bind]
        rw [vecSet_nat _ r _ hi]
        simp only [Except_ok_bind]
        rw [vecSet_nat _ r _ hp]
        simp [-List.getD_eq_getElem?_getD, rowPrev, lineNext, withRow, rowState, rowClue, hcell, hlt]
      · simp [-List.getD_eq_getElem?_getD, rowPrev, lineNext, rowState, rowClue, hcell, hlt]
        exact (withRow_self s r).symm
    · simp [-List.getD_eq_getElem?_getD, rowPrev, lineNext, hcell, withRow_self]

theorem finishColBlock_eq (s : NonogramSolver) (hs : s.Shape) (r c : Nat)
    (hr : r < s.nonogram.rowNums.length) (hc : c < s.nonogram.colNums.length) :
    s.finishColBlock (r : Int) (c : Int) =
      .ok (s.withCol c (lineNext (s.colClue c) (s.colState c) (s.colPrev r c) false)) := by
  have hi : c < s.colNumIdxs.length := by rw [hs.colIdxs_len]; exact hc
  have hp : c < s.colNumPlaced.length := by rw [hs.colPlaced_len]; exact hc
  unfold finishColBlock
  rw [vecGet_nat _ c 0 hi, vecGet_nat _ c [] hc]
  cases r with
  | zero =>
    simp [-List.getD_eq_getElem?_getD, colPrev, lineNext, withCol_self]
  | succ r' =>
    rw [natCast_succ_sub_one, gridGet_eq s hs r' c (by omega) hc]
    have hpos : ((r' + 1 : Nat) : Int) > 0 := by push_cast; omega
    simp only [hpos, decide_True, Except_pure_eq, andThen_ok, if_true, Except_ok_bind]
    by_cases hcell : cell s.nonogram.grid r' c = true
    · by_cases hlt : toSizeT (s.colNumIdxs.getD c 0) < sizeMinusOne (s.nonogram.colNums.getD c [])
      · simp only [hcell, if_true, hlt, decide_True, Except_ok_bind]
        rw [vecSet_nat _ c _ hi]
        simp only [Except_ok_bind]
        rw [vecSet_nat _ c _ hp]
        simp [-List.getD_eq_getElem?_getD, colPrev, lineNext, withCol, colState, colClue, hcell, hlt]
      · simp [-List.getD_eq_getElem?_getD, colPrev, lineNext, colState, colClue, hcell, hlt]
        exact (withCol_self s c).symm
    · simp [-List.getD_eq_getElem?_getD, colPrev, lineNext, hcell, withCol_self]

end NonogramSolver

namespace NonogramSolver

theorem set_getElem?_getD_self {α : Type} (v : List α) (n : Nat) (d : α) :
    v.set n (v[n]?.getD d) = v := by
  rw [← List.getD_eq_getElem?_getD]; exact set_getD_self v n d

theorem rowPrev_withCell (s : NonogramSolver) (hs : s.Shape) (r c : Nat)
    (hr : r < s.nonogram.rowNums.length) (hc : c < s.nonogram.colNums.length) (v : Bool) :
    (s.withCell r c v).rowPrev r c = s.rowPrev r c := by
  unfold rowPrev
  by_cases h0 : 0 < c
  · have : cell (s.withCell r c v).nonogram.grid r (c - 1) = cell s.nonogram.grid r (c - 1) := by
      simp only [withCell]
      rw [cell_set _ _ _ _ _ _ (by rw [hs.grid_len]; exact hr) (by rw [hs.row_len hr]; exact hc)]
      have : ¬ (r = r ∧ c - 1 = c) := by omega
      rw [if_neg this]
    rw [this]
  · simp [h0]

theorem colPrev_withCell (s : NonogramSolver) (hs : s.Shape) (r c : Nat)
    (hr : r < s.nonogram.rowNums.length) (hc : c < s.nonogram.colNums.length) (v : Bool) :
    (s.withCell r c v).colPrev r c = s.colPrev r c := by
  unfold colPrev
  by_cases h0 : 0 < r
  · have : cell (s.withCell r c v).nonogram.grid (r - 1) c = cell s.nonogram.grid (r - 1) c := by
      simp only [withCell]
      rw [cell_set _ _ _ _ _ _ (by rw [hs.grid_len]; exact hr) (by rw [hs.row_len hr]; exact hc)]
      have : ¬ (r - 1 = r ∧ c = c) := by omega
      rw [if_neg this]
    rw [this]
  · simp [h0]

theorem place_eq (s : NonogramSolver) (hs : s.Shape) (r c : Nat)
    (hr : r < s.nonogram.rowNums.length) (hc : c < s.nonogram.colNums.length) (v : Bool) :
    s.place (r : Int) (c : Int) v = .ok (s.placedAt r c v) := by
  have hs1 := hs.withCell r c v
  unfold place
  rw [gridSet_eq s hs r c hr hc v]
  simp only [Except_ok_bind]
  cases v with
  | true =>
    simp only [if_true]
    rw [vecGet_nat _ r 0 (by rw [hs1.rowPlaced_len]; exact hr)]
    simp only [Except_ok_bind]
    rw [vecSet_nat _ r _ (by rw [hs1.rowPlaced_len]; exact hr)]
    simp only [Except_ok_bind]
    rw [vecGet_nat _ c 0 (by rw [hs1.colPlaced_len]; exact hc)]
    simp only [Except_ok_bind]
    rw [vecSet_nat _ c _ (by rw [hs1.colPlaced_len]; exact hc)]
    simp [placedAt, withRow, withCol, withCell, lineNext, rowState, colState,
      set_getElem?_getD_self]
  | false =>
    simp only [Bool.false_eq_true, if_false]
    rw [finishRowBlock_eq _ hs1 r c hr hc]
    simp only [Except_ok_bind]
    rw [finishColBlock_eq _ (hs1.withRow r _) r c hr hc]
    have e1 : (s.withCell r c false).rowClue r = s.rowClue r := rfl
    have e2 : (s.withCell r c false).rowState r = s.rowState r := rfl
    have e3 := rowPrev_withCell s hs r c hr hc false
    have e4 := colPrev_withCell s hs r c hr hc false
    rw [e1, e2, e3]
    unfold placedAt
    generalize lineNext (s.rowClue r) (s.rowState r) (s.rowPrev r c) false = rst
    have e5 : ((s.withCell r c false).withRow r rst).colClue c = s.colClue c := rfl
    have e6 : ((s.withCell r c false).withRow r rst).colState c = s.colState c := rfl
    have e7 : ((s.withCell r c false).withRow r rst).colPrev r c
        = (s.withCell r c false).colPrev r c := rfl
    rw [e5, e6, e7, e4]

end NonogramSolver

theorem vecBack_done (clue : List Int) (st : Int × Int) (h : clue = [] → st.1 = 0) :
    andThen (.ok (decide (toSizeT st.1 = sizeMinusOne clue)))
        (do pure (decide (st.2 = (← vecBack clue)))) = .ok (lineDone clue st) := by
  cases hcl : clue.getLast? with
  | none =>
    have hnil : clue = [] := List.getLast?_eq_none_iff.1 hcl
    have h0 := h hnil
    subst hnil
    have : ¬ (toSizeT st.1 = sizeMinusOne ([] : List Int)) := by
      rw [h0]; simp [toSizeT, sizeMinusOne]
    simp [lineDone, this]
  | some x =>
    simp only [andThen_ok, vecBack, hcl, lineDone]
    by_cases h1 : toSizeT st.1 = sizeMinusOne clue
    · simp only [h1, decide_True, if_true, Except_ok_bind, Except_pure_eq, Bool.true_and,
        Option.some.injEq]
      by_cases h2 : st.2 = x
      · simp [h2]
      · have : ¬ x = st.2 := fun h => h2 h.symm
        simp [h2, this]
    · simp [h1]

namespace NonogramSolver

theorem rowDone_eq (s : NonogramSolver) (hs : s.Shape) (r : Nat)
    (hr : r < s.nonogram.rowNums.length) (h : s.rowClue r = [] → (s.rowState r).1 = 0) :
    s.rowDone (r : Int) = .ok (lineDone (s.rowClue r) (s.rowState r)) := by
  unfold rowDone
  rw [vecGet_nat _ r 0 (by rw [hs.rowIdxs_len]; exact hr), vecGet_nat _ r [] hr,
    vecGet_nat _ r 0 (by rw [hs.rowPlaced_len]; exact hr)]
  exact vecBack_done (s.rowClue r) (s.rowState r) h

theorem colDone_eq (s : NonogramSolver) (hs : s.Shape) (c : Nat)
    (hc : c < s.nonogram.colNums.length) (h : s.colClue c = [] → (s.colState c).1 = 0) :
    s.colDone (c : Int) = .ok (lineDone (s.colClue c) (s.colState c)) := by
  unfold colDone
  rw [vecGet_nat _ c 0 (by rw [hs.colIdxs_len]; exact hc), vecGet_nat _ c [] hc,
    vecGet_nat _ c 0 (by rw [hs.colPlaced_len]; exact hc)]
  exact vecBack_done (s.colClue c) (s.colState c) h

theorem isIllegalEnd_eq (s : NonogramSolver) (hs : s.Shape) (r c : Nat)
    (hr : r < s.nonogram.rowNums.length) (hc : c < s.nonogram.colNums.length)
    (h1 : s.rowClue r = [] → (s.rowState r).1 = 0)
    (h2 : s.colClue c = [] → (s.colState c).1 = 0) :
    s.isIllegalEnd (r : Int) (c : Int) =
      .ok ((decide (c + 1 = s.nonogram.colNums.length) && !lineDone (s.rowClue r) (s.rowState r)) ||
           (decide (r + 1 = s.nonogram.rowNums.length) && !lineDone (s.colClue c) (s.colState c))) := by
  unfold isIllegalEnd
  rw [rowDone_eq s hs r hr h1, colDone_eq s hs c hc h2, hs.rows_eq, hs.cols_eq]
  have e1 : ((c : Int) = (s.nonogram.colNums.length : Int) - 1) ↔ c + 1 = s.nonogram.colNums.length := by
    omega
  have e2 : ((r : Int) = (s.nonogram.rowNums.length : Int) - 1) ↔ r + 1 = s.nonogram.rowNums.length := by
    omega
  simp only [e1, e2, Except_pure_eq, andThen_ok, Except_ok_bind, orElse_ok]
  by_cases a : c + 1 = s.nonogram.colNums.length <;>
    by_cases b : r + 1 = s.nonogram.rowNums.length <;>
    cases lineDone (s.rowClue r) (s.rowState r) <;>
    cases lineDone (s.colClue c) (s.colState c) <;> simp [a, b]

end NonogramSolver

theorem grid_restore (g : List (List Bool)) (r c : Nat) (v : Bool)
    (hcell : cell g r c = false) :
    (g.set r ((g.getD r []).set c v)).set r
        (((g.set r ((g.getD r []).set c v)).getD r []).set c false) = g := by
  have hrow : ((g.getD r []).set c v).set c false = g.getD r [] := by
    rw [List.set_set]
    have : (g.getD r []).getD c false = false := hcell
    conv_lhs => rw [← this]
    exact set_getD_self _ _ _
  by_cases hr : r < g.length
  · rw [getD_set _ _ _ _ _ hr, if_pos rfl, hrow, List.set_set]
    exact set_getD_self _ _ _
  · have e : g.set r ((g.getD r []).set c v) = g := List.set_eq_of_length_le (by omega)
    rw [e]
    exact List.set_eq_of_length_le (by omega)

namespace NonogramSolver

theorem restore_eq (s : NonogramSolver) (r c : Nat) (v : Bool) (rst cst : Int × Int)
    (hcell : cell s.nonogram.grid r c = false) :
    (((((s.withCell r c v).withRow r rst).withCol c cst).withCell r c false).withRow r
        (s.rowState r)).withCol c (s.colState c) = s := by
  simp only [withCell, withRow, withCol, rowState, colState, List.set_set, set_getD_self,
    grid_restore _ _ _ _ hcell]

theorem revertRowBlock_eq (s : NonogramSolver) (hs : s.Shape) (r c : Nat)
    (hr : r < s.nonogram.rowNums.length) (hc : c < s.nonogram.colNums.length) :
    s.revertRowBlock (r : Int) (c : Int) =
      if s.rowPrev r c = true ∧ (s.rowState r).2 = 0 then
        match clueAt (s.rowClue r) ((s.rowState r).1 - 1) with
        | some x => .ok (s.withRow r ((s.rowState r).1 - 1, x))
        | none => .error .outOfBounds
      else .ok s := by
  have hi : r < s.rowNumIdxs.length := by rw [hs.rowIdxs_len]; exact hr
  have hp : r < s.rowNumPlaced.length := by rw [hs.rowPlaced_len]; exact hr
  unfold revertRowBlock
  rw [vecGet_nat _ r 0 hi, vecGet_nat _ r 0 hp]
  cases c with
  | zero => simp [rowPrev]
  | succ c' =>
    rw [natCast_succ_sub_one, gridGet_eq s hs r c' hr (by omega)]
    have hpos : ((c' + 1 : Nat) : Int) > 0 := by push_cast; omega
    simp only [hpos, decide_True, Except_pure_eq, andThen_ok, if_true, Except_ok_bind]
    by_cases hcell : cell s.nonogram.grid r c' = true
    · by_cases hz : s.rowNumPlaced.getD r 0 = 0
      · have hcond : s.rowPrev r (c' + 1) = true ∧ (s.rowState r).2 = 0 := by
          simp [-List.getD_eq_getElem?_getD, rowPrev, rowState, hcell, hz]
        rw [if_pos hcond]
        simp only [hcell, if_true, hz, decide_True, Except_ok_bind]
        rw [vecSet_nat _ r _ hi]
        simp only [Except_ok_bind]
        have hs' : ({ s with rowNumIdxs := s.rowNumIdxs.set r (s.rowNumIdxs.getD r 0 - 1) } :
            NonogramSolver).Shape := by
          refine ⟨hs.rows_pos, hs.cols_pos, hs.rows_eq, hs.cols_eq, hs.grid_len, hs.grid_row, ?_,
            hs.rowPlaced_len, hs.colIdxs_len, hs.colPlaced_len⟩
          simp [hs.rowIdxs_len]
        rw [rowNum_eq _ hs' r hr]
        have e1 : ({ s with rowNumIdxs := s.rowNumIdxs.set r (s.rowNumIdxs.getD r 0 - 1) } :
            NonogramSolver).rowClue r = s.rowClue r := rfl
        have e2 : (({ s with rowNumIdxs := s.rowNumIdxs.set r (s.rowNumIdxs.getD r 0 - 1) } :
            NonogramSolver).rowState r).1 = (s.rowState r).1 - 1 := by
          simp only [rowState]
          rw [getD_set _ _ _ _ _ hi, if_pos rfl]
        rw [e1, e2]
        cases clueAt (s.rowClue r) ((s.rowState r).1 - 1) with
        | none => rfl
        | some x =>
          simp only [Except_ok_bind]
          rw [vecSet_nat _ r _ hp]
          rfl
      · have hcond : ¬ (s.rowPrev r (c' + 1) = true ∧ (s.rowState r).2 = 0) := by
          simp [-List.getD_eq_getElem?_getD, rowState, hz]
        rw [if_neg hcond]
        simp [-List.getD_eq_getElem?_getD, hcell, hz]
    · have hcond : ¬ (s.rowPrev r (c' + 1) = true ∧ (s.rowState r).2 = 0) := by
        simp [rowPrev, hcell]
      rw [if_neg hcond]
      simp [hcell]

theorem revertColBlock_eq (s : NonogramSolver) (hs : s.Shape) (r c : Nat)
    (hr : r < s.nonogram.rowNums.length) (hc : c < s.nonogram.colNums.length) :
    s.revertColBlock (r : Int) (c : Int) =
      if s.colPrev r c = true ∧ (s.colState c).2 = 0 then
        match clueAt (s.colClue c) ((s.colState c).1 - 1) with
        | some x => .ok (s.withCol c ((s.colState c).1 - 1, x))
        | none => .error .outOfBounds
      else .ok s := by
  have hi : c < s.colNumIdxs.length := by rw [hs.colIdxs_len]; exact hc
  have hp : c < s.colNumPlaced.length := by rw [hs.colPlaced_len]; exact hc
  unfold revertColBlock
  rw [vecGet_nat _ c 0 hi, vecGet_nat _ c 0 hp]
  cases r with
  | zero => simp [colPrev]
  | succ r' =>
    rw [natCast_succ_sub_one, gridGet_eq s hs r' c (by omega) hc]
    have hpos : ((r' + 1 : Nat) : Int) > 0 := by push_cast; omega
    simp only [hpos, decide_True, Except_pure_eq, andThen_ok, if_true, Except_ok_bind]
    by_cases hcell : cell s.nonogram.grid r' c = true
    · by_cases hz : s.colNumPlaced.getD c 0 = 0
      · have hcond : s.colPrev (r' + 1) c = true ∧ (s.colState c).2 = 0 := by
          simp [-List.getD_eq_getElem?_getD, colPrev, colState, hcell, hz]
        rw [if_pos hcond]
        simp only [hcell, if_true, hz, decide_True, Except_ok_bind]
        rw [vecSet_nat _ c _ hi]
        simp only [Except_ok_bind]
        have hs' : ({ s with colNumIdxs := s.colNumIdxs.set c (s.colNumIdxs.getD c 0 - 1) } :
            NonogramSolver).Shape := by
          refine ⟨hs.rows_pos, hs.cols_pos, hs.rows_eq, hs.cols_eq, hs.grid_len, hs.grid_row,
            hs.rowIdxs_len, hs.rowPlaced_len, ?_, hs.colPlaced_len⟩
          simp [hs.colIdxs_len]
        rw [colNum_eq _ hs' c hc]
        have e1 : ({ s with colNumIdxs := s.colNumIdxs.set c (s.colNumIdxs.getD c 0 - 1) } :
            NonogramSolver).colClue c = s.colClue c := rfl
        have e2 : (({ s with colNumIdxs := s.colNumIdxs.set c (s.colNumIdxs.getD c 0 - 1) } :
            NonogramSolver).colState c).1 = (s.colState c).1 - 1 := by
          simp only [colState]
          rw [getD_set _ _ _ _ _ hi, if_pos rfl]
        rw [e1, e2]
        cases clueAt (s.colClue c) ((s.colState c).1 - 1) with
        | none => rfl
        | some x =>
          simp only [Except_ok_bind]
          rw [vecSet_nat _ c _ hp]
          rfl
      · have hcond : ¬ (s.colPrev (r' + 1) c = true ∧ (s.colState c).2 = 0) := by
          simp [-List.getD_eq_getElem?_getD, colState, hz]
        rw [if_neg hcond]
        simp [-List.getD_eq_getElem?_getD, hcell, hz]
    · have hcond : ¬ (s.colPrev (r' + 1) c = true ∧ (s.colState c).2 = 0) := by
        simp [colPrev, hcell]
      rw [if_neg hcond]
      simp [hcell]


theorem revertRow_restore (t : NonogramSolver) (ht : t.Shape) (r c : Nat)
    (hr : r < t.nonogram.rowNums.length) (hc : c < t.nonogram.colNums.length)
    (st0 : Int × Int)
    (hst : t.rowState r = lineNext (t.rowClue r) st0 (t.rowPrev r c) false)
    (hleg : lineLegal (t.rowClue r) st0 false = true)
    (hopen : t.rowPrev r c = true →
      ∃ x, clueAt (t.rowClue r) st0.1 = some x ∧ 1 ≤ st0.2 ∧ st0.2 ≤ x) :
    t.revertRowBlock (r : Int) (c : Int) = .ok (t.withRow r st0) := by
  rw [revertRowBlock_eq t ht r c hr hc]
  obtain ⟨i0, p0⟩ := st0
  by_cases hprev : t.rowPrev r c = true
  · obtain ⟨x, hx, h1, h2⟩ := hopen hprev
    simp only at hx h1 h2
    have hxp : x = p0 := by
      simp only [lineLegal, hx, Bool.or_eq_true, decide_eq_true_eq] at hleg
      omega
    by_cases hadv : toSizeT i0 < sizeMinusOne (t.rowClue r)
    · have hst' : t.rowState r = (i0 + 1, 0) := by
        rw [hst]; simp [lineNext, hprev, hadv]
      have hcond : t.rowPrev r c = true ∧ (t.rowState r).2 = 0 := ⟨hprev, by rw [hst']⟩
      rw [if_pos hcond, hst']
      have e : i0 + 1 - 1 = i0 := by omega
      simp only [e, hx, hxp]
    · have hst' : t.rowState r = (i0, p0) := by
        rw [hst]; simp [lineNext, hprev, hadv]
      have hcond : ¬ (t.rowPrev r c = true ∧ (t.rowState r).2 = 0) := by
        rw [hst']; simp only; omega
      rw [if_neg hcond, ← hst', withRow_self]
  · have hst' : t.rowState r = (i0, p0) := by
      rw [hst]; simp [lineNext, hprev]
    have hcond : ¬ (t.rowPrev r c = true ∧ (t.rowState r).2 = 0) := fun h => hprev h.1
    rw [if_neg hcond, ← hst', withRow_self]

theorem revertCol_restore (t : NonogramSolver) (ht : t.Shape) (r c : Nat)
    (hr : r < t.nonogram.rowNums.length) (hc : c < t.nonogram.colNums.length)
    (st0 : Int × Int)
    (hst : t.colState c = lineNext (t.colClue c) st0 (t.colPrev r c) false)
    (hleg : lineLegal (t.colClue c) st0 false = true)
    (hopen : t.colPrev r c = true →
      ∃ x, clueAt (t.colClue c) st0.1 = some x ∧ 1 ≤ st0.2 ∧ st0.2 ≤ x) :
    t.revertColBlock (r : Int) (c : Int) = .ok (t.withCol c st0) := by
  rw [revertColBlock_eq t ht r c hr hc]
  obtain ⟨i0, p0⟩ := st0
  by_cases hprev : t.colPrev r c = true
  · obtain ⟨x, hx, h1, h2⟩ := hopen hprev
    simp only at hx h1 h2
    have hxp : x = p0 := by
      simp only [lineLegal, hx, Bool.or_eq_true, decide_eq_true_eq] at hleg
      omega
    by_cases hadv : toSizeT i0 < sizeMinusOne (t.colClue c)
    · have hst' : t.colState c = (i0 + 1, 0) := by
        rw [hst]; simp [lineNext, hprev, hadv]
      have hcond : t.colPrev r c = true ∧ (t.colState c).2 = 0 := ⟨hprev, by rw [hst']⟩
      rw [if_pos hcond, hst']
      have e : i0 + 1 - 1 = i0 := by omega
      simp only [e, hx, hxp]
    · have hst' : t.colState c = (i0, p0) := by
        rw [hst]; simp [lineNext, hprev, hadv]
      have hcond : ¬ (t.colPrev r c = true ∧ (t.colState c).2 = 0) := by
        rw [hst']; simp only; omega
      rw [if_neg hcond, ← hst', withCol_self]
  · have hst' : t.colState c = (i0, p0) := by
      rw [hst]; simp [lineNext, hprev]
    have hcond : ¬ (t.colPrev r c = true ∧ (t.colState c).2 = 0) := fun h => hprev h.1
    rw [if_neg hcond, ← hst', withCol_self]

end NonogramSolver

namespace NonogramSolver

theorem cell_withCell (s : NonogramSolver) (hs : s.Shape) (r c : Nat)
    (hr : r < s.nonogram.rowNums.length) (hc : c < s.nonogram.colNums.length) (v : Bool)
    (r' c' : Nat) :
    cell (s.withCell r c v).nonogram.grid r' c' =
      if r' = r ∧ c' = c then v else cell s.nonogram.grid r' c' := by
  simp only [withCell]
  exact cell_set _ _ _ _ _ _ (by rw [hs.grid_len]; exact hr) (by rw [hs.row_len hr]; exact hc)

theorem cell_placedAt (s : NonogramSolver) (hs : s.Shape) (r c : Nat)
    (hr : r < s.nonogram.rowNums.length) (hc : c < s.nonogram.colNums.length) (v : Bool)
    (r' c' : Nat) :
    cell (s.placedAt r c v).nonogram.grid r' c' =
      if r' = r ∧ c' = c then v else cell s.nonogram.grid r' c' :=
  cell_withCell s hs r c hr hc v r' c'

theorem rowState_withRow (s : NonogramSolver) (hs : s.Shape) (r : Nat)
    (hr : r < s.nonogram.rowNums.length) (st : Int × Int) (r' : Nat) :
    (s.withRow r st).rowState r' = if r' = r then st else s.rowState r' := by
  simp only [withRow, rowState]
  rw [getD_set _ _ _ _ _ (by rw [hs.rowIdxs_len]; exact hr),
    getD_set _ _ _ _ _ (by rw [hs.rowPlaced_len]; exact hr)]
  by_cases h : r' = r <;> simp [h]

theorem colState_withCol (s : NonogramSolver) (hs : s.Shape) (c : Nat)
    (hc : c < s.nonogram.colNums.length) (st : Int × Int) (c' : Nat) :
    (s.withCol c st).colState c' = if c' = c then st else s.colState c' := by
  simp only [withCol, colState]
  rw [getD_set _ _ _ _ _ (by rw [hs.colIdxs_len]; exact hc),
    getD_set _ _ _ _ _ (by rw [hs.colPlaced_len]; exact hc)]
  by_cases h : c' = c <;> simp [h]

theorem rowState_placedAt (s : NonogramSolver) (hs : s.Shape) (r c : Nat)
    (hr : r < s.nonogram.rowNums.length) (v : Bool) (r' : Nat) :
    (s.placedAt r c v).rowState r' =
      if r' = r then lineNext (s.rowClue r) (s.rowState r) (s.rowPrev r c) v
      else s.rowState r' :=
  rowState_withRow (s.withCell r c v) (hs.withCell r c v) r hr _ r'

theorem colState_placedAt (s : NonogramSolver) (hs : s.Shape) (r c : Nat)
    (hc : c < s.nonogram.colNums.length) (v : Bool) (c' : Nat) :
    (s.placedAt r c v).colState c' =
      if c' = c then lineNext (s.colClue c) (s.colState c) (s.colPrev r c) v
      else s.colState c' :=
  colState_withCol ((s.withCell r c v).withRow r _) ((hs.withCell r c v).withRow r _) c hc _ c'

theorem undo_placedAt (s : NonogramSolver) (hs : s.Shape) (r c : Nat)
    (hr : r < s.nonogram.rowNums.length) (hc : c < s.nonogram.colNums.length) (v : Bool)
    (hcell : cell s.nonogram.grid r c = false)
    (hrleg : lineLegal (s.rowClue r) (s.rowState r) v = true)
    (hcleg : lineLegal (s.colClue c) (s.colState c) v = true)
    (hropen : s.rowPrev r c = true →
      ∃ x, clueAt (s.rowClue r) (s.rowState r).1 = some x ∧ 1 ≤ (s.rowState r).2 ∧
        (s.rowState r).2 ≤ x)
    (hcopen : s.colPrev r c = true →
      ∃ x, clueAt (s.colClue c) (s.colState c).1 = some x ∧ 1 ≤ (s.colState c).2 ∧
        (s.colState c).2 ≤ x) :
    (s.placedAt r c v).undo (r : Int) (c : Int) v = .ok s := by
  have hp := hs.placedAt r c v
  have ht := hp.withCell r c false
  unfold undo
  rw [gridSet_eq _ hp r c hr hc false]
  simp only [Except_ok_bind]
  cases v with
  | true =>
    simp only [if_true]
    rw [vecGet_nat _ r 0 (by rw [ht.rowPlaced_len]; exact hr)]
    simp only [Except_ok_bind]
    rw [vecSet_nat _ r _ (by rw [ht.rowPlaced_len]; exact hr)]
    simp only [Except_ok_bind]
    rw [vecGet_nat _ c 0 (by rw [ht.colPlaced_len]; exact hc)]
    simp only [Except_ok_bind]
    rw [vecSet_nat _ c _ (by rw [ht.colPlaced_len]; exact hc)]
    have h1 : r < s.rowNumPlaced.length := by rw [hs.rowPlaced_len]; exact hr
    have h2 : c < s.colNumPlaced.length := by rw [hs.colPlaced_len]; exact hc
    conv_rhs => rw [← restore_eq s r c true
      (lineNext (s.rowClue r) (s.rowState r) (s.rowPrev r c) true)
      (lineNext (s.colClue c) (s.colState c) (s.colPrev r c) true) hcell]
    simp [placedAt, withCell, withRow, withCol, lineNext, rowState, colState, List.set_set,
      getD_set _ _ _ _ _ h1, getD_set _ _ _ _ _ h2, -List.getD_eq_getElem?_getD]
  | false =>
    simp only [Bool.false_eq_true, if_false]
    have e1 : ((s.placedAt r c false).withCell r c false).rowPrev r c = s.rowPrev r c := by
      rw [rowPrev_withCell _ hp r c hr hc]
      exact rowPrev_withCell s hs r c hr hc false
    have e2 : ((s.placedAt r c false).withCell r c false).colPrev r c = s.colPrev r c := by
      rw [colPrev_withCell _ hp r c hr hc]
      exact colPrev_withCell s hs r c hr hc false
    have e3 : ((s.placedAt r c false).withCell r c false).rowState r
        = lineNext (s.rowClue r) (s.rowState r) (s.rowPrev r c) false := by
      have := rowState_placedAt s hs r c hr false r
      rw [if_pos rfl] at this
      exact this
    have e4 : ((s.placedAt r c false).withCell r c false).colState c
        = lineNext (s.colClue c) (s.colState c) (s.colPrev r c) false := by
      have := colState_placedAt s hs r c hc false c
      rw [if_pos rfl] at this
      exact this
    rw [revertRow_restore _ ht r c hr hc (s.rowState r) (by rw [e3, e1]; rfl) hrleg
      (by rw [e1]; exact hropen)]
    simp only [Except_ok_bind]
    rw [revertCol_restore _ (ht.withRow r _) r c hr hc (s.colState c) (by
        show ((s.placedAt r c false).withCell r c false).colState c = _
        rw [e4]
        show _ = lineNext (s.colClue c) (s.colState c)
          (((s.placedAt r c false).withCell r c false).colPrev r c) false
        rw [e2]) hcleg (by
        show ((s.placedAt r c false).withCell r c false).colPrev r c = true → _
        rw [e2]; exact hcopen)]
    exact congrArg Except.ok (restore_eq s r c false _ _ hcell)

end NonogramSolver

/-! ## Decided cells -/

theorem rowCells_succ (g : List (List Bool)) (r n : Nat) :
    rowCells g r (n + 1) = rowCells g r n ++ [cell g r n] := by
  simp [rowCells, List.range_succ]

theorem colCells_succ (g : List (List Bool)) (c n : Nat) :
    colCells g c (n + 1) = colCells g c n ++ [cell g n c] := by
  simp [colCells, List.range_succ]

theorem rowCells_congr (g g' : List (List Bool)) (r n : Nat)
    (h : ∀ c, c < n → cell g r c = cell g' r c) : rowCells g r n = rowCells g' r n := by
  unfold rowCells
  apply List.map_congr_left
  intro c hc
  exact h c (List.mem_range.1 hc)

theorem colCells_congr (g g' : List (List Bool)) (c n : Nat)
    (h : ∀ r, r < n → cell g r c = cell g' r c) : colCells g c n = colCells g' c n := by
  unfold colCells
  apply List.map_congr_left
  intro r hr
  exact h r (List.mem_range.1 hr)

theorem rowCells_getLast (g : List (List Bool)) (r n : Nat) :
    (rowCells g r n).getLast?.getD false = (decide (0 < n) && cell g r (n - 1)) := by
  cases n with
  | zero => simp [rowCells]
  | succ m => rw [rowCells_succ]; simp

theorem colCells_getLast (g : List (List Bool)) (c n : Nat) :
    (colCells g c n).getLast?.getD false = (decide (0 < n) && cell g (n - 1) c) := by
  cases n with
  | zero => simp [colCells]
  | succ m => rw [colCells_succ]; simp

theorem getLast?_eq_some_true_of_getD {l : List Bool} (h : l.getLast?.getD false = true) :
    l.getLast? = some true := by
  cases hl : l.getLast? with
  | none => simp [hl] at h
  | some b => simp [hl] at h; simp [h]

theorem rowLen_self (C r c : Nat) : rowLen C r c r = c := by simp [rowLen]

theorem colLen_self (r c : Nat) : colLen r c c = r := by simp [colLen]

theorem rowLen_succ_of_ne (C r c r' : Nat) (h : r' ≠ r) :
    rowLen C r (c + 1) r' = rowLen C r c r' := by simp [rowLen, h]

theorem colLen_succ_of_ne (r c c' : Nat) (h : c' ≠ c) :
    colLen r (c + 1) c' = colLen r c c' := by
  unfold colLen
  by_cases h1 : c' < c
  · have : c' < c + 1 := by omega
    simp [h1, this]
  · have : ¬ c' < c + 1 := by omega
    simp [h1, this]

theorem rowLen_end (C r r' : Nat) : rowLen C (r + 1) 0 r' = rowLen C r C r' := by
  unfold rowLen
  by_cases h1 : r' < r
  · have : r' < r + 1 := by omega
    simp [h1, this]
  · by_cases h2 : r' = r
    · subst h2; simp
    · have h3 : ¬ r' < r + 1 := by omega
      simp only [h1, h2, h3, if_false]
      split <;> rfl

theorem colLen_end (C r c' : Nat) (h : c' < C) : colLen (r + 1) 0 c' = colLen r C c' := by
  simp [colLen, h]

namespace NonogramSolver

theorem Inv.lineInv_row {s : NonogramSolver} {r c : Nat} (h : s.Inv r c)
    (hr : r < s.nonogram.rowNums.length) :
    LineInv (s.rowClue r) (rowCells s.nonogram.grid r c) (s.rowState r) := by
  have := h.rowSt r hr
  rw [rowLen_self] at this
  exact lineInv_of_lineRun _ _ _ this

theorem Inv.lineInv_col {s : NonogramSolver} {r c : Nat} (h : s.Inv r c)
    (hc : c < s.nonogram.colNums.length) :
    LineInv (s.colClue c) (colCells s.nonogram.grid c r) (s.colState c) := by
  have := h.colSt c hc
  rw [colLen_self] at this
  exact lineInv_of_lineRun _ _ _ this

theorem Inv.row_open {s : NonogramSolver} {r c : Nat} (h : s.Inv r c)
    (hr : r < s.nonogram.rowNums.length) (hp : s.rowPrev r c = true) :
    ∃ x, clueAt (s.rowClue r) (s.rowState r).1 = some x ∧ 1 ≤ (s.rowState r).2 ∧
      (s.rowState r).2 ≤ x := by
  apply (h.lineInv_row hr).open_run
  apply getLast?_eq_some_true_of_getD
  rw [rowCells_getLast]
  exact hp

theorem Inv.col_open {s : NonogramSolver} {r c : Nat} (h : s.Inv r c)
    (hc : c < s.nonogram.colNums.length) (hp : s.colPrev r c = true) :
    ∃ x, clueAt (s.colClue c) (s.colState c).1 = some x ∧ 1 ≤ (s.colState c).2 ∧
      (s.colState c).2 ≤ x := by
  apply (h.lineInv_col hc).open_run
  apply getLast?_eq_some_true_of_getD
  rw [colCells_getLast]
  exact hp

theorem Inv.cell_false {s : NonogramSolver} {r c : Nat} (h : s.Inv r c) :
    cell s.nonogram.grid r c = false := by
  apply h.rest
  rw [rowLen_self]
  omega

end NonogramSolver

namespace NonogramSolver

/-- A legal placement that does not end a line illegally keeps the
invariant, one cell further. -/
theorem Inv.step {s : NonogramSolver} {r c : Nat} (h : s.Inv r c)
    (hr : r < s.nonogram.rowNums.length) (hc : c < s.nonogram.colNums.length) (v : Bool)
    (hrleg : lineLegal (s.rowClue r) (s.rowState r) v = true)
    (hcleg : lineLegal (s.colClue c) (s.colState c) v = true)
    (hrfin : c + 1 = s.nonogram.colNums.length →
      lineDone (s.rowClue r) (lineNext (s.rowClue r) (s.rowState r) (s.rowPrev r c) v) = true)
    (hcfin : r + 1 = s.nonogram.rowNums.length →
      lineDone (s.colClue c) (lineNext (s.colClue c) (s.colState c) (s.colPrev r c) v) = true) :
    (s.placedAt r c v).Inv r (c + 1) := by
  have hs := h.shape
  have hcellp := cell_placedAt s hs r c hr hc v
  refine ⟨hs.placedAt r c v, ?_, ?_, ?_, ?_, ?_⟩
  · intro r' hr'
    show lineRun (s.rowClue r')
      (rowCells (s.placedAt r c v).nonogram.grid r' (rowLen s.nonogram.colNums.length r (c + 1) r'))
      = some ((s.placedAt r c v).rowState r')
    rw [rowState_placedAt s hs r c hr v r']
    by_cases e : r' = r
    · subst e
      rw [if_pos rfl, rowLen_self, rowCells_succ, hcellp, if_pos ⟨rfl, rfl⟩]
      have hc1 : rowCells (s.placedAt r' c v).nonogram.grid r' c = rowCells s.nonogram.grid r' c := by
        apply rowCells_congr
        intro c' hc'
        rw [hcellp]
        have : ¬ (r' = r' ∧ c' = c) := by omega
        rw [if_neg this]
      have h0 := h.rowSt r' hr
      rw [rowLen_self] at h0
      rw [hc1, lineRun_append, h0]
      simp only [hrleg, if_true]
      rw [rowCells_getLast]
      rfl
    · rw [if_neg e, rowLen_succ_of_ne _ _ _ _ e]
      have hc1 : rowCells (s.placedAt r c v).nonogram.grid r'
            (rowLen s.nonogram.colNums.length r c r')
          = rowCells s.nonogram.grid r' (rowLen s.nonogram.colNums.length r c r') := by
        apply rowCells_congr
        intro c' _
        rw [hcellp]
        have : ¬ (r' = r ∧ c' = c) := fun h => e h.1
        rw [if_neg this]
      rw [hc1]
      exact h.rowSt r' hr'
  · intro r' hr' hlen
    show lineDone (s.rowClue r') ((s.placedAt r c v).rowState r') = true
    rw [rowState_placedAt s hs r c hr v r']
    by_cases e : r' = r
    · subst e
      rw [if_pos rfl]
      rw [rowLen_self] at hlen
      exact hrfin hlen
    · rw [if_neg e]
      rw [rowLen_succ_of_ne _ _ _ _ e] at hlen
      exact h.rowFin r' hr' hlen
  · intro c' hc'
    show lineRun (s.colClue c')
      (colCells (s.placedAt r c v).nonogram.grid c' (colLen r (c + 1) c'))
      = some ((s.placedAt r c v).colState c')
    rw [colState_placedAt s hs r c hc v c']
    by_cases e : c' = c
    · subst e
      have hl : colLen r (c' + 1) c' = r + 1 := by simp [colLen]
      rw [if_pos rfl, hl, colCells_succ, hcellp, if_pos ⟨rfl, rfl⟩]
      have hc1 : colCells (s.placedAt r c' v).nonogram.grid c' r = colCells s.nonogram.grid c' r := by
        apply colCells_congr
        intro r' hr'
        rw [hcellp]
        have : ¬ (r' = r ∧ c' = c') := by omega
        rw [if_neg this]
      have h0 := h.colSt c' hc
      rw [colLen_self] at h0
      rw [hc1, lineRun_append, h0]
      simp only [hcleg, if_true]
      rw [colCells_getLast]
      rfl
    · rw [if_neg e, colLen_succ_of_ne _ _ _ e]
      have hc1 : colCells (s.placedAt r c v).nonogram.grid c' (colLen r c c')
          = colCells s.nonogram.grid c' (colLen r c c') := by
        apply colCells_congr
        intro r' _
        rw [hcellp]
        have : ¬ (r' = r ∧ c' = c) := fun h => e h.2
        rw [if_neg this]
      rw [hc1]
      exact h.colSt c' hc'
  · intro c' hc' hlen
    show lineDone (s.colClue c') ((s.placedAt r c v).colState c') = true
    rw [colState_placedAt s hs r c hc v c']
    by_cases e : c' = c
    · subst e
      rw [if_pos rfl]
      have hl : colLen r (c' + 1) c' = r + 1 := by simp [colLen]
      rw [hl] at hlen
      exact hcfin hlen
    · rw [if_neg e]
      rw [colLen_succ_of_ne _ _ _ e] at hlen
      exact h.colFin c' hc' hlen
  · intro r' c' hn
    show cell (s.placedAt r c v).nonogram.grid r' c' = false
    have hn' : ¬ c' < rowLen s.nonogram.colNums.length r (c + 1) r' := hn
    rw [hcellp]
    by_cases e : r' = r
    · subst e
      rw [rowLen_self] at hn'
      have : ¬ (r' = r' ∧ c' = c) := by omega
      rw [if_neg this]
      apply h.rest
      rw [rowLen_self]
      omega
    · have : ¬ (r' = r ∧ c' = c) := fun h => e h.1
      rw [if_neg this]
      apply h.rest
      rw [← rowLen_succ_of_ne _ _ _ _ e]
      exact hn'

/-- The position one past the end of a row is the start of the next row. -/
theorem Inv.nextRow {s : NonogramSolver} {r : Nat} (h : s.Inv r s.nonogram.colNums.length) :
    s.Inv (r + 1) 0 := by
  refine ⟨h.shape, ?_, ?_, ?_, ?_, ?_⟩
  · intro r' hr'
    rw [rowLen_end]
    exact h.rowSt r' hr'
  · intro r' hr' hl
    rw [rowLen_end] at hl
    exact h.rowFin r' hr' hl
  · intro c' hc'
    rw [colLen_end _ _ _ hc']
    exact h.colSt c' hc'
  · intro c' hc' hl
    rw [colLen_end _ _ _ hc'] at hl
    exact h.colFin c' hc' hl
  · intro r' c' hn
    rw [rowLen_end] at hn
    exact h.rest r' c' hn

end NonogramSolver

theorem rowCells_take (g : List (List Bool)) (r n m : Nat) (h : n ≤ m) :
    (rowCells g r m).take n = rowCells g r n := by
  unfold rowCells
  rw [← List.map_take, List.take_range, Nat.min_eq_left h]

theorem colCells_take (g : List (List Bool)) (c n m : Nat) (h : n ≤ m) :
    (colCells g c m).take n = colCells g c n := by
  unfold colCells
  rw [← List.map_take, List.take_range, Nat.min_eq_left h]

theorem lineRun_isSome_of_accepts (clue : List Int) (cells : List Bool) (n : Nat)
    (h : lineAccepts clue cells = true) : (lineRun clue (cells.take n)).isSome = true := by
  apply lineRunFrom_isSome_of_append clue (cells.take n) (cells.drop n)
  rw [List.take_append_drop]
  unfold lineAccepts acceptsFrom at h
  cases hrun : lineRunFrom clue (0, 0) false cells with
  | none => rw [hrun] at h; cases h
  | some st => rfl

/-- If a line extends the cells decided so far by `v` and is accepted, then
`v` is legal for the pair the cells lead to, and ends the line in a final
pair when it is the last cell. -/
theorem legal_of_accepts (clue : List Int) (line cells : List Bool) (v : Bool) (st : Int × Int)
    (n : Nat) (hacc : lineAccepts clue line = true) (hrun : lineRun clue cells = some st)
    (htake : line.take (n + 1) = cells ++ [v]) :
    lineLegal clue st v = true ∧
      (line.length ≤ n + 1 →
        lineDone clue (lineNext clue st (cells.getLast?.getD false) v) = true) := by
  have h1 := lineRun_isSome_of_accepts clue line (n + 1) hacc
  rw [htake, lineRun_append, hrun] at h1
  by_cases hl : lineLegal clue st v = true
  · refine ⟨hl, fun hlen => ?_⟩
    have hfull : line = cells ++ [v] := by
      rw [← htake, List.take_of_length_le hlen]
    unfold lineAccepts acceptsFrom at hacc
    have hrun' : lineRunFrom clue (0, 0) false line
        = some (lineNext clue st (cells.getLast?.getD false) v) := by
      rw [hfull]
      have := lineRun_append clue cells v
      unfold lineRun at this hrun
      rw [this, hrun]
      simp [hl]
    rw [hrun'] at hacc
    exact hacc
  · simp [hl] at h1

namespace NonogramSolver

theorem accepted_step {s : NonogramSolver} {r c : Nat} (h : s.Inv r c)
    (hr : r < s.nonogram.rowNums.length) (hc : c < s.nonogram.colNums.length)
    (G : List (List Bool)) (hG : Accepted s.nonogram G)
    (hag : Agree s.nonogram.colNums.length G s.nonogram.grid r c) :
    lineLegal (s.rowClue r) (s.rowState r) (cell G r c) = true ∧
    lineLegal (s.colClue c) (s.colState c) (cell G r c) = true ∧
    (c + 1 = s.nonogram.colNums.length →
      lineDone (s.rowClue r)
        (lineNext (s.rowClue r) (s.rowState r) (s.rowPrev r c) (cell G r c)) = true) ∧
    (r + 1 = s.nonogram.rowNums.length →
      lineDone (s.colClue c)
        (lineNext (s.colClue c) (s.colState c) (s.colPrev r c) (cell G r c)) = true) := by
  have hrow := h.rowSt r hr
  rw [rowLen_self] at hrow
  have hcol := h.colSt c hc
  rw [colLen_self] at hcol
  have e1 : (rowCells G r s.nonogram.colNums.length).take (c + 1)
      = rowCells s.nonogram.grid r c ++ [cell G r c] := by
    rw [rowCells_take _ _ _ _ (by omega), rowCells_succ]
    congr 1
    apply rowCells_congr
    intro c' hc'
    apply hag
    rw [rowLen_self]; exact hc'
  have e2 : (colCells G c s.nonogram.rowNums.length).take (r + 1)
      = colCells s.nonogram.grid c r ++ [cell G r c] := by
    rw [colCells_take _ _ _ _ (by omega), colCells_succ]
    congr 1
    apply colCells_congr
    intro r' hr'
    apply hag
    have : r' < r := hr'
    simp only [rowLen, this, if_true]
    exact hc
  have hR := legal_of_accepts _ _ _ _ _ c (hG.1 r hr) hrow e1
  have hC := legal_of_accepts _ _ _ _ _ r (hG.2 c hc) hcol e2
  refine ⟨hR.1, hC.1, fun hlast => ?_, fun hlast => ?_⟩
  · have := hR.2 (by simp [rowCells]; omega)
    rw [rowCells_getLast] at this
    exact this
  · have := hC.2 (by simp [colCells]; omega)
    rw [colCells_getLast] at this
    exact this

theorem agree_placedAt {s : NonogramSolver} (hs : s.Shape) {r c : Nat}
    (hr : r < s.nonogram.rowNums.length) (hc : c < s.nonogram.colNums.length)
    (G : List (List Bool)) (v : Bool) (hv : cell G r c = v)
    (hag : Agree s.nonogram.colNums.length G s.nonogram.grid r c) :
    Agree s.nonogram.colNums.length G (s.placedAt r c v).nonogram.grid r (c + 1) := by
  intro r' c' hlt
  rw [cell_placedAt s hs r c hr hc v]
  by_cases e : r' = r ∧ c' = c
  · rw [if_pos e, e.1, e.2, hv]
  · rw [if_neg e]
    apply hag
    by_cases e1 : r' = r
    · subst e1
      rw [rowLen_self] at hlt ⊢
      have : c' ≠ c := fun h => e ⟨rfl, h⟩
      omega
    · rw [← rowLen_succ_of_ne _ _ _ _ e1]; exact hlt

theorem agree_of_placedAt {s : NonogramSolver} (hs : s.Shape) {r c : Nat}
    (hr : r < s.nonogram.rowNums.length) (hc : c < s.nonogram.colNums.length)
    (G : List (List Bool)) (v : Bool)
    (hag : Agree s.nonogram.colNums.length G (s.placedAt r c v).nonogram.grid r (c + 1)) :
    Agree s.nonogram.colNums.length G s.nonogram.grid r c := by
  intro r' c' hlt
  have hlt' : c' < rowLen s.nonogram.colNums.length r (c + 1) r' := by
    by_cases e1 : r' = r
    · subst e1
      rw [rowLen_self] at hlt ⊢
      omega
    · rw [rowLen_succ_of_ne _ _ _ _ e1]; exact hlt
  rw [hag r' c' hlt', cell_placedAt s hs r c hr hc v]
  have : ¬ (r' = r ∧ c' = c) := by
    rintro ⟨e1, e2⟩
    subst e1
    rw [rowLen_self] at hlt
    omega
  rw [if_neg this]

theorem hasEmptyClue_of_row {s : NonogramSolver} {r : Nat}
    (hr : r < s.nonogram.rowNums.length) (h : s.rowClue r = []) : HasEmptyClue s.nonogram := by
  left
  have : s.nonogram.rowNums.getD r [] = s.nonogram.rowNums[r] := by
    rw [List.getD_eq_getElem?_getD, List.getElem?_eq_getElem hr]; rfl
  unfold rowClue at h
  rw [this] at h
  rw [← h]
  exact List.getElem_mem hr

theorem hasEmptyClue_of_col {s : NonogramSolver} {c : Nat}
    (hc : c < s.nonogram.colNums.length) (h : s.colClue c = []) : HasEmptyClue s.nonogram := by
  right
  have : s.nonogram.colNums.getD c [] = s.nonogram.colNums[c] := by
    rw [List.getD_eq_getElem?_getD, List.getElem?_eq_getElem hc]; rfl
  unfold colClue at h
  rw [this] at h
  rw [← h]
  exact List.getElem_mem hc

theorem clue_nil_of_clueAt_none {clue : List Int} {cells : List Bool} {st : Int × Int}
    (h : LineInv clue cells st) (hn : clueAt clue st.1 = none) : clue = [] := by
  by_contra hne
  have h1 := h.idx_lt hne
  have h0 := h.idx_nonneg
  unfold clueAt at hn
  rw [if_neg (by omega)] at hn
  have : st.1.toNat < clue.length := by omega
  rw [List.getElem?_eq_getElem this] at hn
  cases hn

end NonogramSolver

namespace NonogramSolver

theorem SameBoard.refl (s : NonogramSolver) : s.SameBoard s := ⟨rfl, rfl, rfl, rfl⟩

theorem SameBoard.trans {s t u : NonogramSolver} (h1 : s.SameBoard t) (h2 : t.SameBoard u) :
    s.SameBoard u :=
  ⟨h2.1.trans h1.1, h2.2.1.trans h1.2.1, h2.2.2.1.trans h1.2.2.1, h2.2.2.2.trans h1.2.2.2⟩

theorem sameBoard_placedAt (s : NonogramSolver) (r c : Nat) (v : Bool) :
    s.SameBoard (s.placedAt r c v) := ⟨rfl, rfl, rfl, rfl⟩

theorem next_idx_zero {clue : List Int} {cells : List Bool} {st : Int × Int} {v : Bool}
    (hrun : lineRun clue cells = some st) (hleg : lineLegal clue st v = true)
    (hnil : clue = []) : (lineNext clue st (cells.getLast?.getD false) v).1 = 0 := by
  have h1 : lineRun clue (cells ++ [v])
      = some (lineNext clue st (cells.getLast?.getD false) v) := by
    rw [lineRun_append, hrun]; simp [hleg]
  have h2 := (lineInv_of_lineRun _ _ _ h1).empty hnil
  rw [h2.1]

/-- One iteration of the loop of `backtrack`, given what the recursive call
does. -/
theorem tryVal_result (k : NonogramSolver → Int → Int → Except Fault (Bool × NonogramSolver))
    (s : NonogramSolver) (r c : Nat) (h : s.Inv r c)
    (hr : r < s.nonogram.rowNums.length) (hc : c < s.nonogram.colNums.length) (v : Bool)
    (hk : ∀ s1, s.SameBoard s1 → s1.Inv r (c + 1) →
      SearchResult s1 r (c + 1) (k s1 (r : Int) (c : Int))) :
    TryResult s r c v (tryVal k s (r : Int) (c : Int) v) := by
  have hs := h.shape
  have hrow := h.rowSt r hr
  rw [rowLen_self] at hrow
  have hcol := h.colSt c hc
  rw [colLen_self] at hcol
  unfold tryVal
  rcases isLegal_cases s hs r c hr hc v with hleg | ⟨hleg, hnone⟩
  · rw [hleg]
    simp only [Except_ok_bind]
    by_cases hb : (lineLegal (s.rowClue r) (s.rowState r) v &&
        lineLegal (s.colClue c) (s.colState c) v) = true
    · rw [if_pos hb]
      simp only [Bool.and_eq_true] at hb
      obtain ⟨hrl, hcl⟩ := hb
      rw [place_eq s hs r c hr hc v]
      simp only [Except_ok_bind]
      have hp := hs.placedAt r c v
      have hundo := undo_placedAt s hs r c hr hc v h.cell_false hrl hcl
        (h.row_open hr) (h.col_open hc)
      have hri : (s.placedAt r c v).rowClue r = [] → ((s.placedAt r c v).rowState r).1 = 0 := by
        intro hnil
        rw [rowState_placedAt s hs r c hr v r, if_pos rfl]
        have := next_idx_zero hrow hrl hnil
        rw [rowCells_getLast] at this
        exact this
      have hci : (s.placedAt r c v).colClue c = [] → ((s.placedAt r c v).colState c).1 = 0 := by
        intro hnil
        rw [colState_placedAt s hs r c hc v c, if_pos rfl]
        have := next_idx_zero hcol hcl hnil
        rw [colCells_getLast] at this
        exact this
      rw [isIllegalEnd_eq _ hp r c hr hc hri hci]
      simp only [Except_ok_bind]
      rw [rowState_placedAt s hs r c hr v r, if_pos rfl,
        colState_placedAt s hs r c hc v c, if_pos rfl]
      have e1 : (s.placedAt r c v).nonogram.colNums = s.nonogram.colNums := rfl
      have e2 : (s.placedAt r c v).nonogram.rowNums = s.nonogram.rowNums := rfl
      have e3 : (s.placedAt r c v).rowClue r = s.rowClue r := rfl
      have e4 : (s.placedAt r c v).colClue c = s.colClue c := rfl
      rw [e1, e2, e3, e4]
      by_cases he : ((decide (c + 1 = s.nonogram.colNums.length) &&
            !lineDone (s.rowClue r) (lineNext (s.rowClue r) (s.rowState r) (s.rowPrev r c) v)) ||
          (decide (r + 1 = s.nonogram.rowNums.length) &&
            !lineDone (s.colClue c) (lineNext (s.colClue c) (s.colState c) (s.colPrev r c) v)))
          = true
      · rw [if_pos he]
        simp only [Except_pure_eq, Except_ok_bind, Bool.false_eq_true, if_false]
        rw [hundo]
        right; left
        refine ⟨rfl, fun G hG hag hv => ?_⟩
        have := accepted_step h hr hc G hG hag
        rw [hv] at this
        obtain ⟨_, _, h3, h4⟩ := this
        simp only [Bool.or_eq_true, Bool.and_eq_true, decide_eq_true_eq, Bool.not_eq_true'] at he
        rcases he with ⟨a, b⟩ | ⟨a, b⟩
        · rw [h3 a] at b; cases b
        · rw [h4 a] at b; cases b
      · rw [if_neg he]
        simp only [Bool.or_eq_true, Bool.and_eq_true, decide_eq_true_eq, Bool.not_eq_true',
          not_or, not_and, Bool.not_eq_false] at he
        have hinv : (s.placedAt r c v).Inv r (c + 1) := h.step hr hc v hrl hcl he.1 he.2
        rcases hk _ (sameBoard_placedAt s r c v) hinv with
          ⟨s', hres, hsb, hfin, hag⟩ | ⟨hres, hno⟩ | ⟨hres, hempty⟩
        · rw [hres]
          simp only [Except_pure_eq, Except_ok_bind, if_true]
          left
          exact ⟨s', rfl, (sameBoard_placedAt s r c v).trans hsb, hfin,
            agree_of_placedAt hs hr hc _ v hag⟩
        · rw [hres]
          simp only [Except_pure_eq, Except_ok_bind, Bool.false_eq_true, if_false]
          rw [hundo]
          right; left
          refine ⟨rfl, fun G hG hag hv => ?_⟩
          exact hno G hG (agree_placedAt hs hr hc G v hv hag)
        · rw [hres]
          right; right
          exact ⟨rfl, hempty⟩
    · rw [if_neg hb]
      right; left
      refine ⟨rfl, fun G hG hag hv => ?_⟩
      have := accepted_step h hr hc G hG hag
      rw [hv] at this
      exact hb (by rw [this.1, this.2.1]; rfl)
  · rw [hleg]
    right; right
    refine ⟨rfl, ?_⟩
    rcases hnone with hn | hn
    · exact hasEmptyClue_of_row hr (clue_nil_of_clueAt_none (h.lineInv_row hr) hn)
    · exact hasEmptyClue_of_col hc (clue_nil_of_clueAt_none (h.lineInv_col hc) hn)

end NonogramSolver

namespace NonogramSolver

/-- The loop of `backtrack` over both values, given what the recursive call
does. -/
theorem tryBoth_result (k : NonogramSolver → Int → Int → Except Fault (Bool × NonogramSolver))
    (s : NonogramSolver) (r c : Nat) (h : s.Inv r c)
    (hr : r < s.nonogram.rowNums.length) (hc : c < s.nonogram.colNums.length)
    (hk : ∀ s1, s.SameBoard s1 → s1.Inv r (c + 1) →
      SearchResult s1 r (c + 1) (k s1 (r : Int) (c : Int))) :
    SearchResult s r c (tryBoth k s (r : Int) (c : Int)) := by
  unfold tryBoth
  rcases tryVal_result k s r c h hr hc false hk with
    ⟨s', hres, hsb, hfin, hag⟩ | ⟨hres, hno⟩ | ⟨hres, hempty⟩
  · rw [hres]
    exact Or.inl ⟨s', rfl, hsb, hfin, hag⟩
  · rw [hres]
    simp only [Except_ok_bind, Bool.false_eq_true, if_false]
    rcases tryVal_result k s r c h hr hc true hk with
      ⟨s', hres', hsb, hfin, hag⟩ | ⟨hres', hno'⟩ | ⟨hres', hempty⟩
    · rw [hres']
      exact Or.inl ⟨s', rfl, hsb, hfin, hag⟩
    · rw [hres']
      refine Or.inr (Or.inl ⟨rfl, fun G hG hag => ?_⟩)
      cases hv : cell G r c with
      | false => exact hno G hG hag hv
      | true => exact hno' G hG hag hv
    · rw [hres']
      exact Or.inr (Or.inr ⟨rfl, hempty⟩)
  · rw [hres]
    exact Or.inr (Or.inr ⟨rfl, hempty⟩)

theorem searchResult_nextRow {s : NonogramSolver} {r : Nat}
    {res : Except Fault (Bool × NonogramSolver)}
    (h : SearchResult s (r + 1) 0 res) : SearchResult s r s.nonogram.colNums.length res := by
  unfold SearchResult Agree at h ⊢
  simp only [rowLen_end] at h
  exact h

theorem mul_sub_succ (R r C : Nat) (h : r + 1 < R) :
    (R - r) * C = (R - (r + 1)) * C + C := by
  have : R - r = (R - (r + 1)) + 1 := by omega
  rw [this, Nat.succ_mul]

/-- The specification of `backtrack`: called after cell `(r, c - 1)` (or at
the start of row `r` when `c = 0`), in a state that satisfies the invariant,
with enough fuel for the cells that remain. -/
theorem backtrack_result (fuel : Nat) :
    ∀ (s : NonogramSolver) (r c : Nat) (col : Int), s.Inv r c →
      r < s.nonogram.rowNums.length → c ≤ s.nonogram.colNums.length → col + 1 = (c : Int) →
      (s.nonogram.rowNums.length - r) * s.nonogram.colNums.length - c < fuel →
      SearchResult s r c (backtrack fuel s (r : Int) col) := by
  induction fuel with
  | zero => intro s r c col _ _ _ _ hf; omega
  | succ fuel ih =>
    intro s r c col h hr hc hcol hf
    have hs := h.shape
    unfold backtrack
    rw [hs.cols_eq, hs.rows_eq, hcol]
    by_cases hcC : c = s.nonogram.colNums.length
    · subst hcC
      rw [if_pos rfl]
      by_cases hrR : r + 1 = s.nonogram.rowNums.length
      · have : (r : Int) + 1 = (s.nonogram.rowNums.length : Int) := by omega
        rw [if_pos this]
        refine Or.inl ⟨s, rfl, SameBoard.refl s, ?_, fun _ _ _ => rfl⟩
        have : s.nonogram.rowNums.length - 1 = r := by omega
        rw [this]
        exact h
      · have : ¬ ((r : Int) + 1 = (s.nonogram.rowNums.length : Int)) := by omega
        rw [if_neg this]
        have hr1 : r + 1 < s.nonogram.rowNums.length := by omega
        have e : (r : Int) + 1 = ((r + 1 : Nat) : Int) := by push_cast; rfl
        have e0 : (0 : Int) = ((0 : Nat) : Int) := rfl
        rw [e, e0]
        apply searchResult_nextRow
        apply tryBoth_result _ s (r + 1) 0 h.nextRow hr1 hs.cols_pos
        intro s1 hsb hinv
        have hR : s1.nonogram.rowNums.length = s.nonogram.rowNums.length := by rw [hsb.1]
        have hC : s1.nonogram.colNums.length = s.nonogram.colNums.length := by rw [hsb.2.1]
        apply ih s1 (r + 1) 1 _ hinv (by omega) (by have := hs.cols_pos; omega) (by simp)
        rw [hR, hC]
        have hm := mul_sub_succ s.nonogram.rowNums.length r s.nonogram.colNums.length hr1
        have hpos : s.nonogram.colNums.length ≤
            (s.nonogram.rowNums.length - (r + 1)) * s.nonogram.colNums.length :=
          Nat.le_mul_of_pos_left _ (by omega)
        have := hs.cols_pos
        omega
    · rw [if_neg (by omega)]
      have hc' : c < s.nonogram.colNums.length := by omega
      apply tryBoth_result _ s r c h hr hc'
      intro s1 hsb hinv
      have hR : s1.nonogram.rowNums.length = s.nonogram.rowNums.length := by rw [hsb.1]
      have hC : s1.nonogram.colNums.length = s.nonogram.colNums.length := by rw [hsb.2.1]
      apply ih s1 r (c + 1) _ hinv (by omega) (by omega) (by push_cast; rfl)
      rw [hR, hC]
      have hpos : s.nonogram.colNums.length ≤
          (s.nonogram.rowNums.length - r) * s.nonogram.colNums.length :=
        Nat.le_mul_of_pos_left _ (by omega)
      omega

end NonogramSolver

/-! ## The whole search -/

theorem cell_replicate (R C r c : Nat) :
    cell (List.replicate R (List.replicate C false)) r c = false := by
  unfold cell
  simp only [List.getD_eq_getElem?_getD, List.getElem?_replicate]
  by_cases hr : r < R
  · simp only [hr, if_true, Option.getD_some, List.getElem?_replicate]
    by_cases hc : c < C <;> simp [hc]
  · simp [hr]

theorem rowLen_zero (C r' : Nat) : rowLen C 0 0 r' = 0 := by
  unfold rowLen
  split
  · omega
  · split <;> rfl

namespace NonogramSolver

theorem getD_replicate_zero (n i : Nat) : (List.replicate n (0 : Int)).getD i 0 = 0 := by
  rw [List.getD_eq_getElem?_getD]
  by_cases h : i < n
  · rw [List.getElem?_eq_getElem (by simpa using h)]; simp
  · rw [List.getElem?_eq_none (by simpa using h)]; rfl

/-- A fresh solver on a fresh board satisfies the invariant at the first
cell. -/
theorem inv_new (n : Nonogram) (hf : n.Fresh) : (new n).Inv 0 0 := by
  refine ⟨⟨hf.rows_pos, hf.cols_pos, hf.rows_eq, hf.cols_eq, ?_, ?_, ?_, ?_, ?_, ?_⟩,
    ?_, ?_, ?_, ?_, ?_⟩
  · show n.grid.length = n.rowNums.length
    rw [hf.grid_eq]; simp
  · intro row hrow
    have hrow' : row ∈ n.grid := hrow
    rw [hf.grid_eq] at hrow'
    have := List.eq_of_mem_replicate hrow'
    rw [this]
    simp [new]
  · simp [new]
  · simp [new]
  · simp [new]
  · simp [new]
  · intro r' _
    rw [rowLen_zero]
    simp only [rowCells, List.range_zero, List.map_nil, lineRun, lineRunFrom, rowState, new,
      getD_replicate_zero]
  · intro r' _ hl
    rw [rowLen_zero] at hl
    have : 0 < n.colNums.length := hf.cols_pos
    have hl' : 0 = n.colNums.length := hl
    omega
  · intro c' _
    simp only [colLen, Nat.not_lt_zero, if_false, colCells, List.range_zero, List.map_nil,
      lineRun, lineRunFrom, colState, new, getD_replicate_zero]
  · intro c' _ hl
    simp only [colLen, Nat.not_lt_zero, if_false] at hl
    have : 0 < n.rowNums.length := hf.rows_pos
    have hl' : 0 = n.rowNums.length := hl
    omega
  · intro r' c' _
    show cell n.grid r' c' = false
    rw [hf.grid_eq]
    exact cell_replicate _ _ _ _

theorem solveFuel_new (n : Nonogram) (hf : n.Fresh) :
    (new n).solveFuel = n.rowNums.length * n.colNums.length + 1 := by
  unfold solveFuel
  show (n.rows * n.cols).toNat + 1 = _
  rw [hf.rows_eq, hf.cols_eq, ← Nat.cast_mul, Int.toNat_ofNat]

/-- The final invariant says the grid is accepted line by line. -/
theorem accepted_of_inv {s : NonogramSolver}
    (h : s.Inv (s.nonogram.rowNums.length - 1) s.nonogram.colNums.length) :
    Accepted s.nonogram s.nonogram.grid := by
  have hR := h.shape.rows_pos
  constructor
  · intro r hr
    have hl : rowLen s.nonogram.colNums.length (s.nonogram.rowNums.length - 1)
        s.nonogram.colNums.length r = s.nonogram.colNums.length := by
      unfold rowLen
      by_cases h1 : r < s.nonogram.rowNums.length - 1
      · simp [h1]
      · have : r = s.nonogram.rowNums.length - 1 := by omega
        simp [this]
    have h1 := h.rowSt r hr
    have h2 := h.rowFin r hr hl
    rw [hl] at h1
    unfold lineAccepts acceptsFrom
    unfold lineRun at h1
    show (match lineRunFrom (s.rowClue r) (0, 0) false _ with
      | some st' => lineDone (s.rowClue r) st' | none => false) = true
    rw [h1]
    exact h2
  · intro c hc
    have hl : colLen (s.nonogram.rowNums.length - 1) s.nonogram.colNums.length c
        = s.nonogram.rowNums.length := by
      simp only [colLen, hc, if_true]
      omega
    have h1 := h.colSt c hc
    have h2 := h.colFin c hc hl
    rw [hl] at h1
    unfold lineAccepts acceptsFrom
    unfold lineRun at h1
    show (match lineRunFrom (s.colClue c) (0, 0) false _ with
      | some st' => lineDone (s.colClue c) st' | none => false) = true
    rw [h1]
    exact h2

/-- The three ways `solve` can end on a fresh board. -/
theorem solve_cases (n : Nonogram) (hf : n.Fresh) :
    (∃ s', (new n).solve = .ok (.returned s') ∧ (new n).SameBoard s' ∧
        s'.Inv (n.rowNums.length - 1) n.colNums.length) ∨
    ((new n).solve = .ok (.thrown unsolvableMsg (new n)) ∧ ∀ G, ¬ Accepted n G) ∨
    ((new n).solve = .error .outOfBounds ∧ HasEmptyClue n) := by
  have hinv := inv_new n hf
  have hres := backtrack_result (new n).solveFuel (new n) 0 0 (-1) hinv hf.rows_pos
    (Nat.zero_le _) (by simp) (by
      rw [solveFuel_new n hf]
      show (n.rowNums.length - 0) * n.colNums.length - 0 < _
      simp)
  unfold solve
  have e : ((0 : Nat) : Int) = 0 := rfl
  rw [e] at hres
  rcases hres with ⟨s', hres, hsb, hfin, _⟩ | ⟨hres, hno⟩ | ⟨hres, hempty⟩
  · rw [hres]
    exact Or.inl ⟨s', rfl, hsb, hfin⟩
  · rw [hres]
    refine Or.inr (Or.inl ⟨rfl, fun G hG => hno G hG ?_⟩)
    intro r' c' hlt
    rw [rowLen_zero] at hlt
    omega
  · rw [hres]
    exact Or.inr (Or.inr ⟨rfl, hempty⟩)

end NonogramSolver

/-! ## Accepted grids are the solutions -/

theorem map_range_getD {α : Type} (l : List α) (d : α) :
    (List.range l.length).map (fun i => l.getD i d) = l := by
  apply List.ext_getElem
  · simp
  · intro i h1 h2
    simp [List.getD_eq_getElem?_getD, List.getElem?_eq_getElem h2]

theorem rowCells_eq_row (g : List (List Bool)) (r C : Nat) (h : (g.getD r []).length = C) :
    rowCells g r C = g.getD r [] := by
  unfold rowCells cell
  rw [← h]
  exact map_range_getD _ _

theorem colCells_eq_column (g : List (List Bool)) (c R : Nat) (h : g.length = R) :
    colCells g c R = column g c := by
  unfold colCells column cell
  rw [← h]
  apply List.ext_getElem
  · simp
  · intro i h1 h2
    have hi : i < g.length := by simpa using h2
    simp [List.getD_eq_getElem?_getD, List.getElem?_eq_getElem hi]

theorem getD_mem_or_default {α : Type} (l : List α) (i : Nat) (d : α) (h : i < l.length) :
    l.getD i d ∈ l := by
  rw [List.getD_eq_getElem?_getD, List.getElem?_eq_getElem h]
  exact List.getElem_mem h

/-- On a well-formed board, a grid of the right dimensions is accepted line
by line exactly when it is a solution. -/
theorem accepted_iff_isSolution (n : Nonogram) (hw : n.WellFormed) (g : List (List Bool))
    (hlen : g.length = n.rowNums.length) (hrow : ∀ row ∈ g, row.length = n.colNums.length) :
    Accepted n g ↔ IsSolution n g := by
  have hR : ∀ r, r < n.rowNums.length →
      (lineAccepts (n.rowNums.getD r []) (rowCells g r n.colNums.length) = true ↔
        LineMatches (g.getD r []) (n.rowNums.getD r [])) := by
    intro r hr
    rw [rowCells_eq_row g r _ (hrow _ (getD_mem_or_default g r [] (by omega)))]
    exact lineAccepts_iff (hw.1 _ (getD_mem_or_default _ r [] hr)) _
  have hC : ∀ c, c < n.colNums.length →
      (lineAccepts (n.colNums.getD c []) (colCells g c n.rowNums.length) = true ↔
        LineMatches (column g c) (n.colNums.getD c [])) := by
    intro c hc
    rw [colCells_eq_column g c _ hlen]
    exact lineAccepts_iff (hw.2 _ (getD_mem_or_default _ c [] hc)) _
  constructor
  · rintro ⟨h1, h2⟩
    exact ⟨hlen, hrow, fun r hr => (hR r hr).1 (h1 r hr), fun c hc => (hC c hc).1 (h2 c hc)⟩
  · rintro ⟨_, _, h1, h2⟩
    exact ⟨fun r hr => (hR r hr).2 (h1 r hr), fun c hc => (hC c hc).2 (h2 c hc)⟩

theorem not_hasEmptyClue_of_wellFormed (n : Nonogram) (hw : n.WellFormed) : ¬ HasEmptyClue n := by
  rintro (h | h)
  · rcases hw.1 _ h with h0 | ⟨h1, _⟩
    · cases h0
    · exact h1 rfl
  · rcases hw.2 _ h with h0 | ⟨h1, _⟩
    · cases h0
    · exact h1 rfl

/-- A final state of the search on a well-formed board holds a solution. -/
theorem isSolution_of_inv (n : Nonogram) (hw : n.WellFormed) (s' : NonogramSolver)
    (hsb : (NonogramSolver.new n).SameBoard s')
    (hinv : s'.Inv (n.rowNums.length - 1) n.colNums.length) :
    IsSolution n s'.nonogram.grid := by
  have hR : s'.nonogram.rowNums = n.rowNums := hsb.1
  have hC : s'.nonogram.colNums = n.colNums := hsb.2.1
  have hacc : Accepted s'.nonogram s'.nonogram.grid :=
    NonogramSolver.accepted_of_inv (by rw [hR, hC]; exact hinv)
  have hacc' : Accepted n s'.nonogram.grid := by
    unfold Accepted at hacc ⊢
    rw [hR, hC] at hacc
    exact hacc
  have hs := hinv.shape
  exact (accepted_iff_isSolution n hw _ (by rw [hs.grid_len, hR])
    (by intro row hrow; rw [hs.grid_row row hrow, hC])).1 hacc'

/-- The grid `solve` leaves when it returns on a fresh well-formed board is a
solution. -/
theorem isSolution_of_returned (n : Nonogram) (hf : n.Fresh) (hw : n.WellFormed)
    (s' : NonogramSolver) (hret : (NonogramSolver.new n).solve = .ok (.returned s')) :
    IsSolution n s'.nonogram.grid := by
  rcases NonogramSolver.solve_cases n hf with ⟨s'', hres, hsb, hinv⟩ | ⟨hres, _⟩ | ⟨hres, _⟩
  · rw [hres] at hret
    injection hret with hret
    injection hret with hret
    subst hret
    exact isSolution_of_inv n hw _ hsb hinv
  · rw [hres] at hret
    injection hret with hret
    cases hret
  · rw [hres] at hret
    cases hret

/-- C1. Soundness of `solve`: on a well-formed board with an all-false grid
and a fresh solver, whenever `solve` returns normally the grid it leaves is a
solution (every row and every column has exactly the runs of its clue
sequence); and when the board has no solution, `solve` throws the unsolvable
error. -/
theorem solve_sound (n : Nonogram) (hf : n.Fresh) (hw : n.WellFormed) :
    (∀ s', (NonogramSolver.new n).solve = .ok (.returned s') →
      IsSolution n s'.nonogram.grid) ∧
    ((¬ ∃ g, IsSolution n g) →
      ∃ s', (NonogramSolver.new n).solve
        = .ok (.thrown NonogramSolver.unsolvableMsg s')) := by
  constructor
  · exact isSolution_of_returned n hf hw
  · intro hno
    rcases NonogramSolver.solve_cases n hf with ⟨s'', _, hsb, hinv⟩ | ⟨hres, _⟩ | ⟨_, hempty⟩
    · exact absurd ⟨_, isSolution_of_inv n hw _ hsb hinv⟩ hno
    · exact ⟨_, hres⟩
    · exact absurd hempty (not_hasEmptyClue_of_wellFormed n hw)

theorem fresh_ofClues (R C : List (List Int)) (hR : R ≠ []) (hC : C ≠ []) :
    (Nonogram.ofClues R C).Fresh :=
  ⟨List.length_pos.2 hR, List.length_pos.2 hC, rfl, rfl, rfl⟩

/-- Witness of C1: scenario 3 is a fresh well-formed board. -/
theorem solve_sound_witness :
    board3.Fresh ∧ board3.WellFormed ∧
    ((∀ s', (NonogramSolver.new board3).solve = .ok (.returned s') →
      IsSolution board3 s'.nonogram.grid) ∧
    ((¬ ∃ g, IsSolution board3 g) →
      ∃ s', (NonogramSolver.new board3).solve
        = .ok (.thrown NonogramSolver.unsolvableMsg s'))) :=
  ⟨fresh_ofClues _ _ (by decide) (by decide), by decide,
    solve_sound board3 (fresh_ofClues _ _ (by decide) (by decide)) (by decide)⟩

theorem accepted_congr {n m : Nonogram} (h1 : m.rowNums = n.rowNums) (h2 : m.colNums = n.colNums)
    (G : List (List Bool)) : Accepted m G ↔ Accepted n G := by
  unfold Accepted
  rw [h1, h2]

theorem hasEmptyClue_congr {n m : Nonogram} (h1 : m.rowNums = n.rowNums)
    (h2 : m.colNums = n.colNums) : HasEmptyClue m ↔ HasEmptyClue n := by
  unfold HasEmptyClue
  rw [h1, h2]

/-- For a solution that agrees with the decided cells, the checks of
`backtrack` let the value of the solution pass at the next cell. -/
theorem checks_pass_of_accepted (s : NonogramSolver) (r c : Nat) (G : List (List Bool))
    (hinv : s.Inv r c) (hr : r < s.nonogram.rowNums.length)
    (hc : c < s.nonogram.colNums.length) (hne : ¬ HasEmptyClue s.nonogram)
    (hG : Accepted s.nonogram G)
    (hag : Agree s.nonogram.colNums.length G s.nonogram.grid r c) :
    s.isLegal (r : Int) (c : Int) (cell G r c) = .ok true ∧
    ∃ s1, s.place (r : Int) (c : Int) (cell G r c) = .ok s1 ∧
      s1.isIllegalEnd (r : Int) (c : Int) = .ok false := by
  have hs := hinv.shape
  obtain ⟨h1, h2, h3, h4⟩ := NonogramSolver.accepted_step hinv hr hc G hG hag
  have hrne : s.rowClue r ≠ [] := fun h => hne (NonogramSolver.hasEmptyClue_of_row hr h)
  have hcne : s.colClue c ≠ [] := fun h => hne (NonogramSolver.hasEmptyClue_of_col hc h)
  constructor
  · rcases NonogramSolver.isLegal_cases s hs r c hr hc (cell G r c) with hl | ⟨_, hn | hn⟩
    · rw [hl, h1, h2]; rfl
    · exact absurd (NonogramSolver.clue_nil_of_clueAt_none (hinv.lineInv_row hr) hn) hrne
    · exact absurd (NonogramSolver.clue_nil_of_clueAt_none (hinv.lineInv_col hc) hn) hcne
  · refine ⟨_, NonogramSolver.place_eq s hs r c hr hc _, ?_⟩
    rw [NonogramSolver.isIllegalEnd_eq _ (hs.placedAt r c _) r c hr hc
      (fun h => absurd h hrne) (fun h => absurd h hcne)]
    rw [NonogramSolver.rowState_placedAt s hs r c hr _ r, if_pos rfl,
      NonogramSolver.colState_placedAt s hs r c hc _ c, if_pos rfl]
    have e1 : (s.placedAt r c (cell G r c)).nonogram.colNums = s.nonogram.colNums := rfl
    have e2 : (s.placedAt r c (cell G r c)).nonogram.rowNums = s.nonogram.rowNums := rfl
    have e3 : (s.placedAt r c (cell G r c)).rowClue r = s.rowClue r := rfl
    have e4 : (s.placedAt r c (cell G r c)).colClue c = s.colClue c := rfl
    rw [e1, e2, e3, e4]
    congr 1
    by_cases a : c + 1 = s.nonogram.colNums.length <;>
      by_cases b : r + 1 = s.nonogram.rowNums.length <;> simp [a, b, h3, h4]

/-- C2. Completeness of `solve`: on a well-formed board with an all-false
grid and a fresh solver, if some grid is a solution then `solve` returns
normally; and in every state of the search on that board (a state that
satisfies the invariant at a cell `(r, c)`), `isLegal` accepts the value a
solution has at `(r, c)` and `isIllegalEnd` does not reject it, whenever the
solution agrees with the cells decided so far. -/
theorem solve_complete (n : Nonogram) (hf : n.Fresh) (hw : n.WellFormed) :
    ((∃ g, IsSolution n g) → ∃ s', (NonogramSolver.new n).solve = .ok (.returned s')) ∧
    (∀ (s : NonogramSolver) (r c : Nat) (g : List (List Bool)),
      (NonogramSolver.new n).SameBoard s → s.Inv r c →
      r < n.rowNums.length → c < n.colNums.length → IsSolution n g →
      Agree n.colNums.length g s.nonogram.grid r c →
      s.isLegal (r : Int) (c : Int) (cell g r c) = .ok true ∧
      ∃ s1, s.place (r : Int) (c : Int) (cell g r c) = .ok s1 ∧
        s1.isIllegalEnd (r : Int) (c : Int) = .ok false) := by
  constructor
  · rintro ⟨g, hg⟩
    have hacc : Accepted n g := (accepted_iff_isSolution n hw g hg.1 hg.2.1).2 hg
    rcases NonogramSolver.solve_cases n hf with ⟨s', hres, _, _⟩ | ⟨_, hno⟩ | ⟨_, hempty⟩
    · exact ⟨s', hres⟩
    · exact absurd hacc (hno g)
    · exact absurd hempty (not_hasEmptyClue_of_wellFormed n hw)
  · intro s r c g hsb hinv hr hc hg hag
    have hR : s.nonogram.rowNums = n.rowNums := hsb.1
    have hC : s.nonogram.colNums = n.colNums := hsb.2.1
    have hacc : Accepted n g := (accepted_iff_isSolution n hw g hg.1 hg.2.1).2 hg
    apply checks_pass_of_accepted s r c g hinv (by rw [hR]; exact hr) (by rw [hC]; exact hc)
    · rw [hasEmptyClue_congr hR hC]
      exact not_hasEmptyClue_of_wellFormed n hw
    · rw [accepted_congr hR hC]
      exact hacc
    · rw [hC]
      exact hag

/-- Witness of C2: scenario 3 with its solution, at the first cell. -/
theorem solve_complete_witness :
    board3.Fresh ∧ board3.WellFormed ∧ IsSolution board3 [[true, false], [true, false]] ∧
    (∃ s', (NonogramSolver.new board3).solve = .ok (.returned s')) ∧
    (NonogramSolver.new board3).isLegal 0 0 true = .ok true :=
  ⟨fresh_ofClues _ _ (by decide) (by decide), by decide, by decide,
    (solve_complete board3 (fresh_ofClues _ _ (by decide) (by decide)) (by decide)).1
      ⟨[[true, false], [true, false]], by decide⟩,
    ((solve_complete board3 (fresh_ofClues _ _ (by decide) (by decide)) (by decide)).2
      (NonogramSolver.new board3) 0 0 [[true, false], [true, false]]
      (NonogramSolver.SameBoard.refl _)
      (NonogramSolver.inv_new board3 (fresh_ofClues _ _ (by decide) (by decide)))
      (by decide) (by decide) (by decide) (fun _ _ h => by
        rw [rowLen_zero] at h; omega)).1⟩

/-! ## Rollback -/

namespace NonogramSolver

theorem backtrack_hk (fuel : Nat) (s : NonogramSolver) (r c : Nat)
    (hr : r < s.nonogram.rowNums.length) (hc : c < s.nonogram.colNums.length)
    (hf : (s.nonogram.rowNums.length - r) * s.nonogram.colNums.length - (c + 1) < fuel) :
    ∀ s1, s.SameBoard s1 → s1.Inv r (c + 1) →
      SearchResult s1 r (c + 1) (backtrack fuel s1 (r : Int) (c : Int)) := by
  intro s1 hsb hinv
  have hR : s1.nonogram.rowNums.length = s.nonogram.rowNums.length := by rw [hsb.1]
  have hC : s1.nonogram.colNums.length = s.nonogram.colNums.length := by rw [hsb.2.1]
  apply backtrack_result fuel s1 r (c + 1) _ hinv (by omega) (by omega) (by push_cast; rfl)
  rw [hR, hC]
  exact hf

/-- Where a call that does not return at once places its tile. -/
theorem nextCell_cases {s : NonogramSolver} {r c : Nat} {col row' col' : Int} {fuel : Nat}
    (h : s.Inv r c) (hr : r < s.nonogram.rowNums.length) (hc : c ≤ s.nonogram.colNums.length)
    (hcol : col + 1 = (c : Int))
    (hf : (s.nonogram.rowNums.length - r) * s.nonogram.colNums.length - c < fuel + 1)
    (hn : nextCell s (r : Int) col = some (row', col')) :
    ∃ r' c' : Nat, row' = (r' : Int) ∧ col' = (c' : Int) ∧ s.Inv r' c' ∧
      r' < s.nonogram.rowNums.length ∧ c' < s.nonogram.colNums.length ∧
      (s.nonogram.rowNums.length - r') * s.nonogram.colNums.length - (c' + 1) < fuel := by
  have hs := h.shape
  unfold nextCell at hn
  rw [hs.cols_eq, hs.rows_eq, hcol] at hn
  by_cases hcC : c = s.nonogram.colNums.length
  · subst hcC
    rw [if_pos rfl] at hn
    by_cases hrR : r + 1 = s.nonogram.rowNums.length
    · have : (r : Int) + 1 = (s.nonogram.rowNums.length : Int) := by omega
      rw [if_pos this] at hn
      cases hn
    · have : ¬ ((r : Int) + 1 = (s.nonogram.rowNums.length : Int)) := by omega
      rw [if_neg this] at hn
      simp only [Option.some.injEq, Prod.mk.injEq] at hn
      have hr1 : r + 1 < s.nonogram.rowNums.length := by omega
      refine ⟨r + 1, 0, by rw [← hn.1]; push_cast; rfl, by rw [← hn.2]; rfl, h.nextRow, hr1,
        hs.cols_pos, ?_⟩
      have hm := mul_sub_succ s.nonogram.rowNums.length r s.nonogram.colNums.length hr1
      have hpos : s.nonogram.colNums.length ≤
          (s.nonogram.rowNums.length - (r + 1)) * s.nonogram.colNums.length :=
        Nat.le_mul_of_pos_left _ (by omega)
      have := hs.cols_pos
      omega
  · rw [if_neg (by omega)] at hn
    simp only [Option.some.injEq, Prod.mk.injEq] at hn
    refine ⟨r, c, hn.1.symm, hn.2.symm, h, hr, by omega, ?_⟩
    have hpos : s.nonogram.colNums.length ≤
        (s.nonogram.rowNums.length - r) * s.nonogram.colNums.length :=
      Nat.le_mul_of_pos_left _ (by omega)
    omega

/-- A placement that passes both checks leads to a state that satisfies the
invariant one cell further. -/
theorem inv_of_checks {s s1 : NonogramSolver} {r c : Nat} {v : Bool} (h : s.Inv r c)
    (hr : r < s.nonogram.rowNums.length) (hc : c < s.nonogram.colNums.length)
    (hleg : s.isLegal (r : Int) (c : Int) v = .ok true)
    (hpl : s.place (r : Int) (c : Int) v = .ok s1)
    (hend : s1.isIllegalEnd (r : Int) (c : Int) = .ok false) :
    s1.Inv r (c + 1) ∧ s.SameBoard s1 := by
  have hs := h.shape
  have hrow := h.rowSt r hr
  rw [rowLen_self] at hrow
  have hcol := h.colSt c hc
  rw [colLen_self] at hcol
  have hb : lineLegal (s.rowClue r) (s.rowState r) v = true ∧
      lineLegal (s.colClue c) (s.colState c) v = true := by
    rcases isLegal_cases s hs r c hr hc v with hl | ⟨hl, _⟩
    · rw [hl] at hleg
      injection hleg with hleg
      simpa using hleg
    · rw [hl] at hleg; cases hleg
  rw [place_eq s hs r c hr hc v] at hpl
  injection hpl with hpl
  subst hpl
  have hri : (s.placedAt r c v).rowClue r = [] → ((s.placedAt r c v).rowState r).1 = 0 := by
    intro hnil
    rw [rowState_placedAt s hs r c hr v r, if_pos rfl]
    have := next_idx_zero hrow hb.1 hnil
    rw [rowCells_getLast] at this
    exact this
  have hci : (s.placedAt r c v).colClue c = [] → ((s.placedAt r c v).colState c).1 = 0 := by
    intro hnil
    rw [colState_placedAt s hs r c hc v c, if_pos rfl]
    have := next_idx_zero hcol hb.2 hnil
    rw [colCells_getLast] at this
    exact this
  rw [isIllegalEnd_eq _ (hs.placedAt r c v) r c hr hc hri hci,
    rowState_placedAt s hs r c hr v r, if_pos rfl,
    colState_placedAt s hs r c hc v c, if_pos rfl] at hend
  injection hend with hend
  have e1 : (s.placedAt r c v).nonogram.colNums = s.nonogram.colNums := rfl
  have e2 : (s.placedAt r c v).nonogram.rowNums = s.nonogram.rowNums := rfl
  have e3 : (s.placedAt r c v).rowClue r = s.rowClue r := rfl
  have e4 : (s.placedAt r c v).colClue c = s.colClue c := rfl
  rw [e1, e2, e3, e4] at hend
  simp only [Bool.or_eq_false_iff, Bool.and_eq_false_iff, decide_eq_false_iff_not,
    Bool.not_eq_false'] at hend
  refine ⟨h.step hr hc v hb.1 hb.2 (fun a => ?_) (fun a => ?_), sameBoard_placedAt s r c v⟩
  · rcases hend.1 with h1 | h1
    · exact absurd a h1
    · exact h1
  · rcases hend.2 with h1 | h1
    · exact absurd a h1
    · exact h1

theorem eq_of_tryVal_false {k : NonogramSolver → Int → Int → Except Fault (Bool × NonogramSolver)}
    {s s2 : NonogramSolver} {r c : Nat} {v : Bool}
    (hres : TryResult s r c v (tryVal k s (r : Int) (c : Int) v))
    (h : tryVal k s (r : Int) (c : Int) v = .ok (false, s2)) : s2 = s := by
  rcases hres with ⟨s', h1, _⟩ | ⟨h1, _⟩ | ⟨h1, _⟩
  · rw [h1] at h
    injection h with h
    injection h with h _
    cases h
  · rw [h1] at h
    injection h with h
    injection h with _ h
    exact h.symm
  · rw [h1] at h; cases h

/-- Every call made during a solve is made in a state that satisfies the
invariant, with enough fuel. -/
theorem called_inv (n : Nonogram) (hf : n.Fresh) {fuel : Nat} {s : NonogramSolver}
    {row col : Int} (hcall : Called n fuel s row col) :
    ∃ r c : Nat, row = (r : Int) ∧ col + 1 = (c : Int) ∧ s.Inv r c ∧
      r < s.nonogram.rowNums.length ∧ c ≤ s.nonogram.colNums.length ∧
      (s.nonogram.rowNums.length - r) * s.nonogram.colNums.length - c < fuel := by
  induction hcall with
  | start =>
    refine ⟨0, 0, rfl, by simp, inv_new n hf, hf.rows_pos, Nat.zero_le _, ?_⟩
    rw [solveFuel_new n hf]
    show (n.rowNums.length - 0) * n.colNums.length - 0 < _
    simp
  | @onFalse fuel s s1 row col row' col' _ hn hleg hpl hend ih =>
    obtain ⟨r, c, hrow, hcol, hinv, hr, hc, hfuel⟩ := ih
    subst hrow
    obtain ⟨r', c', e1, e2, hinv', hr', hc', hfuel'⟩ := nextCell_cases hinv hr hc hcol hfuel hn
    subst e1 e2
    obtain ⟨hinv1, hsb⟩ := inv_of_checks hinv' hr' hc' hleg hpl hend
    have hR : s1.nonogram.rowNums.length = s.nonogram.rowNums.length := by rw [hsb.1]
    have hC : s1.nonogram.colNums.length = s.nonogram.colNums.length := by rw [hsb.2.1]
    exact ⟨r', c' + 1, rfl, by push_cast; rfl, hinv1, by omega, by omega, by rw [hR, hC]; exact hfuel'⟩
  | @onTrue fuel s s0 s1 row col row' col' _ hn htry hleg hpl hend ih =>
    obtain ⟨r, c, hrow, hcol, hinv, hr, hc, hfuel⟩ := ih
    subst hrow
    obtain ⟨r', c', e1, e2, hinv', hr', hc', hfuel'⟩ := nextCell_cases hinv hr hc hcol hfuel hn
    subst e1 e2
    have hs0 : s0 = s :=
      eq_of_tryVal_false (tryVal_result _ s r' c' hinv' hr' hc' false
        (backtrack_hk fuel s r' c' hr' hc' hfuel')) htry
    subst hs0
    obtain ⟨hinv1, hsb⟩ := inv_of_checks hinv' hr' hc' hleg hpl hend
    have hR : s1.nonogram.rowNums.length = s0.nonogram.rowNums.length := by rw [hsb.1]
    have hC : s1.nonogram.colNums.length = s0.nonogram.colNums.length := by rw [hsb.2.1]
    exact ⟨r', c' + 1, rfl, by push_cast; rfl, hinv1, by omega, by omega, by rw [hR, hC]; exact hfuel'⟩

end NonogramSolver

/-- C3. Rollback correctness: for every call `backtrack(row, col)` made
during a solve that starts from a fresh solver on a well-formed board with an
all-false grid, if the call returns `false` then the four counter arrays are
what they were when the call was entered; and each iteration of its loop that
does not find a solution (so that its placement, if one was made, has been
undone) leaves the four counter arrays as they were at the start of the
iteration, for the empty and for the filled tile. -/
theorem rollback (n : Nonogram) (hf : n.Fresh) (_hw : n.WellFormed) {fuel : Nat}
    {s : NonogramSolver} {row col : Int} (hcall : NonogramSolver.Called n fuel s row col) :
    (∀ s', NonogramSolver.backtrack fuel s row col = .ok (false, s') → s.SameCounters s') ∧
    (∀ (fuel' : Nat) (row' col' : Int) (s0 s2 : NonogramSolver), fuel = fuel' + 1 →
      NonogramSolver.nextCell s row col = some (row', col') →
      NonogramSolver.tryVal (NonogramSolver.backtrack fuel') s row' col' false = .ok (false, s0) →
      s.SameCounters s0 ∧
      (NonogramSolver.tryVal (NonogramSolver.backtrack fuel') s0 row' col' true = .ok (false, s2) →
        s0.SameCounters s2)) := by
  obtain ⟨r, c, hrow, hcol, hinv, hr, hc, hfuel⟩ := NonogramSolver.called_inv n hf hcall
  subst hrow
  constructor
  · intro s' hres
    rcases NonogramSolver.backtrack_result fuel s r c col hinv hr hc hcol hfuel with
      ⟨s'', h1, _⟩ | ⟨h1, _⟩ | ⟨h1, _⟩
    · rw [h1] at hres
      injection hres with hres
      injection hres with hres _
      cases hres
    · rw [h1] at hres
      injection hres with hres
      injection hres with _ hres
      subst hres
      exact ⟨rfl, rfl, rfl, rfl⟩
    · rw [h1] at hres; cases hres
  · intro fuel' row' col' s0 s2 hfl hn hfalse
    subst hfl
    obtain ⟨r', c', e1, e2, hinv', hr', hc', hfuel'⟩ :=
      NonogramSolver.nextCell_cases hinv hr hc hcol hfuel hn
    subst e1 e2
    have hk := NonogramSolver.backtrack_hk fuel' s r' c' hr' hc' hfuel'
    have hs0 : s0 = s :=
      NonogramSolver.eq_of_tryVal_false
        (NonogramSolver.tryVal_result _ s r' c' hinv' hr' hc' false hk) hfalse
    subst hs0
    refine ⟨⟨rfl, rfl, rfl, rfl⟩, fun htrue => ?_⟩
    have hs2 : s2 = s0 :=
      NonogramSolver.eq_of_tryVal_false
        (NonogramSolver.tryVal_result _ s0 r' c' hinv' hr' hc' true hk) htrue
    subst hs2
    exact ⟨rfl, rfl, rfl, rfl⟩

/-- Witness of C3: the call `solve` makes on scenario 4, which returns
`false`. -/
theorem rollback_witness :
    board4.Fresh ∧ board4.WellFormed ∧
    NonogramSolver.Called board4 3 (NonogramSolver.new board4) 0 (-1) ∧
    NonogramSolver.backtrack 3 (NonogramSolver.new board4) 0 (-1)
      = .ok (false, NonogramSolver.new board4) ∧
    (NonogramSolver.new board4).SameCounters (NonogramSolver.new board4) :=
  ⟨fresh_ofClues _ _ (by decide) (by decide), by decide, NonogramSolver.Called.start,
    by decide,
    (rollback board4 (fresh_ofClues _ _ (by decide) (by decide)) (by decide)
      NonogramSolver.Called.start).1 _ (by decide)⟩

/-! ## Over-constrained rows -/

theorem runsAux_bound (l : List Bool) :
    ∀ k : Nat, (runsAux k l).sum + (runsAux k l).length ≤ k + l.length + 1 := by
  induction l with
  | nil =>
    intro k
    by_cases hk : k = 0 <;> simp [runsAux, hk]
  | cons v xs ih =>
    intro k
    cases v with
    | true =>
      have := ih (k + 1)
      simp only [runsAux, List.length_cons]
      omega
    | false =>
      have := ih 0
      by_cases hk : k = 0
      · simp only [runsAux, hk, if_true, List.length_cons]
        omega
      · simp only [runsAux, hk, if_false, List.sum_cons, List.length_cons]
        omega

theorem sum_map_ofNat (l : List Nat) : (l.map Int.ofNat).sum = ((l.sum : Nat) : Int) := by
  induction l with
  | nil => rfl
  | cons x xs ih => simp [ih]

/-- A line that matches a clue sequence of positive numbers is long enough
for the blocks and the gaps between them. -/
theorem length_of_lineMatches (line : List Bool) (clue : List Int)
    (hpos : ∀ x ∈ clue, 0 < x) (hm : LineMatches line clue) :
    clue.sum + ((clue.length : Int) - 1) ≤ (line.length : Int) := by
  have hne0 : ¬ (clue = [0]) := by
    intro h0
    have := hpos 0 (by rw [h0]; simp)
    omega
  unfold LineMatches clueRuns at hm
  rw [if_neg hne0] at hm
  have hb := runsAux_bound line 0
  have hs : clue.sum = (((runs line).sum : Nat) : Int) := by
    rw [← hm]; exact sum_map_ofNat _
  have hl : clue.length = (runs line).length := by
    rw [← hm]; simp
  unfold runs at hs hl
  rw [hs, hl]
  omega

/-- A `solve` that throws does so because the call `backtrack(0, -1)`
returned `false`. -/
theorem NonogramSolver.backtrack_of_thrown (s s' : NonogramSolver) (msg : String)
    (h : s.solve = .ok (.thrown msg s')) :
    NonogramSolver.backtrack s.solveFuel s 0 (-1) = .ok (false, s') := by
  unfold NonogramSolver.solve at h
  cases hb : NonogramSolver.backtrack s.solveFuel s 0 (-1) with
  | error e =>
    rw [hb] at h
    cases h
  | ok p =>
    obtain ⟨found, s2⟩ := p
    rw [hb] at h
    cases found with
    | true => cases h
    | false =>
      injection h with h
      injection h with _ h
      rw [h]

theorem thrown_of_overconstrained_row (n : Nonogram) (hf : n.Fresh) (hne : ¬ HasEmptyClue n)
    (r : Nat) (hr : r < n.rowNums.length) (hpos : ∀ x ∈ n.rowNums.getD r [], 0 < x)
    (hsum : (n.colNums.length : Int) <
      (n.rowNums.getD r []).sum + (((n.rowNums.getD r []).length : Int) - 1)) :
    (NonogramSolver.new n).solve
      = .ok (.thrown NonogramSolver.unsolvableMsg (NonogramSolver.new n)) := by
  rcases NonogramSolver.solve_cases n hf with ⟨s', _, hsb, hinv⟩ | ⟨hres, _⟩ | ⟨_, hempty⟩
  · exfalso
    have hR : s'.nonogram.rowNums = n.rowNums := hsb.1
    have hC : s'.nonogram.colNums = n.colNums := hsb.2.1
    have hacc : Accepted n s'.nonogram.grid :=
      (accepted_congr hR hC _).1 (NonogramSolver.accepted_of_inv (by rw [hR, hC]; exact hinv))
    have hrow := hacc.1 r hr
    have hcne : n.rowNums.getD r [] ≠ [] := by
      intro h
      apply hne
      left
      rw [← h]
      exact getD_mem_or_default _ r [] hr
    have hwf : WellFormedClue (n.rowNums.getD r []) := Or.inr ⟨hcne, hpos⟩
    have hm := (lineAccepts_iff hwf _).1 hrow
    have hlen := length_of_lineMatches _ _ hpos hm
    have : (rowCells s'.nonogram.grid r n.colNums.length).length = n.colNums.length := by
      simp [rowCells]
    rw [this] at hlen
    omega
  · exact hres
  · exact absurd hempty hne

/-- C4. Over-constrained rows are reported as unsolvable: on a board with at
least one row and one column, no empty clue sequence and an all-false grid,
if the clue sequence of some row consists of positive numbers whose sum plus
the number of clues minus one exceeds the number of columns, then `solve` on
a fresh solver throws the unsolvable error, the call `backtrack(0, -1)`
having returned `false`: it neither returns normally nor runs into a fault of
the embedding (an out-of-bounds access or exhausted fuel). -/
theorem overconstrained_row_unsolvable (n : Nonogram) (hf : n.Fresh) (hne : ¬ HasEmptyClue n)
    (r : Nat) (hr : r < n.rowNums.length) (hpos : ∀ x ∈ n.rowNums.getD r [], 0 < x)
    (hsum : (n.colNums.length : Int) <
      (n.rowNums.getD r []).sum + (((n.rowNums.getD r []).length : Int) - 1)) :
    (NonogramSolver.new n).solve
      = .ok (.thrown NonogramSolver.unsolvableMsg (NonogramSolver.new n)) ∧
    NonogramSolver.backtrack (NonogramSolver.new n).solveFuel (NonogramSolver.new n) 0 (-1)
      = .ok (false, NonogramSolver.new n) :=
  ⟨thrown_of_overconstrained_row n hf hne r hr hpos hsum,
    NonogramSolver.backtrack_of_thrown _ _ _
      (thrown_of_overconstrained_row n hf hne r hr hpos hsum)⟩

/-- Witness of C4: a 1x2 board whose only row asks for a block of three. -/
theorem overconstrained_row_unsolvable_witness :
    (Nonogram.ofClues [[3]] [[1], [1]]).Fresh ∧ ¬ HasEmptyClue (Nonogram.ofClues [[3]] [[1], [1]]) ∧
    ((NonogramSolver.new (Nonogram.ofClues [[3]] [[1], [1]])).solve
      = .ok (.thrown NonogramSolver.unsolvableMsg
          (NonogramSolver.new (Nonogram.ofClues [[3]] [[1], [1]]))) ∧
    NonogramSolver.backtrack (NonogramSolver.new (Nonogram.ofClues [[3]] [[1], [1]])).solveFuel
      (NonogramSolver.new (Nonogram.ofClues [[3]] [[1], [1]])) 0 (-1)
      = .ok (false, NonogramSolver.new (Nonogram.ofClues [[3]] [[1], [1]]))) :=
  ⟨fresh_ofClues _ _ (by decide) (by decide), by decide,
    overconstrained_row_unsolvable _ (fresh_ofClues _ _ (by decide) (by decide)) (by decide)
      0 (by decide) (by decide) (by decide)⟩

/-! ## Solving again -/

/-- C5, counterexample. On the 1x1 board with clues `[1]` and `[1]` the
first `solve` returns with grid `[[true]]`; a second `solve` on the same
solver, whose counters are the ones the first call left, also returns
normally but leaves the grid `[[false]]`, which is not the grid of the first
call (and not a solution). -/
theorem solve_twice_differs :
    (NonogramSolver.new board2).solve = .ok (.returned board2Solved) ∧
    board2Solved.solve = .ok (.returned board2SolvedAgain) ∧
    board2SolvedAgain.nonogram.grid ≠ board2Solved.nonogram.grid ∧
    ¬ IsSolution board2 board2SolvedAgain.nonogram.grid := by
  refine ⟨by decide, by decide, by decide, by decide⟩

/-! ## Empty lines -/

/-- C6, counterexample. With the column clue `[]` in place of `[0]`, the
1x1 board with row clue `[0]` is reported unsolvable, while with `[0]` it
is solved with its only cell empty: the two outcomes differ. -/
theorem empty_clue_differs :
    (NonogramSolver.new (Nonogram.ofClues [[0]] [[]])).solve
      = .ok (.thrown NonogramSolver.unsolvableMsg
          (NonogramSolver.new (Nonogram.ofClues [[0]] [[]]))) ∧
    (NonogramSolver.new (Nonogram.ofClues [[0]] [[0]])).solve
      = .ok (.returned (NonogramSolver.new (Nonogram.ofClues [[0]] [[0]]))) := by
  refine ⟨by decide, by decide⟩

theorem all_false_of_runsAux_nil (l : List Bool) (h : runsAux 0 l = []) : ∀ b ∈ l, b = false := by
  induction l with
  | nil => intro b hb; cases hb
  | cons v xs ih =>
    cases v with
    | true =>
      simp only [runsAux] at h
      exact absurd h (runsAux_succ_ne_nil 0 xs)
    | false =>
      simp only [runsAux, if_true] at h
      intro b hb
      rcases List.mem_cons.1 hb with h1 | h1
      · exact h1
      · exact ih h b h1

theorem all_false_of_lineMatches_zero (l : List Bool) (h : LineMatches l [0]) :
    ∀ b ∈ l, b = false := by
  apply all_false_of_runsAux_nil
  unfold LineMatches clueRuns runs at h
  simpa using h

/-- C6, amended. The clue sequence `[0]` means an empty line: on a
well-formed board (every clue sequence is `[0]` or a non-empty list of
positive numbers) with an all-false grid, when `solve` on a fresh solver
returns normally, every cell of each row and of each column whose clue
sequence is `[0]` is `false`. -/
theorem empty_line_is_zero_clue (n : Nonogram) (hf : n.Fresh) (hw : n.WellFormed)
    (s' : NonogramSolver) (hret : (NonogramSolver.new n).solve = .ok (.returned s')) :
    (∀ r, r < n.rowNums.length → n.rowNums.getD r [] = [0] →
      ∀ c, cell s'.nonogram.grid r c = false) ∧
    (∀ c, c < n.colNums.length → n.colNums.getD c [] = [0] →
      ∀ r, cell s'.nonogram.grid r c = false) := by
  have hsol := isSolution_of_returned n hf hw s' hret
  obtain ⟨hlen, hrows, hR, hC⟩ := hsol
  constructor
  · intro r hr hz c
    have h0 := hR r hr
    rw [hz] at h0
    have hall := all_false_of_lineMatches_zero _ h0
    unfold cell
    by_cases hc : c < (s'.nonogram.grid.getD r []).length
    · exact hall _ (getD_mem_or_default _ c false hc)
    · exact List.getD_eq_default _ _ (by omega)
  · intro c hc hz r
    have h0 := hC c hc
    rw [hz] at h0
    have hall := all_false_of_lineMatches_zero _ h0
    by_cases hr : r < s'.nonogram.grid.length
    · apply hall
      unfold column cell
      rw [List.mem_map]
      exact ⟨_, getD_mem_or_default _ r [] hr, rfl⟩
    · unfold cell
      rw [List.getD_eq_default s'.nonogram.grid [] (by omega)]
      rfl

set_option maxRecDepth 100000

/-- The run of `solve` on scenario 1. -/
theorem solve_board1 : (NonogramSolver.new board1).solve = .ok (.returned board1Solved) := by
  decide

/-- Witness of the amended C6: scenario 1, whose columns 0 and 4 have the
clue `[0]`. -/
theorem empty_line_is_zero_clue_witness :
    board1.Fresh ∧ board1.WellFormed ∧
    (NonogramSolver.new board1).solve = .ok (.returned board1Solved) ∧
    board1.colNums.getD 0 [] = [0] ∧ board1.colNums.getD 4 [] = [0] ∧
    (∀ r, cell board1Solved.nonogram.grid r 0 = false) ∧
    (∀ r, cell board1Solved.nonogram.grid r 4 = false) :=
  ⟨fresh_ofClues _ _ (by decide) (by decide), by decide, solve_board1, by decide, by decide,
    (empty_line_is_zero_clue board1 (fresh_ofClues _ _ (by decide) (by decide)) (by decide)
      board1Solved solve_board1).2 0 (by decide) (by decide),
    (empty_line_is_zero_clue board1 (fresh_ofClues _ _ (by decide) (by decide)) (by decide)
      board1Solved solve_board1).2 4 (by decide) (by decide)⟩

/-! ## The scenarios -/

theorem list_length_five {α : Type} (l : List α) (h : l.length = 5) :
    ∃ a b c d e, l = [a, b, c, d, e] := by
  match l, h with
  | [a, b, c, d, e], _ => exact ⟨a, b, c, d, e, rfl⟩

theorem line_five_full : ∀ a b c d e : Bool,
    LineMatches [a, b, c, d, e] [5] → a = true ∧ b = true ∧ c = true ∧ d = true ∧ e = true := by
  decide

theorem line_five_empty : ∀ a b c d e : Bool,
    LineMatches [a, b, c, d, e] [0] →
      a = false ∧ b = false ∧ c = false ∧ d = false ∧ e = false := by
  decide

theorem line_five_three : ∀ b c : Bool,
    LineMatches [false, b, c, true, false] [3] → b = true ∧ c = true := by
  decide

theorem line_five_one : ∀ b c : Bool,
    LineMatches [false, b, c, true, false] [1] → b = false ∧ c = false := by
  decide

theorem board1_unique (g : List (List Bool)) (hg : IsSolution board1 g) : g = grid1 := by
  obtain ⟨hlen, hrows, hR, hC⟩ := hg
  obtain ⟨r0, r1, r2, r3, r4, rfl⟩ := list_length_five g hlen
  obtain ⟨a0, b0, c0, d0, e0, rfl⟩ := list_length_five r0 (hrows _ (by simp))
  obtain ⟨a1, b1, c1, d1, e1, rfl⟩ := list_length_five r1 (hrows _ (by simp))
  obtain ⟨a2, b2, c2, d2, e2, rfl⟩ := list_length_five r2 (hrows _ (by simp))
  obtain ⟨a3, b3, c3, d3, e3, rfl⟩ := list_length_five r3 (hrows _ (by simp))
  obtain ⟨a4, b4, c4, d4, e4, rfl⟩ := list_length_five r4 (hrows _ (by simp))
  obtain ⟨ha0, ha1, ha2, ha3, ha4⟩ := line_five_empty a0 a1 a2 a3 a4 (hC 0 (by decide))
  obtain ⟨hd0, hd1, hd2, hd3, hd4⟩ := line_five_full d0 d1 d2 d3 d4 (hC 3 (by decide))
  obtain ⟨he0, he1, he2, he3, he4⟩ := line_five_empty e0 e1 e2 e3 e4 (hC 4 (by decide))
  subst ha0 ha1 ha2 ha3 ha4 hd0 hd1 hd2 hd3 hd4 he0 he1 he2 he3 he4
  obtain ⟨hb0, hc0⟩ := line_five_three b0 c0 (hR 0 (by decide))
  obtain ⟨hb1, hc1⟩ := line_five_one b1 c1 (hR 1 (by decide))
  obtain ⟨hb2, hc2⟩ := line_five_three b2 c2 (hR 2 (by decide))
  obtain ⟨hb3, hc3⟩ := line_five_one b3 c3 (hR 3 (by decide))
  obtain ⟨hb4, hc4⟩ := line_five_one b4 c4 (hR 4 (by decide))
  subst hb0 hc0 hb1 hc1 hb2 hc2 hb3 hc3 hb4 hc4
  rfl

/-- C7. Scenario 1: on the 5x5 board of the board string
`3/1/3/1/1|0/1 1/1 1/5/0`, `solve` on a fresh solver returns normally with
rows 0 and 2 equal to `[false, true, true, true, false]` and rows 1, 3 and 4
equal to `[false, false, false, true, false]`, and that grid is the only
solution of the board. -/
theorem scenario1_solved :
    (NonogramSolver.new board1).solve = .ok (.returned board1Solved) ∧
    board1Solved.nonogram.grid =
      [[false, true, true, true, false], [false, false, false, true, false],
       [false, true, true, true, false], [false, false, false, true, false],
       [false, false, false, true, false]] ∧
    IsSolution board1 board1Solved.nonogram.grid ∧
    ∀ g, IsSolution board1 g → g = board1Solved.nonogram.grid := by
  refine ⟨solve_board1, rfl, by decide, board1_unique⟩

/-- C8. Scenario 4: on the 1x2 board with row clue `[2]` and column clues
`[[1],[0]]`, the call `backtrack(0, -1)` that `solve` makes on a fresh solver
returns `false` and `solve` throws the unsolvable error. -/
theorem scenario4_unsolvable :
    NonogramSolver.backtrack (NonogramSolver.new board4).solveFuel
        (NonogramSolver.new board4) 0 (-1) = .ok (false, NonogramSolver.new board4) ∧
    (NonogramSolver.new board4).solve
      = .ok (.thrown NonogramSolver.unsolvableMsg (NonogramSolver.new board4)) ∧
    NonogramSolver.unsolvableMsg = "Unsolvable Board!" := by
  refine ⟨by decide, by decide, rfl⟩

/-- C9. Scenario 3: on the 2x2 board with row clues `[[1],[1]]` and column
clues `[[2],[0]]`, `solve` on a fresh solver returns normally and leaves the
grid `[[true, false], [true, false]]`. -/
theorem scenario3_solved :
    ∃ s', (NonogramSolver.new board3).solve = .ok (.returned s') ∧
      s'.nonogram.grid = [[true, false], [true, false]] :=
  ⟨{ nonogram := { board3 with grid := [[true, false], [true, false]] }
     rowNumIdxs := [0, 0]
     colNumIdxs := [0, 0]
     rowNumPlaced := [1, 1]
     colNumPlaced := [2, 0] }, by decide, rfl⟩

/-! ## The board string -/

theorem digitChar_isDigit (d : Nat) (h : d < 10) : (Nat.digitChar d).isDigit = true := by
  interval_cases d <;> decide

theorem digitChar_toNat (d : Nat) (h : d < 10) : (Nat.digitChar d).toNat - 48 = d := by
  interval_cases d <;> decide

theorem isDigit_ne_bar {ch : Char} (h : ch.isDigit = true) : ch ≠ '|' := by
  rintro rfl
  exact absurd h (by decide)

theorem isDigit_ne_slash {ch : Char} (h : ch.isDigit = true) : ch ≠ '/' := by
  rintro rfl
  exact absurd h (by decide)

theorem isDigit_ne_space {ch : Char} (h : ch.isDigit = true) : ch ≠ ' ' := by
  rintro rfl
  exact absurd h (by decide)

theorem digitsValue_snoc (ds : List Char) (d : Char) :
    digitsValue (ds ++ [d]) = 10 * digitsValue ds + (d.toNat - 48) := by
  simp [digitsValue, List.foldl_append]

theorem toDigitsCore_spec : ∀ (fuel n : Nat) (acc : List Char), n < fuel →
    ∃ ds, Nat.toDigitsCore 10 fuel n acc = ds ++ acc ∧ ds ≠ [] ∧
      (∀ ch ∈ ds, ch.isDigit = true) ∧ digitsValue ds = n := by
  intro fuel
  induction fuel with
  | zero => intro n acc h; omega
  | succ fuel ih =>
    intro n acc h
    have hm : n % 10 < 10 := Nat.mod_lt _ (by decide)
    by_cases hn : n / 10 = 0
    · refine ⟨[Nat.digitChar (n % 10)], ?_, by simp, ?_, ?_⟩
      · simp [Nat.toDigitsCore, hn]
      · intro ch hch
        simp at hch
        subst hch
        exact digitChar_isDigit _ hm
      · have := digitsValue_snoc [] (Nat.digitChar (n % 10))
        simp only [List.nil_append] at this
        rw [this, digitChar_toNat _ hm]
        simp only [digitsValue, List.foldl_nil]
        omega
    · have hlt : n / 10 < fuel := by omega
      obtain ⟨ds, h1, _, h3, h4⟩ := ih (n / 10) (Nat.digitChar (n % 10) :: acc) hlt
      refine ⟨ds ++ [Nat.digitChar (n % 10)], ?_, by simp, ?_, ?_⟩
      · simp [Nat.toDigitsCore, hn, h1]
      · intro ch hch
        rcases List.mem_append.1 hch with hch | hch
        · exact h3 ch hch
        · simp at hch
          subst hch
          exact digitChar_isDigit _ hm
      · rw [digitsValue_snoc, h4, digitChar_toNat _ hm]
        omega

theorem decimal_spec (n : Nat) :
    decimal n ≠ [] ∧ (∀ ch ∈ decimal n, ch.isDigit = true) ∧ digitsValue (decimal n) = n := by
  obtain ⟨ds, h1, h2, h3, h4⟩ := toDigitsCore_spec (n + 1) n [] (Nat.lt_succ_self n)
  have : decimal n = ds := by simpa [decimal, Nat.toDigits] using h1
  rw [this]
  exact ⟨h2, h3, h4⟩

theorem stoi_decimal (n : Nat) (h : n < 2 ^ 31) : stoi (decimal n) = .ok (n : Int) := by
  obtain ⟨h1, _, h3⟩ := decimal_spec n
  rw [stoi, if_neg h1, h3, if_pos h]

theorem charAt_append (pre rest : List Char) :
    charAt (pre ++ rest) pre.length = rest.headD (Char.ofNat 0) := by
  cases rest with
  | nil => simp [charAt]
  | cons x rest =>
    have h : (pre ++ x :: rest)[pre.length]? = some x := by
      rw [List.getElem?_append_right (le_refl _)]
      simp
    simp [charAt, List.getD_eq_getElem?_getD, h, -List.getElem?_eq_getElem]

theorem readDigits_spec (s rest : List Char)
    (hrest : (rest.headD (Char.ofNat 0)).isDigit = false) :
    ∀ (ds pre acc : List Char) (fuel : Nat), s = pre ++ (ds ++ rest) →
      (∀ ch ∈ ds, ch.isDigit = true) → ds.length < fuel →
      readDigits s fuel pre.length acc = .ok (acc ++ ds, pre.length + ds.length) := by
  intro ds
  induction ds with
  | nil =>
    intro pre acc fuel hs _ hf
    obtain ⟨fuel, rfl⟩ : ∃ k, fuel = k + 1 := ⟨fuel - 1, by simp at hf; omega⟩
    have hc : charAt s pre.length = rest.headD (Char.ofNat 0) := by
      rw [hs]; exact charAt_append pre _
    rw [readDigits, hc, hrest]
    simp
  | cons d ds ih =>
    intro pre acc fuel hs hd hf
    obtain ⟨fuel, rfl⟩ : ∃ k, fuel = k + 1 := ⟨fuel - 1, by simp at hf; omega⟩
    have hc : charAt s pre.length = d := by
      rw [hs]; exact charAt_append pre _
    have hs2 : s = (pre ++ [d]) ++ (ds ++ rest) := by simp [hs]
    have := ih (pre ++ [d]) (acc ++ [d]) fuel hs2 (fun ch h => hd ch (List.mem_cons_of_mem _ h))
      (by simp at hf; omega)
    simp only [List.length_append, List.length_singleton] at this
    rw [readDigits, hc, if_pos (hd d (List.mem_cons_self _ _)), this]
    simp [Nat.add_assoc, Nat.add_comm 1]

theorem readDigitsBounded_spec (s rest : List Char)
    (hrest : (rest.headD (Char.ofNat 0)).isDigit = false) :
    ∀ (ds pre acc : List Char) (fuel : Nat), s = pre ++ (ds ++ rest) →
      (∀ ch ∈ ds, ch.isDigit = true) → ds.length < fuel →
      readDigitsBounded s fuel pre.length acc = .ok (acc ++ ds, pre.length + ds.length) := by
  intro ds
  induction ds with
  | nil =>
    intro pre acc fuel hs _ hf
    obtain ⟨fuel, rfl⟩ : ∃ k, fuel = k + 1 := ⟨fuel - 1, by simp at hf; omega⟩
    have hc : charAt s pre.length = rest.headD (Char.ofNat 0) := by
      rw [hs]; exact charAt_append pre _
    rw [readDigitsBounded, hc, hrest]
    simp
  | cons d ds ih =>
    intro pre acc fuel hs hd hf
    obtain ⟨fuel, rfl⟩ : ∃ k, fuel = k + 1 := ⟨fuel - 1, by simp at hf; omega⟩
    have hc : charAt s pre.length = d := by
      rw [hs]; exact charAt_append pre _
    have hlen : pre.length < s.length := by simp [hs]
    have hs2 : s = (pre ++ [d]) ++ (ds ++ rest) := by simp [hs]
    have := ih (pre ++ [d]) (acc ++ [d]) fuel hs2 (fun ch h => hd ch (List.mem_cons_of_mem _ h))
      (by simp at hf; omega)
    simp only [List.length_append, List.length_singleton] at this
    rw [readDigitsBounded, hc, hd d (List.mem_cons_self _ _)]
    simp only [hlen, decide_True, Bool.and_self, if_true]
    rw [this]
    simp [Nat.add_assoc, Nat.add_comm 1]

theorem readRowNums_space (s : List Char) (fuel i : Nat) (curr : List Int)
    (acc : List (List Int)) (h : charAt s i = ' ') :
    readRowNums s (fuel + 1) i curr acc = readRowNums s fuel (i + 1) curr acc := by
  rw [readRowNums, h]
  simp

theorem readRowNums_slash (s : List Char) (fuel i : Nat) (curr : List Int)
    (acc : List (List Int)) (h : charAt s i = '/') :
    readRowNums s (fuel + 1) i curr acc = readRowNums s fuel (i + 1) [] (acc ++ [curr]) := by
  rw [readRowNums, h]
  simp

theorem readRowNums_bar (s : List Char) (fuel i : Nat) (curr : List Int)
    (acc : List (List Int)) (h : charAt s i = '|') :
    readRowNums s (fuel + 1) i curr acc = .ok (acc ++ [curr], i) := by
  rw [readRowNums, h]
  simp

theorem readRowNums_number (s pre rest : List Char) (n fuel : Nat) (curr : List Int)
    (acc : List (List Int)) (hs : s = pre ++ (decimal n ++ rest))
    (hrest : (rest.headD (Char.ofNat 0)).isDigit = false) (hn : n < 2 ^ 31) :
    readRowNums s (fuel + 1) pre.length curr acc =
      readRowNums s fuel (pre.length + (decimal n).length) (curr ++ [(n : Int)]) acc := by
  obtain ⟨h1, h2, _⟩ := decimal_spec n
  obtain ⟨d, ds, hd⟩ := List.exists_cons_of_ne_nil h1
  have hdig : d.isDigit = true := h2 d (by rw [hd]; exact List.mem_cons_self _ _)
  have hc : charAt s pre.length = d := by
    rw [hs, hd]; exact charAt_append pre _
  have hlen : (decimal n).length < s.length + 1 := by
    rw [hs]; simp; omega
  have hread := readDigits_spec s rest hrest (decimal n) pre [] (s.length + 1) hs h2 hlen
  rw [readRowNums, hc, if_neg (isDigit_ne_bar hdig), if_neg (isDigit_ne_slash hdig),
    if_neg (isDigit_ne_space hdig), hread]
  simp [stoi_decimal n hn, bind, Except.bind]

theorem readColNums_space (s : List Char) (fuel i : Nat) (curr : List Int)
    (acc : List (List Int)) (hi : i < s.length) (h : charAt s i = ' ') :
    readColNums s (fuel + 1) i curr acc = readColNums s fuel (i + 1) curr acc := by
  rw [readColNums, h]
  simp [hi]

theorem readColNums_slash (s : List Char) (fuel i : Nat) (curr : List Int)
    (acc : List (List Int)) (hi : i < s.length) (h : charAt s i = '/') :
    readColNums s (fuel + 1) i curr acc = readColNums s fuel (i + 1) [] (acc ++ [curr]) := by
  rw [readColNums, h]
  simp [hi]

theorem readColNums_end (s : List Char) (fuel i : Nat) (curr : List Int)
    (acc : List (List Int)) (hi : ¬ i < s.length) :
    readColNums s (fuel + 1) i curr acc = .ok (acc ++ [curr]) := by
  rw [readColNums]
  simp [hi]

theorem readColNums_number (s pre rest : List Char) (n fuel : Nat) (curr : List Int)
    (acc : List (List Int)) (hs : s = pre ++ (decimal n ++ rest))
    (hrest : (rest.headD (Char.ofNat 0)).isDigit = false) (hn : n < 2 ^ 31) :
    readColNums s (fuel + 1) pre.length curr acc =
      readColNums s fuel (pre.length + (decimal n).length) (curr ++ [(n : Int)]) acc := by
  obtain ⟨h1, h2, _⟩ := decimal_spec n
  obtain ⟨d, ds, hd⟩ := List.exists_cons_of_ne_nil h1
  have hdig : d.isDigit = true := h2 d (by rw [hd]; exact List.mem_cons_self _ _)
  have hc : charAt s pre.length = d := by
    rw [hs, hd]; exact charAt_append pre _
  have hlen : (decimal n).length < s.length + 1 := by
    rw [hs]; simp; omega
  have hpre : pre.length < s.length := by
    rw [hs, hd]; simp
  have hread := readDigitsBounded_spec s rest hrest (decimal n) pre [] (s.length + 1) hs h2 hlen
  rw [readColNums, if_pos hpre, hc, if_neg (isDigit_ne_slash hdig),
    if_neg (isDigit_ne_space hdig), hread]
  simp [stoi_decimal n hn, bind, Except.bind]

theorem decimal_length_pos (n : Nat) : 0 < (decimal n).length :=
  List.length_pos.2 (decimal_spec n).1

theorem readRowNums_line (s rest : List Char)
    (hrest : (rest.headD (Char.ofNat 0)).isDigit = false) :
    ∀ (l : List Nat), l ≠ [] → (∀ x ∈ l, x < 2 ^ 31) →
      ∀ (pre : List Char) (curr : List Int) (acc : List (List Int)) (fuel : Nat),
      s = pre ++ (encodeLine l ++ rest) → (encodeLine l).length ≤ fuel →
      ∃ fuel', fuel ≤ fuel' + (encodeLine l).length ∧
        readRowNums s fuel pre.length curr acc =
          readRowNums s fuel' (pre.length + (encodeLine l).length)
            (curr ++ l.map Int.ofNat) acc := by
  intro l
  induction l with
  | nil => intro h; exact absurd rfl h
  | cons n tl ih =>
    intro _ hlt pre curr acc fuel hs hf
    have hn : n < 2 ^ 31 := hlt n (List.mem_cons_self _ _)
    have hpos := decimal_length_pos n
    cases tl with
    | nil =>
      simp only [encodeLine] at hs hf ⊢
      obtain ⟨k, rfl⟩ : ∃ k, fuel = k + 1 := ⟨fuel - 1, by omega⟩
      refine ⟨k, by omega, ?_⟩
      rw [readRowNums_number s pre rest n k curr acc hs hrest hn]
      simp
    | cons m tl =>
      simp only [encodeLine, List.length_append, List.length_cons] at hs hf ⊢
      obtain ⟨k, rfl⟩ : ∃ k, fuel = k + 2 := ⟨fuel - 2, by omega⟩
      have hs1 : s = pre ++ (decimal n ++ (' ' :: (encodeLine (m :: tl) ++ rest))) := by
        simp [hs]
      have hs2 : s = (pre ++ decimal n) ++ (' ' :: (encodeLine (m :: tl) ++ rest)) := by
        simp [hs]
      have hs3 : s = (pre ++ (decimal n ++ [' '])) ++ (encodeLine (m :: tl) ++ rest) := by
        simp [hs]
      have hsp : charAt s (pre.length + (decimal n).length) = ' ' := by
        have := charAt_append (pre ++ decimal n) (' ' :: (encodeLine (m :: tl) ++ rest))
        rw [← hs2, List.length_append] at this
        simpa using this
      obtain ⟨fuel', h1, h2⟩ := ih (by simp) (fun x hx => hlt x (List.mem_cons_of_mem _ hx))
        (pre ++ (decimal n ++ [' '])) (curr ++ [(n : Int)]) acc k hs3 (by omega)
      refine ⟨fuel', by omega, ?_⟩
      rw [readRowNums_number s pre (' ' :: (encodeLine (m :: tl) ++ rest)) n (k + 1) curr acc hs1 (show (' ' : Char).isDigit = false by decide) hn,
        readRowNums_space s k _ _ acc hsp]
      simp only [List.length_append, List.length_singleton] at h2
      rw [show pre.length + (decimal n).length + 1 = pre.length + ((decimal n).length + 1) by omega,
        h2]
      simp [Nat.add_assoc, Nat.add_comm, Nat.add_left_comm]

theorem readColNums_line (s rest : List Char)
    (hrest : (rest.headD (Char.ofNat 0)).isDigit = false) :
    ∀ (l : List Nat), l ≠ [] → (∀ x ∈ l, x < 2 ^ 31) →
      ∀ (pre : List Char) (curr : List Int) (acc : List (List Int)) (fuel : Nat),
      s = pre ++ (encodeLine l ++ rest) → (encodeLine l).length ≤ fuel →
      ∃ fuel', fuel ≤ fuel' + (encodeLine l).length ∧
        readColNums s fuel pre.length curr acc =
          readColNums s fuel' (pre.length + (encodeLine l).length)
            (curr ++ l.map Int.ofNat) acc := by
  intro l
  induction l with
  | nil => intro h; exact absurd rfl h
  | cons n tl ih =>
    intro _ hlt pre curr acc fuel hs hf
    have hn : n < 2 ^ 31 := hlt n (List.mem_cons_self _ _)
    have hpos := decimal_length_pos n
    cases tl with
    | nil =>
      simp only [encodeLine] at hs hf ⊢
      obtain ⟨k, rfl⟩ : ∃ k, fuel = k + 1 := ⟨fuel - 1, by omega⟩
      refine ⟨k, by omega, ?_⟩
      rw [readColNums_number s pre rest n k curr acc hs hrest hn]
      simp
    | cons m tl =>
      simp only [encodeLine, List.length_append, List.length_cons] at hs hf ⊢
      obtain ⟨k, rfl⟩ : ∃ k, fuel = k + 2 := ⟨fuel - 2, by omega⟩
      have hs1 : s = pre ++ (decimal n ++ (' ' :: (encodeLine (m :: tl) ++ rest))) := by
        simp [hs]
      have hs2 : s = (pre ++ decimal n) ++ (' ' :: (encodeLine (m :: tl) ++ rest)) := by
        simp [hs]
      have hs3 : s = (pre ++ (decimal n ++ [' '])) ++ (encodeLine (m :: tl) ++ rest) := by
        simp [hs]
      have hsp : charAt s (pre.length + (decimal n).length) = ' ' := by
        have := charAt_append (pre ++ decimal n) (' ' :: (encodeLine (m :: tl) ++ rest))
        rw [← hs2, List.length_append] at this
        simpa using this
      have hin : pre.length + (decimal n).length < s.length := by
        rw [hs2]; simp
      obtain ⟨fuel', h1, h2⟩ := ih (by simp) (fun x hx => hlt x (List.mem_cons_of_mem _ hx))
        (pre ++ (decimal n ++ [' '])) (curr ++ [(n : Int)]) acc k hs3 (by omega)
      refine ⟨fuel', by omega, ?_⟩
      rw [readColNums_number s pre (' ' :: (encodeLine (m :: tl) ++ rest)) n (k + 1) curr acc hs1 (show (' ' : Char).isDigit = false by decide) hn,
        readColNums_space s k _ _ acc hin hsp]
      simp only [List.length_append, List.length_singleton] at h2
      rw [show pre.length + (decimal n).length + 1 = pre.length + ((decimal n).length + 1) by omega,
        h2]
      simp [Nat.add_assoc, Nat.add_comm, Nat.add_left_comm]

theorem readRowNums_lines (s rest : List Char) :
    ∀ (L : List (List Nat)), L ≠ [] → (∀ l ∈ L, l ≠ []) → (∀ l ∈ L, ∀ x ∈ l, x < 2 ^ 31) →
      ∀ (pre : List Char) (acc : List (List Int)) (fuel : Nat),
      s = pre ++ (encodeLines L ++ '|' :: rest) → (encodeLines L).length < fuel →
      readRowNums s fuel pre.length [] acc =
        .ok (acc ++ L.map (fun l => l.map Int.ofNat), pre.length + (encodeLines L).length) := by
  intro L
  induction L with
  | nil => intro h; exact absurd rfl h
  | cons l tl ih =>
    intro _ hne hlt pre acc fuel hs hf
    have hl : l ≠ [] := hne l (List.mem_cons_self _ _)
    have hll : ∀ x ∈ l, x < 2 ^ 31 := hlt l (List.mem_cons_self _ _)
    cases tl with
    | nil =>
      simp only [encodeLines] at hs hf ⊢
      obtain ⟨fuel', h1, h2⟩ := readRowNums_line s ('|' :: rest) (show ('|' : Char).isDigit = false by decide) l hl hll pre [] acc
        fuel hs (by omega)
      obtain ⟨k, rfl⟩ : ∃ k, fuel' = k + 1 := ⟨fuel' - 1, by omega⟩
      have hbar : charAt s (pre.length + (encodeLine l).length) = '|' := by
        have hs2 : s = (pre ++ encodeLine l) ++ ('|' :: rest) := by simp [hs]
        have := charAt_append (pre ++ encodeLine l) ('|' :: rest)
        rw [← hs2, List.length_append] at this
        simpa using this
      rw [h2, readRowNums_bar s k _ _ acc hbar]
      simp
    | cons l' tl =>
      simp only [encodeLines, List.length_append, List.length_cons] at hs hf ⊢
      have hs1 : s = pre ++ (encodeLine l ++ ('/' :: (encodeLines (l' :: tl) ++ '|' :: rest))) := by
        simp [hs]
      have hs2 : s = (pre ++ encodeLine l) ++ ('/' :: (encodeLines (l' :: tl) ++ '|' :: rest)) := by
        simp [hs]
      have hs3 : s = (pre ++ (encodeLine l ++ ['/'])) ++ (encodeLines (l' :: tl) ++ '|' :: rest) := by
        simp [hs]
      obtain ⟨fuel', h1, h2⟩ := readRowNums_line s ('/' :: (encodeLines (l' :: tl) ++ '|' :: rest))
        (show ('/' : Char).isDigit = false by decide) l hl hll pre [] acc
        fuel hs1 (by omega)
      obtain ⟨k, rfl⟩ : ∃ k, fuel' = k + 1 := ⟨fuel' - 1, by omega⟩
      have hsl : charAt s (pre.length + (encodeLine l).length) = '/' := by
        have := charAt_append (pre ++ encodeLine l) ('/' :: (encodeLines (l' :: tl) ++ '|' :: rest))
        rw [← hs2, List.length_append] at this
        simpa using this
      have h3 := ih (by simp) (fun x hx => hne x (List.mem_cons_of_mem _ hx))
        (fun x hx => hlt x (List.mem_cons_of_mem _ hx))
        (pre ++ (encodeLine l ++ ['/'])) (acc ++ [l.map Int.ofNat]) k hs3 (by omega)
      simp only [List.length_append, List.length_singleton] at h3
      rw [h2, readRowNums_slash s k _ _ acc hsl,
        show pre.length + (encodeLine l).length + 1 = pre.length + ((encodeLine l).length + 1)
          by omega]
      simp only [List.nil_append]
      rw [h3]
      simp [Nat.add_assoc, Nat.add_comm, Nat.add_left_comm]

theorem readColNums_lines (s : List Char) :
    ∀ (L : List (List Nat)), L ≠ [] → (∀ l ∈ L, l ≠ []) → (∀ l ∈ L, ∀ x ∈ l, x < 2 ^ 31) →
      ∀ (pre : List Char) (acc : List (List Int)) (fuel : Nat),
      s = pre ++ encodeLines L → (encodeLines L).length < fuel →
      readColNums s fuel pre.length [] acc = .ok (acc ++ L.map (fun l => l.map Int.ofNat)) := by
  intro L
  induction L with
  | nil => intro h; exact absurd rfl h
  | cons l tl ih =>
    intro _ hne hlt pre acc fuel hs hf
    have hl : l ≠ [] := hne l (List.mem_cons_self _ _)
    have hll : ∀ x ∈ l, x < 2 ^ 31 := hlt l (List.mem_cons_self _ _)
    cases tl with
    | nil =>
      simp only [encodeLines] at hs hf ⊢
      obtain ⟨fuel', h1, h2⟩ := readColNums_line s [] (by decide) l hl hll pre [] acc
        fuel (by simpa using hs) (by omega)
      obtain ⟨k, rfl⟩ : ∃ k, fuel' = k + 1 := ⟨fuel' - 1, by omega⟩
      have hend : ¬ pre.length + (encodeLine l).length < s.length := by
        rw [hs]; simp
      rw [h2, readColNums_end s k _ _ acc hend]
      simp
    | cons l' tl =>
      simp only [encodeLines, List.length_append, List.length_cons] at hs hf ⊢
      have hs1 : s = pre ++ (encodeLine l ++ ('/' :: encodeLines (l' :: tl))) := by
        simp [hs]
      have hs2 : s = (pre ++ encodeLine l) ++ ('/' :: encodeLines (l' :: tl)) := by
        simp [hs]
      have hs3 : s = (pre ++ (encodeLine l ++ ['/'])) ++ encodeLines (l' :: tl) := by
        simp [hs]
      obtain ⟨fuel', h1, h2⟩ := readColNums_line s ('/' :: encodeLines (l' :: tl))
        (show ('/' : Char).isDigit = false by decide) l hl hll pre [] acc
        fuel hs1 (by omega)
      obtain ⟨k, rfl⟩ : ∃ k, fuel' = k + 1 := ⟨fuel' - 1, by omega⟩
      have hsl : charAt s (pre.length + (encodeLine l).length) = '/' := by
        have := charAt_append (pre ++ encodeLine l) ('/' :: encodeLines (l' :: tl))
        rw [← hs2, List.length_append] at this
        simpa using this
      have hin : pre.length + (encodeLine l).length < s.length := by
        rw [hs2]; simp
      have h3 := ih (by simp) (fun x hx => hne x (List.mem_cons_of_mem _ hx))
        (fun x hx => hlt x (List.mem_cons_of_mem _ hx))
        (pre ++ (encodeLine l ++ ['/'])) (acc ++ [l.map Int.ofNat]) k hs3 (by omega)
      simp only [List.length_append, List.length_singleton] at h3
      rw [h2, readColNums_slash s k _ _ acc hin hsl,
        show pre.length + (encodeLine l).length + 1 = pre.length + ((encodeLine l).length + 1)
          by omega]
      simp only [List.nil_append]
      rw [h3]
      simp [Nat.add_assoc, Nat.add_comm, Nat.add_left_comm]

theorem ofString_encodeBoard (R C : List (List Nat)) (hR : R ≠ []) (hC : C ≠ [])
    (hRne : ∀ l ∈ R, l ≠ []) (hCne : ∀ l ∈ C, l ≠ [])
    (hRlt : ∀ l ∈ R, ∀ x ∈ l, x < 2 ^ 31) (hClt : ∀ l ∈ C, ∀ x ∈ l, x < 2 ^ 31) :
    Nonogram.ofString (encodeBoard R C) =
      .ok (Nonogram.ofClues (R.map (fun l => l.map Int.ofNat))
        (C.map (fun l => l.map Int.ofNat))) := by
  have hrow := readRowNums_lines (encodeBoard R C) (encodeLines C) R hR hRne hRlt [] []
    ((encodeBoard R C).length + 1) (by simp [encodeBoard]) (by simp [encodeBoard]; omega)
  have hcol := readColNums_lines (encodeBoard R C) C hC hCne hClt (encodeLines R ++ ['|']) []
    ((encodeBoard R C).length + 1) (by simp [encodeBoard]) (by simp [encodeBoard]; omega)
  simp only [List.length_nil, Nat.zero_add, List.nil_append, List.length_append,
    List.length_singleton] at hrow hcol
  rw [Nonogram.ofString, hrow]
  simp only [bind, Except.bind]
  rw [hcol]
  rfl

/-- C10 (board-string parsing round trip).  For non-empty lists `R` and `C`
of non-empty lists of natural numbers below `2^31`, the constructor applied to
the board string of `R` and `C` (numbers in decimal, a single space between
the numbers of a line, `'/'` between lines, `'|'` between the row part and the
column part) builds a board with `rowNums = R`, `colNums = C`,
`rows = length R`, `cols = length C` and a `rows x cols` grid of `false`. -/
theorem board_string_round_trip (R C : List (List Nat)) (hR : R ≠ []) (hC : C ≠ [])
    (hRne : ∀ l ∈ R, l ≠ []) (hCne : ∀ l ∈ C, l ≠ [])
    (hRlt : ∀ l ∈ R, ∀ x ∈ l, x < 2 ^ 31) (hClt : ∀ l ∈ C, ∀ x ∈ l, x < 2 ^ 31) :
    ∃ n, Nonogram.ofString (encodeBoard R C) = .ok n ∧
      n.rowNums = R.map (fun l => l.map Int.ofNat) ∧
      n.colNums = C.map (fun l => l.map Int.ofNat) ∧
      n.rows = (R.length : Int) ∧ n.cols = (C.length : Int) ∧
      n.grid = List.replicate R.length (List.replicate C.length false) :=
  ⟨_, ofString_encodeBoard R C hR hC hRne hCne hRlt hClt, rfl, rfl, by simp [Nonogram.ofClues],
    by simp [Nonogram.ofClues], by simp [Nonogram.ofClues]⟩

/-- The round trip on the board string `3/1/3/1/1|0/1 1/1 1/5/0` of
scenario 1. -/
theorem board_string_round_trip_witness :
    encodeBoard [[3], [1], [3], [1], [1]] [[0], [1, 1], [1, 1], [5], [0]] =
        "3/1/3/1/1|0/1 1/1 1/5/0".toList ∧
      ∃ n, Nonogram.ofString "3/1/3/1/1|0/1 1/1 1/5/0".toList = .ok n ∧
        n.rowNums = [[3], [1], [3], [1], [1]] ∧
        n.colNums = [[0], [1, 1], [1, 1], [5], [0]] ∧
        n.rows = 5 ∧ n.cols = 5 ∧
        n.grid = List.replicate 5 (List.replicate 5 false) :=
  ⟨by decide,
    board_string_round_trip [[3], [1], [3], [1], [1]] [[0], [1, 1], [1, 1], [5], [0]]
      (by decide) (by decide) (by decide) (by decide) (by decide) (by decide)⟩

/-! ## Rendering -/

theorem intercalate_cons_cons {α : Type} (sep x y : List α) (rest : List (List α)) :
    List.intercalate sep (x :: y :: rest) = x ++ sep ++ List.intercalate sep (y :: rest) := by
  simp [List.intercalate, List.intersperse]

theorem intercalate_singleton {α : Type} (sep x : List α) :
    List.intercalate sep [x] = x := by
  simp [List.intercalate, List.intersperse]

theorem popBack_snoc (res : List Char) (ch : Char) : popBack (res ++ [ch]) = .ok res := by
  simp [popBack]

theorem appendTiles_eq (row : List Bool) :
    ∀ res : List Char, row ≠ [] → appendTiles res row = res ++ renderRow row ++ [' '] := by
  induction row with
  | nil => intro res h; exact absurd rfl h
  | cons a row ih =>
    intro res _
    cases row with
    | nil => simp [appendTiles, renderRow, intercalate_singleton]
    | cons b row =>
      have := ih (res ++ [glyph a, ' ']) (by simp)
      unfold appendTiles at this ⊢
      rw [List.foldl_cons, this]
      simp only [renderRow, List.map_cons, intercalate_cons_cons]
      simp

/-- The rows written one after the other, each followed by a newline. -/
theorem foldlM_rows (g : List (List Bool)) :
    ∀ res : List Char, (∀ row ∈ g, row ≠ []) →
      g.foldlM (fun res row => do
        let res ← popBack (appendTiles res row)
        pure (res ++ ['\n'])) res
      = (.ok (res ++ (g.map fun row => renderRow row ++ ['\n']).flatten) : Except Fault (List Char)) := by
  induction g with
  | nil => intro res _; simp [pure, Except.pure]
  | cons row g ih =>
    intro res h
    rw [List.foldlM_cons, appendTiles_eq row res (h row (List.mem_cons_self _ _)), popBack_snoc]
    simp only [Except_ok_bind]
    rw [Except_pure_eq, Except_ok_bind, ih _ (fun r hr => h r (List.mem_cons_of_mem _ hr))]
    simp

theorem join_rows (g : List (List Bool)) (h : g ≠ []) :
    (g.map fun row => renderRow row ++ ['\n']).flatten = renderGrid g ++ ['\n'] := by
  induction g with
  | nil => exact absurd rfl h
  | cons row g ih =>
    cases g with
    | nil => simp [renderGrid, intercalate_singleton]
    | cons row' g =>
      have := ih (by simp)
      rw [List.map_cons, List.flatten_cons, this]
      simp only [renderGrid, List.map_cons, intercalate_cons_cons]
      simp

theorem toString_eq (n : Nonogram) (hrows : n.grid ≠ []) (hcols : ∀ row ∈ n.grid, row ≠ []) :
    n.toString = .ok (renderGrid n.grid) := by
  unfold Nonogram.toString
  rw [foldlM_rows n.grid [] hcols]
  simp only [Except_ok_bind, List.nil_append]
  rw [join_rows n.grid hrows, popBack_snoc]

theorem renderRow_getLast (row : List Bool) (h : row ≠ []) :
    ∃ sq, (renderRow row).getLast? = some (glyph sq) := by
  induction row with
  | nil => exact absurd rfl h
  | cons a row ih =>
    cases row with
    | nil => exact ⟨a, by simp [renderRow, intercalate_singleton]⟩
    | cons b row =>
      obtain ⟨sq, hsq⟩ := ih (by simp)
      refine ⟨sq, ?_⟩
      have hne : renderRow (b :: row) ≠ [] := by
        intro he; rw [he] at hsq; cases hsq
      simp only [renderRow, List.map_cons, intercalate_cons_cons] at hsq hne ⊢
      rw [List.getLast?_append_of_ne_nil _ hne]
      exact hsq

theorem renderGrid_getLast (g : List (List Bool)) (h : g ≠ []) (hcols : ∀ row ∈ g, row ≠ []) :
    ∃ sq, (renderGrid g).getLast? = some (glyph sq) := by
  induction g with
  | nil => exact absurd rfl h
  | cons row g ih =>
    cases g with
    | nil =>
      simp only [renderGrid, List.map_cons, List.map_nil, intercalate_singleton]
      exact renderRow_getLast row (hcols row (List.mem_cons_self _ _))
    | cons row' g =>
      obtain ⟨sq, hsq⟩ := ih (by simp) (fun r hr => hcols r (List.mem_cons_of_mem _ hr))
      refine ⟨sq, ?_⟩
      have hne : renderGrid (row' :: g) ≠ [] := by
        intro he; rw [he] at hsq; cases hsq
      simp only [renderGrid, List.map_cons, intercalate_cons_cons] at hsq hne ⊢
      rw [List.getLast?_append_of_ne_nil _ hne]
      exact hsq

/-- C11. Rendering format: on a board whose grid has at least one row and
whose rows have at least one cell, `toString` returns exactly the rows of the
grid joined by a single newline, each row being the glyphs of its cells
(`U+25A0` for `true`, `U+25A1` for `false`) joined by a single space; the
string ends with the glyph of a cell, so there is no trailing space and no
trailing newline.  The member is `const`: the embedding gives back the string
only and the board is the one passed in. -/
theorem toString_renders (n : Nonogram) (hrows : n.grid ≠ [])
    (hcols : ∀ row ∈ n.grid, row ≠ []) :
    n.toString = .ok (renderGrid n.grid) ∧
    (∃ sq, (renderGrid n.grid).getLast? = some (glyph sq)) ∧
    glyph true = Char.ofNat 0x25A0 ∧ glyph false = Char.ofNat 0x25A1 :=
  ⟨toString_eq n hrows hcols, renderGrid_getLast n.grid hrows hcols, rfl, rfl⟩

/-- Witness of C11: the solved board of scenario 3. -/
theorem toString_renders_witness :
    ({ board3 with grid := [[true, false], [true, false]] } : Nonogram).toString
      = .ok [Char.ofNat 0x25A0, ' ', Char.ofNat 0x25A1, '\n',
             Char.ofNat 0x25A0, ' ', Char.ofNat 0x25A1] :=
  (toString_renders { board3 with grid := [[true, false], [true, false]] }
    (by decide) (by decide)).1

/-! ## Clearing the grid -/

/-- C12. `clearGrid` resets only the grid: on a board whose dimensions are
not negative (they are sizes of the clue vectors), whatever the grid holds,
after `clearGrid` the grid has exactly `rows` rows of exactly `cols` cells,
every cell is `false`, and `rowNums`, `colNums`, `rows` and `cols` are
unchanged. -/
theorem clearGrid_resets (n : Nonogram) (hr : 0 ≤ n.rows) (hc : 0 ≤ n.cols) :
    (n.clearGrid.grid.length : Int) = n.rows ∧
    (∀ row ∈ n.clearGrid.grid, (row.length : Int) = n.cols ∧ ∀ b ∈ row, b = false) ∧
    n.clearGrid.rowNums = n.rowNums ∧ n.clearGrid.colNums = n.colNums ∧
    n.clearGrid.rows = n.rows ∧ n.clearGrid.cols = n.cols := by
  refine ⟨?_, ?_, rfl, rfl, rfl, rfl⟩
  · simp only [Nonogram.clearGrid, List.length_replicate]
    exact Int.toNat_of_nonneg hr
  · intro row hrow
    simp only [Nonogram.clearGrid] at hrow
    have := List.eq_of_mem_replicate hrow
    subst this
    refine ⟨?_, fun b hb => List.eq_of_mem_replicate hb⟩
    simp only [List.length_replicate]
    exact Int.toNat_of_nonneg hc

/-- Witness of C12: the solved board of scenario 1 is cleared to the board
of scenario 1. -/
theorem clearGrid_resets_witness :
    board1Solved.nonogram.grid = grid1 ∧ board1Solved.nonogram.clearGrid = board1 ∧
    (board1Solved.nonogram.clearGrid.grid.length : Int) = board1Solved.nonogram.rows ∧
    board1Solved.nonogram.clearGrid.rowNums = board1Solved.nonogram.rowNums :=
  ⟨rfl, by decide,
    (clearGrid_resets board1Solved.nonogram (by decide) (by decide)).1,
    (clearGrid_resets board1Solved.nonogram (by decide) (by decide)).2.2.1⟩

/-! ## The legality rule -/

/-- C15. Per-cell legality rule: in a state in which the reads `isLegal`
makes are in bounds (`rp = rowNumPlaced[row]`, `x = rowNums[row][rowNumIdxs[row]]`,
`cp = colNumPlaced[col]`, `y = colNums[col][colNumIdxs[col]]`),
`isLegal(row, col, true)` is `false` exactly when `rp >= x` or `cp >= y`, and
`isLegal(row, col, false)` is `false` exactly when `0 < rp < x` or
`0 < cp < y`; in every other case the result is `true`.  The member is
`const`: its embedding gives back the boolean only. -/
theorem isLegal_rule (s : NonogramSolver) (row col : Int) (rp x cp y : Int)
    (hrp : vecGet s.rowNumPlaced row = .ok rp) (hx : s.rowNum row = .ok x)
    (hcp : vecGet s.colNumPlaced col = .ok cp) (hy : s.colNum col = .ok y) :
    s.isLegal row col true = .ok (decide (¬ (rp ≥ x ∨ cp ≥ y))) ∧
    s.isLegal row col false = .ok (decide (¬ ((0 < rp ∧ rp < x) ∨ (0 < cp ∧ cp < y)))) := by
  constructor
  · unfold NonogramSolver.isLegal
    simp only [hrp, hx, hcp, hy, andThen, orElse, Except_ok_bind, Except_pure_eq, if_true]
    by_cases h1 : rp ≥ x
    · simp [h1, pure, Except.pure]
    · by_cases h2 : cp ≥ y
      · simp [h1, h2, pure, Except.pure]
      · simp [h1, h2, pure, Except.pure]
  · unfold NonogramSolver.isLegal
    simp only [hrp, hx, hcp, hy, andThen, orElse, Except_ok_bind, Except_pure_eq,
      Bool.false_eq_true, if_false, Bool.not_false, if_true]
    by_cases h1 : 0 < rp <;> by_cases h2 : rp < x <;> by_cases h3 : 0 < cp <;>
      by_cases h4 : cp < y <;> simp [h1, h2, h3, h4, pure, Except.pure]

/-- Witness of C15: the state of scenario 2 after its tile is placed, where
a second filled tile is illegal and an empty one is legal. -/
theorem isLegal_rule_witness :
    board2Solved.isLegal 0 0 true = .ok false ∧ board2Solved.isLegal 0 0 false = .ok true :=
  isLegal_rule board2Solved 0 0 1 1 1 1 (by decide) (by decide) (by decide) (by decide)

/-! ## The calls of a solve: board, indices, depth -/

namespace NonogramSolver

/-- Every call made during a solve works on the clues and dimensions of the
board the solver was made for. -/
theorem called_sameBoard (n : Nonogram) (hf : n.Fresh) {fuel : Nat} {s : NonogramSolver}
    {row col : Int} (hcall : Called n fuel s row col) : (new n).SameBoard s := by
  induction hcall with
  | start => exact SameBoard.refl _
  | @onFalse fuel s s1 row col row' col' hprev hn hleg hpl hend ih =>
    obtain ⟨r, c, hrow, hcol, hinv, hr, hc, hfuel⟩ := called_inv n hf hprev
    subst hrow
    obtain ⟨r', c', e1, e2, hinv', hr', hc', _⟩ := nextCell_cases hinv hr hc hcol hfuel hn
    subst e1 e2
    exact ih.trans (inv_of_checks hinv' hr' hc' hleg hpl hend).2
  | @onTrue fuel s s0 s1 row col row' col' hprev hn htry hleg hpl hend ih =>
    obtain ⟨r, c, hrow, hcol, hinv, hr, hc, hfuel⟩ := called_inv n hf hprev
    subst hrow
    obtain ⟨r', c', e1, e2, hinv', hr', hc', hfuel'⟩ := nextCell_cases hinv hr hc hcol hfuel hn
    subst e1 e2
    have hs0 : s0 = s :=
      eq_of_tryVal_false (tryVal_result _ s r' c' hinv' hr' hc' false
        (backtrack_hk fuel s r' c' hr' hc' hfuel')) htry
    subst hs0
    exact ih.trans (inv_of_checks hinv' hr' hc' hleg hpl hend).2

/-- The cell after `(row, col)` comes next in row-major order. -/
theorem nextCell_position {s : NonogramSolver} {row col row' col' : Int}
    (hn : nextCell s row col = some (row', col')) :
    row' * s.nonogram.cols + col' = row * s.nonogram.cols + col + 1 := by
  unfold nextCell at hn
  by_cases h1 : col + 1 = s.nonogram.cols
  · rw [if_pos h1] at hn
    by_cases h2 : row + 1 = s.nonogram.rows
    · rw [if_pos h2] at hn; cases hn
    · rw [if_neg h2] at hn
      simp only [Option.some.injEq, Prod.mk.injEq] at hn
      rw [← hn.1, ← hn.2, ← h1]
      ring
  · rw [if_neg h1] at hn
    simp only [Option.some.injEq, Prod.mk.injEq] at hn
    rw [← hn.1, ← hn.2]
    ring

/-- The fuel left at a call and the row-major position of the call add up
to the fuel `solve` starts with. -/
theorem called_depth (n : Nonogram) (hf : n.Fresh) {fuel : Nat} {s : NonogramSolver}
    {row col : Int} (hcall : Called n fuel s row col) :
    (fuel : Int) + (row * n.cols + col + 1) = n.rows * n.cols + 1 := by
  induction hcall with
  | start =>
    rw [solveFuel_new n hf, hf.rows_eq, hf.cols_eq]
    push_cast
    ring
  | @onFalse fuel s s1 row col row' col' hprev hn hleg hpl hend ih =>
    have hsb := called_sameBoard n hf hprev
    have hC : s.nonogram.cols = n.cols := hsb.2.2.2
    have := nextCell_position hn
    rw [hC] at this
    push_cast at ih
    omega
  | @onTrue fuel s s0 s1 row col row' col' hprev hn htry hleg hpl hend ih =>
    have hsb := called_sameBoard n hf hprev
    have hC : s.nonogram.cols = n.cols := hsb.2.2.2
    have := nextCell_position hn
    rw [hC] at this
    push_cast at ih
    omega

end NonogramSolver

/-- A call made during a solve on a board without an empty clue sequence
returns without a fault. -/
theorem called_returns (n : Nonogram) (hf : n.Fresh) (hne : ¬ HasEmptyClue n) {fuel : Nat}
    {s : NonogramSolver} {row col : Int} (hcall : NonogramSolver.Called n fuel s row col) :
    ∃ res, NonogramSolver.backtrack fuel s row col = .ok res := by
  obtain ⟨r, c, hrow, hcol, hinv, hr, hc, hfuel⟩ := NonogramSolver.called_inv n hf hcall
  subst hrow
  have hsb := NonogramSolver.called_sameBoard n hf hcall
  rcases NonogramSolver.backtrack_result fuel s r c col hinv hr hc hcol hfuel with
    ⟨s', h1, _⟩ | ⟨h1, _⟩ | ⟨_, hempty⟩
  · exact ⟨_, h1⟩
  · exact ⟨_, h1⟩
  · exact absurd ((hasEmptyClue_congr hsb.1 hsb.2.1).1 hempty) hne

/-- C16. Index safety of the search: on a board with at least one row and one
column, an all-false grid and no empty clue sequence, `solve` on a fresh
solver ends without the out-of-bounds fault, which the embedding raises at any
access outside a vector; every call `backtrack(row, col)` made on the way
returns without a fault, decides a cell `(row', col')` with
`0 <= row' < rows` and `0 <= col' < cols`, and is entered with every clue
index inside its clue sequence: `0 <= rowNumIdxs[r] < size of rowNums[r]` and
`0 <= colNumIdxs[c] < size of colNums[c]`. -/
theorem index_safety (n : Nonogram) (hf : n.Fresh) (hne : ¬ HasEmptyClue n) :
    (∃ o, (NonogramSolver.new n).solve = .ok o) ∧
    ∀ (fuel : Nat) (s : NonogramSolver) (row col : Int),
      NonogramSolver.Called n fuel s row col →
      (∃ res, NonogramSolver.backtrack fuel s row col = .ok res) ∧
      (∀ row' col', NonogramSolver.nextCell s row col = some (row', col') →
        0 ≤ row' ∧ row' < n.rows ∧ 0 ≤ col' ∧ col' < n.cols) ∧
      (∀ r, r < n.rowNums.length →
        0 ≤ s.rowNumIdxs.getD r 0 ∧
          s.rowNumIdxs.getD r 0 < ((n.rowNums.getD r []).length : Int)) ∧
      (∀ c, c < n.colNums.length →
        0 ≤ s.colNumIdxs.getD c 0 ∧
          s.colNumIdxs.getD c 0 < ((n.colNums.getD c []).length : Int)) := by
  constructor
  · rcases NonogramSolver.solve_cases n hf with ⟨s', h1, _⟩ | ⟨h1, _⟩ | ⟨_, hempty⟩
    · exact ⟨_, h1⟩
    · exact ⟨_, h1⟩
    · exact absurd hempty hne
  · intro fuel s row col hcall
    obtain ⟨r, c, hrow, hcol, hinv, hr, hc, hfuel⟩ := NonogramSolver.called_inv n hf hcall
    subst hrow
    have hsb := NonogramSolver.called_sameBoard n hf hcall
    have hR : s.nonogram.rowNums = n.rowNums := hsb.1
    have hC : s.nonogram.colNums = n.colNums := hsb.2.1
    refine ⟨called_returns n hf hne hcall, ?_, ?_, ?_⟩
    · intro row' col' hn
      obtain ⟨k, hk⟩ : ∃ k, fuel = k + 1 := ⟨fuel - 1, by omega⟩
      rw [hk] at hfuel
      obtain ⟨r', c', e1, e2, _, hr', hc', _⟩ :=
        NonogramSolver.nextCell_cases hinv hr hc hcol hfuel hn
      rw [hR] at hr'
      rw [hC] at hc'
      rw [e1, e2, hf.rows_eq, hf.cols_eq]
      omega
    · intro r' hr'
      have hrow := hinv.rowSt r' (by rw [hR]; exact hr')
      have hli := lineInv_of_lineRun _ _ _ hrow
      have hcl : s.rowClue r' = n.rowNums.getD r' [] := by
        unfold NonogramSolver.rowClue; rw [hR]
      have hne' : s.rowClue r' ≠ [] := fun h =>
        hne ((hasEmptyClue_congr hR hC).1 (NonogramSolver.hasEmptyClue_of_row (by rw [hR]; exact hr') h))
      exact ⟨hli.idx_nonneg, by rw [← hcl]; exact hli.idx_lt hne'⟩
    · intro c' hc'
      have hcol' := hinv.colSt c' (by rw [hC]; exact hc')
      have hli := lineInv_of_lineRun _ _ _ hcol'
      have hcl : s.colClue c' = n.colNums.getD c' [] := by
        unfold NonogramSolver.colClue; rw [hC]
      have hne' : s.colClue c' ≠ [] := fun h =>
        hne ((hasEmptyClue_congr hR hC).1 (NonogramSolver.hasEmptyClue_of_col (by rw [hC]; exact hc') h))
      exact ⟨hli.idx_nonneg, by rw [← hcl]; exact hli.idx_lt hne'⟩

/-- Witness of C16: scenario 4 and the call `solve` makes. -/
theorem index_safety_witness :
    board4.Fresh ∧ ¬ HasEmptyClue board4 ∧
    (∃ o, (NonogramSolver.new board4).solve = .ok o) ∧
    (∀ row' col', NonogramSolver.nextCell (NonogramSolver.new board4) 0 (-1) = some (row', col') →
        0 ≤ row' ∧ row' < board4.rows ∧ 0 ≤ col' ∧ col' < board4.cols) :=
  ⟨fresh_ofClues _ _ (by decide) (by decide), by decide,
    (index_safety board4 (fresh_ofClues _ _ (by decide) (by decide)) (by decide)).1,
    ((index_safety board4 (fresh_ofClues _ _ (by decide) (by decide)) (by decide)).2
      _ _ _ _ NonogramSolver.Called.start).2.1⟩

/-- C17. Termination and recursion depth: on a board with at least one row
and one column, an all-false grid and no empty clue sequence, the call
`backtrack(0, -1)` on a fresh solver returns whenever the fuel exceeds
`rows * cols`; every call `backtrack(row, col)` made during the solve is at
nesting depth `row * cols + col + 1` (the fuel it has left is
`rows * cols + 1` minus that depth), this depth is at most `rows * cols`, and
the cell it decides, for which alone it calls itself, is the next one in
row-major order: `row' * cols + col' = row * cols + col + 1`. -/
theorem search_terminates (n : Nonogram) (hf : n.Fresh) (hne : ¬ HasEmptyClue n) :
    (∀ fuel : Nat, (n.rows * n.cols).toNat < fuel →
      ∃ res, NonogramSolver.backtrack fuel (NonogramSolver.new n) 0 (-1) = .ok res) ∧
    ∀ (fuel : Nat) (s : NonogramSolver) (row col : Int),
      NonogramSolver.Called n fuel s row col →
      (fuel : Int) + (row * n.cols + col + 1) = n.rows * n.cols + 1 ∧
      row * n.cols + col + 1 ≤ n.rows * n.cols ∧
      (∀ row' col', NonogramSolver.nextCell s row col = some (row', col') →
        row' * n.cols + col' = row * n.cols + col + 1) := by
  constructor
  · intro fuel hfuel
    have hinv := NonogramSolver.inv_new n hf
    have e : (n.rows * n.cols).toNat = n.rowNums.length * n.colNums.length := by
      rw [hf.rows_eq, hf.cols_eq]
      have : ((n.rowNums.length : Int) * (n.colNums.length : Int))
          = ((n.rowNums.length * n.colNums.length : Nat) : Int) := by push_cast; rfl
      rw [this, Int.toNat_ofNat]
    rw [e] at hfuel
    have hres := NonogramSolver.backtrack_result fuel (NonogramSolver.new n) 0 0 (-1) hinv
      hf.rows_pos (Nat.zero_le _) (by simp) (by
        show (n.rowNums.length - 0) * n.colNums.length - 0 < fuel
        simpa using hfuel)
    have e0 : ((0 : Nat) : Int) = 0 := rfl
    rw [e0] at hres
    rcases hres with ⟨s', h1, _⟩ | ⟨h1, _⟩ | ⟨_, hempty⟩
    · exact ⟨_, h1⟩
    · exact ⟨_, h1⟩
    · exact absurd hempty hne
  · intro fuel s row col hcall
    have hdepth := NonogramSolver.called_depth n hf hcall
    have hsb := NonogramSolver.called_sameBoard n hf hcall
    have hC : s.nonogram.cols = n.cols := hsb.2.2.2
    refine ⟨hdepth, ?_, ?_⟩
    · obtain ⟨r, c, hrow, hcol, hinv, hr, hc, _⟩ := NonogramSolver.called_inv n hf hcall
      have hR' : s.nonogram.rowNums = n.rowNums := hsb.1
      have hC' : s.nonogram.colNums = n.colNums := hsb.2.1
      rw [hR'] at hr
      rw [hC'] at hc
      rw [hrow, hf.rows_eq, hf.cols_eq]
      have h1 : (r + 1) * n.colNums.length ≤ n.rowNums.length * n.colNums.length :=
        Nat.mul_le_mul_right _ hr
      have h2 : ((r : Int) + 1) * (n.colNums.length : Int)
          ≤ (n.rowNums.length : Int) * (n.colNums.length : Int) := by exact_mod_cast h1
      have h3 : ((r : Int) + 1) * (n.colNums.length : Int)
          = (r : Int) * (n.colNums.length : Int) + (n.colNums.length : Int) := by ring
      omega
    · intro row' col' hn
      have := NonogramSolver.nextCell_position hn
      rw [hC] at this
      exact this

/-- Witness of C17: scenario 4, whose search returns with fuel 3. -/
theorem search_terminates_witness :
    board4.Fresh ∧ ¬ HasEmptyClue board4 ∧
    (∃ res, NonogramSolver.backtrack 3 (NonogramSolver.new board4) 0 (-1) = .ok res) :=
  ⟨fresh_ofClues _ _ (by decide) (by decide), by decide,
    (search_terminates board4 (fresh_ofClues _ _ (by decide) (by decide)) (by decide)).1 3
      (by decide)⟩

/-! ## The state after a failure -/

/-- C19. State after failure: on a well-formed board with an all-false grid,
when `solve` on a fresh solver throws the unsolvable error the solver is in
the state it was constructed in: every grid cell is `false` and every entry
of `rowNumIdxs`, `rowNumPlaced`, `colNumIdxs` and `colNumPlaced` is `0`. -/
theorem state_after_failure (n : Nonogram) (hf : n.Fresh) (_hw : n.WellFormed)
    (msg : String) (s' : NonogramSolver)
    (hthrow : (NonogramSolver.new n).solve = .ok (.thrown msg s')) :
    s' = NonogramSolver.new n ∧ s'.nonogram = n ∧
    (∀ row ∈ s'.nonogram.grid, ∀ b ∈ row, b = false) ∧
    (∀ x ∈ s'.rowNumIdxs, x = 0) ∧ (∀ x ∈ s'.rowNumPlaced, x = 0) ∧
    (∀ x ∈ s'.colNumIdxs, x = 0) ∧ (∀ x ∈ s'.colNumPlaced, x = 0) := by
  have hs : s' = NonogramSolver.new n := by
    rcases NonogramSolver.solve_cases n hf with ⟨s'', h1, _⟩ | ⟨h1, _⟩ | ⟨h1, _⟩
    · rw [h1] at hthrow
      injection hthrow with h
      cases h
    · rw [h1] at hthrow
      injection hthrow with h
      injection h with _ h
      exact h.symm
    · rw [h1] at hthrow
      cases hthrow
  subst hs
  refine ⟨rfl, rfl, ?_, ?_, ?_, ?_, ?_⟩
  · intro row hrow b hb
    have hg : (NonogramSolver.new n).nonogram.grid = n.grid := rfl
    rw [hg, hf.grid_eq] at hrow
    have := List.eq_of_mem_replicate hrow
    subst this
    exact List.eq_of_mem_replicate hb
  · intro x hx; exact List.eq_of_mem_replicate hx
  · intro x hx; exact List.eq_of_mem_replicate hx
  · intro x hx; exact List.eq_of_mem_replicate hx
  · intro x hx; exact List.eq_of_mem_replicate hx

/-- Witness of C19: scenario 4, on which `solve` throws. -/
theorem state_after_failure_witness :
    board4.Fresh ∧ board4.WellFormed ∧
    (NonogramSolver.new board4).solve
      = .ok (.thrown NonogramSolver.unsolvableMsg (NonogramSolver.new board4)) ∧
    (∀ row ∈ (NonogramSolver.new board4).nonogram.grid, ∀ b ∈ row, b = false) :=
  ⟨fresh_ofClues _ _ (by decide) (by decide), by decide, by decide,
    (state_after_failure board4 (fresh_ofClues _ _ (by decide) (by decide)) (by decide)
      NonogramSolver.unsolvableMsg (NonogramSolver.new board4) (by decide)).2.2.1⟩

/-! ## The run-length counters -/

theorem trailingFilled_snoc_true (xs : List Bool) :
    trailingFilled (xs ++ [true]) = trailingFilled xs + 1 := by
  simp [trailingFilled, List.takeWhile]

theorem trailingFilled_snoc_false (xs : List Bool) : trailingFilled (xs ++ [false]) = 0 := by
  simp [trailingFilled, List.takeWhile]

theorem trailingFilled_of_last (xs : List Bool) (h : xs.getLast?.getD false = false) :
    trailingFilled xs = 0 := by
  induction xs using List.reverseRecOn with
  | nil => rfl
  | append_singleton ys b _ =>
    simp at h
    subst h
    exact trailingFilled_snoc_false ys

theorem clueAt_last (clue : List Int) (h : clue ≠ []) :
    clueAt clue ((clue.length : Int) - 1) = clue.getLast? := by
  have hpos : 0 < clue.length := List.length_pos.2 h
  unfold clueAt
  rw [if_neg (by omega), List.getLast?_eq_getElem?]
  congr 1
  omega

/-- What `lineDone` says of a pair whose index is not negative. -/
theorem lineDone_iff (clue : List Int) (st : Int × Int) (h0 : 0 ≤ st.1) :
    lineDone clue st = true ↔ st.1 = (clue.length : Int) - 1 ∧ clue.getLast? = some st.2 := by
  unfold lineDone
  rw [toSizeT_of_nonneg h0]
  by_cases hne : clue = []
  · subst hne
    simp
  · rw [sizeMinusOne_of_ne_nil hne]
    simp

/-- The tiles counted for a line are the filled cells at the end of its
decided cells, unless the last block of the line is complete and an empty
cell follows it: the count then stays at the length of that block. -/
theorem placed_trailing (clue : List Int) (cells : List Bool) :
    ∀ st, lineRun clue cells = some st →
      st.2 = (trailingFilled cells : Int) ∨
      (trailingFilled cells = 0 ∧ lineDone clue st = true) := by
  induction cells using List.reverseRecOn with
  | nil =>
    intro st h
    simp only [lineRun, lineRunFrom, Option.some.injEq] at h
    subst h
    left; rfl
  | append_singleton xs v ih =>
    intro st h
    rw [lineRun_append] at h
    cases hrun : lineRun clue xs with
    | none => simp [hrun] at h
    | some st0 =>
      have h0 := ih st0 hrun
      have hli := lineInv_of_lineRun _ _ _ hrun
      simp only [hrun] at h
      by_cases hl : lineLegal clue st0 v = true
      · simp only [hl, if_true, Option.some.injEq] at h
        subst h
        cases v with
        | true =>
          left
          rw [trailingFilled_snoc_true]
          simp only [lineLegal] at hl
          cases hc : clueAt clue st0.1 with
          | none => simp [hc] at hl
          | some x =>
            simp only [hc, decide_eq_true_eq] at hl
            rcases h0 with h0 | ⟨_, hdone⟩
            · simp only [lineNext, if_true]
              rw [h0]
              push_cast
              rfl
            · exfalso
              have hne : clue ≠ [] := by
                intro he; rw [he, clueAt_nil] at hc; cases hc
              obtain ⟨h1, h2⟩ := (lineDone_iff clue st0 hli.idx_nonneg).1 hdone
              rw [h1, clueAt_last clue hne, h2] at hc
              injection hc with hc
              omega
        | false =>
          rw [trailingFilled_snoc_false]
          by_cases hadv : (xs.getLast?.getD false && decide (toSizeT st0.1 < sizeMinusOne clue)) = true
          · left
            simp only [lineNext, Bool.false_eq_true, if_false, hadv, if_true]
            rfl
          · have hst : lineNext clue st0 (xs.getLast?.getD false) false = st0 := by
              simp only [lineNext, Bool.false_eq_true, if_false, hadv]
            rw [hst]
            simp only [lineLegal, Bool.or_eq_true, decide_eq_true_eq] at hl
            rcases hl with hl | hl
            · left
              have := hli.placed_nonneg
              push_cast
              omega
            · cases hc : clueAt clue st0.1 with
              | none => simp [hc] at hl
              | some x =>
                simp only [hc, decide_eq_true_eq] at hl
                have hne : clue ≠ [] := by
                  intro he; rw [he, clueAt_nil] at hc; cases hc
                cases hprev : xs.getLast?.getD false with
                | false =>
                  rcases h0 with h0 | ⟨_, hdone⟩
                  · left
                    rw [h0, trailingFilled_of_last xs hprev]
                  · right
                    exact ⟨rfl, hdone⟩
                | true =>
                  right
                  refine ⟨rfl, ?_⟩
                  obtain ⟨x', hx', h1, h2⟩ := hli.open_run (getLast?_eq_some_true_of_getD hprev)
                  rw [hc] at hx'
                  injection hx' with hx'
                  subst hx'
                  rw [hprev] at hadv
                  simp only [Bool.true_and, decide_eq_true_eq] at hadv
                  rw [toSizeT_of_nonneg hli.idx_nonneg, sizeMinusOne_of_ne_nil hne] at hadv
                  have hlt := hli.idx_lt hne
                  have hidx : st0.1 = (clue.length : Int) - 1 := by omega
                  refine (lineDone_iff clue st0 hli.idx_nonneg).2 ⟨hidx, ?_⟩
                  rw [← clueAt_last clue hne, ← hidx, hc]
                  congr 1
                  omega
      · simp [hl] at h

/-- The search on `board5` enters `backtrack(0, 1)` in the state
`board5Mid`. -/
theorem called_board5Mid : NonogramSolver.Called board5 2 board5Mid 0 1 := by
  have h0 : NonogramSolver.Called board5 4 (NonogramSolver.new board5) 0 (-1) :=
    NonogramSolver.Called.start
  have h1 : NonogramSolver.Called board5 3
      { nonogram := { board5 with grid := [[true, false, false]] }
        rowNumIdxs := [0]
        colNumIdxs := [0, 0, 0]
        rowNumPlaced := [1]
        colNumPlaced := [1, 0, 0] } 0 0 :=
    @NonogramSolver.Called.onTrue board5 3 (NonogramSolver.new board5) (NonogramSolver.new board5)
      _ 0 (-1) 0 0 h0 (by decide) (by decide) (by decide) (by decide) (by decide)
  exact @NonogramSolver.Called.onFalse board5 2 _ board5Mid 0 0 0 1 h1 (by decide) (by decide)
    (by decide) (by decide)

/-- C13, counterexample. On the 1x3 board with row clue `[1]` and column
clues `[[1],[0],[0]]`, which is well formed, the search enters
`backtrack(0, 1)` with cell `(0, 0)` filled and cell `(0, 1)` empty: no filled
cell precedes the next undecided cell `(0, 2)` of row 0, and
`rowNumPlaced[0]` is `1`. -/
theorem placed_differs_from_trailing :
    board5.WellFormed ∧ board5.Fresh ∧
    NonogramSolver.Called board5 2 board5Mid 0 1 ∧
    rowCells board5Mid.nonogram.grid 0 2 = [true, false] ∧
    trailingFilled (rowCells board5Mid.nonogram.grid 0 2) = 0 ∧
    board5Mid.rowNumPlaced.getD 0 0 = 1 :=
  ⟨by decide, fresh_ofClues _ _ (by decide) (by decide), called_board5Mid, by decide, by decide,
    by decide⟩

/-- C13, amended. Run-length counter invariant: at every call
`backtrack(row, col)` of a solve on a fresh solver (the decided cells being
those before `(row, col + 1)` in row-major order), for every row `r'` the
counter `rowNumPlaced[r']` equals the number of filled cells at the end of
the decided prefix of the row, unless that prefix does not end with a filled
cell while the clue index of the row is the last one and `rowNumPlaced[r']`
is the last clue number (the last block is complete); the same holds of
`colNumPlaced[c']` and the decided prefix of column `c'`. -/
theorem placed_counts_trailing (n : Nonogram) (hf : n.Fresh) {fuel : Nat}
    {s : NonogramSolver} {row col : Int} (hcall : NonogramSolver.Called n fuel s row col) :
    ∃ r c : Nat, row = (r : Int) ∧ col + 1 = (c : Int) ∧
      (∀ r', r' < n.rowNums.length →
        s.rowNumPlaced.getD r' 0
            = (trailingFilled (rowCells s.nonogram.grid r' (rowLen n.colNums.length r c r')) : Int) ∨
        (trailingFilled (rowCells s.nonogram.grid r' (rowLen n.colNums.length r c r')) = 0 ∧
          s.rowNumIdxs.getD r' 0 = ((n.rowNums.getD r' []).length : Int) - 1 ∧
          (n.rowNums.getD r' []).getLast? = some (s.rowNumPlaced.getD r' 0))) ∧
      (∀ c', c' < n.colNums.length →
        s.colNumPlaced.getD c' 0
            = (trailingFilled (colCells s.nonogram.grid c' (colLen r c c')) : Int) ∨
        (trailingFilled (colCells s.nonogram.grid c' (colLen r c c')) = 0 ∧
          s.colNumIdxs.getD c' 0 = ((n.colNums.getD c' []).length : Int) - 1 ∧
          (n.colNums.getD c' []).getLast? = some (s.colNumPlaced.getD c' 0))) := by
  obtain ⟨r, c, hrow, hcol, hinv, _, _, _⟩ := NonogramSolver.called_inv n hf hcall
  have hsb := NonogramSolver.called_sameBoard n hf hcall
  have hR : s.nonogram.rowNums = n.rowNums := hsb.1
  have hC : s.nonogram.colNums = n.colNums := hsb.2.1
  refine ⟨r, c, hrow, hcol, ?_, ?_⟩
  · intro r' hr'
    have hrun := hinv.rowSt r' (by rw [hR]; exact hr')
    have hli := lineInv_of_lineRun _ _ _ hrun
    have hcl : s.rowClue r' = n.rowNums.getD r' [] := by
      unfold NonogramSolver.rowClue; rw [hR]
    rw [hC, hcl] at hrun
    rw [hC, hcl] at hli
    rcases placed_trailing _ _ _ hrun with h | ⟨h1, h2⟩
    · exact Or.inl h
    · exact Or.inr ⟨h1, (lineDone_iff _ _ hli.idx_nonneg).1 h2⟩
  · intro c' hc'
    have hrun := hinv.colSt c' (by rw [hC]; exact hc')
    have hli := lineInv_of_lineRun _ _ _ hrun
    have hcl : s.colClue c' = n.colNums.getD c' [] := by
      unfold NonogramSolver.colClue; rw [hC]
    rw [hcl] at hrun
    rw [hcl] at hli
    rcases placed_trailing _ _ _ hrun with h | ⟨h1, h2⟩
    · exact Or.inl h
    · exact Or.inr ⟨h1, (lineDone_iff _ _ hli.idx_nonneg).1 h2⟩

/-- Witness of the amended C13: the state of the counterexample, whose
row 0 has its only block complete. -/
theorem placed_counts_trailing_witness :
    board5.Fresh ∧ NonogramSolver.Called board5 2 board5Mid 0 1 ∧
    ∃ r c : Nat, (0 : Int) = (r : Int) ∧ (1 : Int) + 1 = (c : Int) ∧
      (∀ r', r' < board5.rowNums.length →
        board5Mid.rowNumPlaced.getD r' 0
            = (trailingFilled (rowCells board5Mid.nonogram.grid r'
                (rowLen board5.colNums.length r c r')) : Int) ∨
        (trailingFilled (rowCells board5Mid.nonogram.grid r'
                (rowLen board5.colNums.length r c r')) = 0 ∧
          board5Mid.rowNumIdxs.getD r' 0 = ((board5.rowNums.getD r' []).length : Int) - 1 ∧
          (board5.rowNums.getD r' []).getLast? = some (board5Mid.rowNumPlaced.getD r' 0))) ∧
      (∀ c', c' < board5.colNums.length →
        board5Mid.colNumPlaced.getD c' 0
            = (trailingFilled (colCells board5Mid.nonogram.grid c' (colLen r c c')) : Int) ∨
        (trailingFilled (colCells board5Mid.nonogram.grid c' (colLen r c c')) = 0 ∧
          board5Mid.colNumIdxs.getD c' 0 = ((board5.colNums.getD c' []).length : Int) - 1 ∧
          (board5.colNums.getD c' []).getLast? = some (board5Mid.colNumPlaced.getD c' 0))) :=
  ⟨fresh_ofClues _ _ (by decide) (by decide), called_board5Mid,
    placed_counts_trailing board5 (fresh_ofClues _ _ (by decide) (by decide)) called_board5Mid⟩

/-! ## Pruning -/

theorem lineRunFrom_append_cells (clue : List Int) (xs ys : List Bool) :
    ∀ (st : Int × Int) (prev : Bool),
      lineRunFrom clue st prev (xs ++ ys) =
        match lineRunFrom clue st prev xs with
        | some st' => lineRunFrom clue st' (xs.getLast?.getD prev) ys
        | none => none := by
  induction xs with
  | nil => intro st prev; simp [lineRunFrom]
  | cons x xs ih =>
    intro st prev
    simp only [List.cons_append, lineRunFrom]
    by_cases hl : lineLegal clue st x = true
    · have hlast : (x :: xs).getLast?.getD prev = xs.getLast?.getD x := by
        cases xs with
        | nil => simp
        | cons y ys =>
          rw [List.getLast?_cons_cons, List.getLast?_eq_getLast (y :: ys) (by simp)]
          simp
      simp only [hl, if_true, List.append_eq]
      rw [ih, hlast]
    · simp [hl]

theorem lineAccepts_append (clue : List Int) (xs ys : List Bool) (st : Int × Int)
    (hrun : lineRun clue xs = some st) :
    lineAccepts clue (xs ++ ys) = acceptsFrom clue st (xs.getLast?.getD false) ys := by
  unfold lineAccepts acceptsFrom
  unfold lineRun at hrun
  rw [lineRunFrom_append_cells, hrun]

theorem runsAux_replicate (m : Nat) : ∀ (k : Nat) (rest : List Bool),
    runsAux k (List.replicate m true ++ rest) = runsAux (k + m) rest := by
  induction m with
  | zero => intro k rest; simp
  | succ m ih =>
    intro k rest
    simp only [List.replicate_succ, List.cons_append, runsAux, List.append_eq]
    rw [ih]
    congr 1
    omega

theorem runsAux_blocks (post : List Nat) : ∀ k, 0 < k → (∀ y ∈ post, 0 < y) →
    runsAux k (blocks post) = k :: post := by
  induction post with
  | nil =>
    intro k hk _
    have : k ≠ 0 := by omega
    simp [blocks, runsAux, this]
  | cons y ys ih =>
    intro k hk hpos
    have hk0 : k ≠ 0 := by omega
    have hy : 0 < y := hpos y (List.mem_cons_self _ _)
    simp only [blocks, runsAux, if_neg hk0]
    rw [runsAux_replicate, Nat.zero_add, ih y hy (fun z hz => hpos z (List.mem_cons_of_mem _ hz))]

theorem map_toNat_ofNat (post : List Int) (h : ∀ y ∈ post, 0 < y) :
    (post.map Int.toNat).map Int.ofNat = post := by
  induction post with
  | nil => rfl
  | cons y ys ih =>
    have hy : 0 < y := h y (List.mem_cons_self _ _)
    simp only [List.map_cons]
    rw [ih (fun z hz => h z (List.mem_cons_of_mem _ hz))]
    congr 1
    exact Int.toNat_of_nonneg (le_of_lt hy)

theorem clue_split (clue : List Int) (i : Int) (h0 : 0 ≤ i) (h1 : i < clue.length) :
    ∃ pre x post, clue = pre ++ x :: post ∧ (pre.length : Int) = i := by
  have hi : i.toNat < clue.length := by omega
  refine ⟨clue.take i.toNat, clue[i.toNat], clue.drop (i.toNat + 1), ?_, ?_⟩
  · rw [← List.drop_eq_getElem_cons hi, List.take_append_drop]
  · rw [List.length_take, Nat.min_eq_left (le_of_lt hi)]
    exact Int.toNat_of_nonneg h0

/-- The cells a well-formed line automaton has run through can be completed
to a line that the automaton accepts. -/
theorem accepted_extension (clue : List Int) (hwf : WellFormedClue clue) (cells : List Bool)
    (st : Int × Int) (hrun : lineRun clue cells = some st) :
    ∃ ext, lineAccepts clue (cells ++ ext) = true := by
  have hli := lineInv_of_lineRun _ _ _ hrun
  have hpt := placed_trailing _ _ _ hrun
  rcases hpt with hpt | ⟨_, hdone⟩
  swap
  · refine ⟨[], ?_⟩
    rw [lineAccepts_append clue cells [] st hrun, acceptsFrom_nil]
    exact hdone
  have hne : clue ≠ [] := by
    rcases hwf with h | ⟨h, _⟩
    · rw [h]; simp
    · exact h
  obtain ⟨pre, x, post, hclue, hlen⟩ := clue_split clue st.1 hli.idx_nonneg (hli.idx_lt hne)
  have hst : st = ((pre.length : Int), st.2) := by
    rw [hlen]
  have hcl : clueAt clue st.1 = some x := by
    rw [hclue, ← hlen]; exact clueAt_append_length pre post x
  cases hprev : cells.getLast?.getD false with
  | true =>
    obtain ⟨x', hx', h1, h2⟩ := hli.open_run (getLast?_eq_some_true_of_getD hprev)
    rw [hcl] at hx'
    injection hx' with hx'
    subst hx'
    have hx : 0 < x := by omega
    have hpost : ∀ y ∈ post, 0 < y := by
      rcases hwf with h | ⟨_, h⟩
      · rw [hclue] at h
        have : x = 0 := by
          cases pre with
          | nil => simp at h; exact h.1
          | cons a pre => simp at h
        omega
      · intro y hy
        exact h y (by rw [hclue]; simp [hy])
    refine ⟨List.replicate (x.toNat - st.2.toNat) true ++ blocks (post.map Int.toNat), ?_⟩
    rw [lineAccepts_append clue cells _ st hrun, hprev, hst, hclue]
    have hk : ((st.2.toNat : Nat) : Int) = st.2 := Int.toNat_of_nonneg (by omega)
    have key := (acceptsFrom_open
      (List.replicate (x.toNat - st.2.toNat) true ++ blocks (post.map Int.toNat))
      pre post x st.2.toNat hx hpost).1 (by omega) (by omega)
    rw [hk] at key
    rw [key, runsAux_replicate,
      runsAux_blocks _ _ (by omega) (by
        intro y hy
        obtain ⟨z, hz, rfl⟩ := List.mem_map.1 hy
        have := hpost z hz
        omega)]
    simp only [List.map_cons]
    rw [map_toNat_ofNat post hpost]
    congr 1
    show ((st.2.toNat + (x.toNat - st.2.toNat) : Nat) : Int) = x
    omega
  | false =>
    have hz : st.2 = 0 := by
      rw [hpt, trailingFilled_of_last cells hprev]; rfl
    rcases hwf with h0 | ⟨_, hpos⟩
    · refine ⟨[], ?_⟩
      rw [lineAccepts_append clue cells [] st hrun, acceptsFrom_nil]
      have hi := hli.idx_lt hne
      have hi0 := hli.idx_nonneg
      have hst0 : st = (0, 0) := by
        rw [h0] at hi
        have : st.1 = 0 := by simp at hi; omega
        exact Prod.ext this hz
      rw [hst0, h0]
      decide
    · have hx : 0 < x := hpos x (by rw [hclue]; simp)
      have hpost : ∀ y ∈ post, 0 < y := fun y hy => hpos y (by rw [hclue]; simp [hy])
      refine ⟨List.replicate x.toNat true ++ blocks (post.map Int.toNat), ?_⟩
      rw [lineAccepts_append clue cells _ st hrun, hprev, hst, hclue, hz]
      have key := (acceptsFrom_open
        (List.replicate x.toNat true ++ blocks (post.map Int.toNat))
        pre post x 0 hx hpost).2
      rw [key, runsAux_replicate,
        runsAux_blocks _ _ (by omega) (by
          intro y hy
          obtain ⟨z, hz, rfl⟩ := List.mem_map.1 hy
          have := hpost z hz
          omega)]
      simp only [List.map_cons]
      rw [map_toNat_ofNat post hpost]
      congr 1
      show ((0 + x.toNat : Nat) : Int) = x
      omega

/-- The search on `board6` places `false` at cell `(0, 0)` and enters
`backtrack(0, 0)`. -/
theorem called_board6First :
    NonogramSolver.Called board6 4 (NonogramSolver.new board6) 0 0 :=
  @NonogramSolver.Called.onFalse board6 4 (NonogramSolver.new board6)
    (NonogramSolver.new board6) 0 (-1) 0 0 NonogramSolver.Called.start
    (by decide) (by decide) (by decide) (by decide)

/-- C14, counterexample. On the 2x2 board with row clues `[[2],[0]]` and
column clues `[[1],[1]]`, which is well formed, the search places `false` at
cell `(0, 0)` and descends: `backtrack(0, 0)` is called with the decided
prefix `[false]` of row 0, and no row of two cells that starts with `false`
has the runs `[2]`. -/
theorem pruning_not_immediate :
    board6.WellFormed ∧ board6.Fresh ∧
    NonogramSolver.Called board6 4 (NonogramSolver.new board6) 0 0 ∧
    rowCells (NonogramSolver.new board6).nonogram.grid 0 1 = [false] ∧
    ∀ line : List Bool, line.length = 2 → line.take 1 = [false] →
      ¬ LineMatches line (board6.rowNums.getD 0 []) := by
  refine ⟨by decide, fresh_ofClues _ _ (by decide) (by decide), called_board6First, by decide, ?_⟩
  · intro line hlen htake
    match line, hlen with
    | [a, b], _ =>
      simp only [List.take_succ_cons, List.take_zero, List.cons.injEq, and_true] at htake
      subst htake
      cases b <;> decide

/-- A line that the automaton has run through to a final pair is accepted. -/
theorem lineAccepts_of_done (clue : List Int) (cells : List Bool) (st : Int × Int)
    (hrun : lineRun clue cells = some st) (hdone : lineDone clue st = true) :
    lineAccepts clue cells = true := by
  unfold lineAccepts acceptsFrom
  unfold lineRun at hrun
  rw [hrun]
  exact hdone

/-- The search on `board7` places `false` at cell `(0, 0)`, fails with
`false` at cell `(0, 1)`, places `true` there and enters `backtrack(0, 1)`
with row 0 decided. -/
theorem called_board7Row : NonogramSolver.Called board7 3 board7Row 0 1 := by
  have h1 : NonogramSolver.Called board7 4 (NonogramSolver.new board7) 0 0 :=
    @NonogramSolver.Called.onFalse board7 4 (NonogramSolver.new board7)
      (NonogramSolver.new board7) 0 (-1) 0 0 NonogramSolver.Called.start
      (by decide) (by decide) (by decide) (by decide)
  exact @NonogramSolver.Called.onTrue board7 3 (NonogramSolver.new board7)
    (NonogramSolver.new board7) board7Row 0 0 0 1 h1 (by decide) (by decide) (by decide)
    (by decide) (by decide)

/-- C14, amended. Pruning by the clues, with the exact check at the end of
a line: on a well-formed board, at every call `backtrack(row, col)` of a
solve on a fresh solver, that is whenever the search has placed a value and
descends, every row and every column that is fully decided has exactly the
runs of its clue sequence, and the decided prefix of every other row and
column can be extended to a line whose runs equal its clue sequence; that
line may be longer than the board, for the cells that are left in a line are
not counted before its last cell. -/
theorem decided_lines_extend (n : Nonogram) (hf : n.Fresh) (hw : n.WellFormed) {fuel : Nat}
    {s : NonogramSolver} {row col : Int} (hcall : NonogramSolver.Called n fuel s row col) :
    ∃ r c : Nat, row = (r : Int) ∧ col + 1 = (c : Int) ∧
      (∀ r', r' < n.rowNums.length →
        (rowLen n.colNums.length r c r' = n.colNums.length →
          LineMatches (rowCells s.nonogram.grid r' n.colNums.length) (n.rowNums.getD r' [])) ∧
        ∃ ext, LineMatches (rowCells s.nonogram.grid r' (rowLen n.colNums.length r c r') ++ ext)
          (n.rowNums.getD r' [])) ∧
      (∀ c', c' < n.colNums.length →
        (colLen r c c' = n.rowNums.length →
          LineMatches (colCells s.nonogram.grid c' n.rowNums.length) (n.colNums.getD c' [])) ∧
        ∃ ext, LineMatches (colCells s.nonogram.grid c' (colLen r c c') ++ ext)
          (n.colNums.getD c' [])) := by
  obtain ⟨r, c, hrow, hcol, hinv, _, _, _⟩ := NonogramSolver.called_inv n hf hcall
  have hsb := NonogramSolver.called_sameBoard n hf hcall
  have hR : s.nonogram.rowNums = n.rowNums := hsb.1
  have hC : s.nonogram.colNums = n.colNums := hsb.2.1
  refine ⟨r, c, hrow, hcol, ?_, ?_⟩
  · intro r' hr'
    have hrun := hinv.rowSt r' (by rw [hR]; exact hr')
    have hfin := hinv.rowFin r' (by rw [hR]; exact hr')
    have hcl : s.rowClue r' = n.rowNums.getD r' [] := by
      unfold NonogramSolver.rowClue; rw [hR]
    rw [hC, hcl] at hrun
    rw [hC, hcl] at hfin
    have hwf : WellFormedClue (n.rowNums.getD r' []) := hw.1 _ (getD_mem_or_default _ r' [] hr')
    refine ⟨fun hfull => ?_, ?_⟩
    · rw [hfull] at hrun
      exact (lineAccepts_iff hwf _).1 (lineAccepts_of_done _ _ _ hrun (hfin hfull))
    · obtain ⟨ext, hext⟩ := accepted_extension _ hwf _ _ hrun
      exact ⟨ext, (lineAccepts_iff hwf _).1 hext⟩
  · intro c' hc'
    have hrun := hinv.colSt c' (by rw [hC]; exact hc')
    have hfin := hinv.colFin c' (by rw [hC]; exact hc')
    have hcl : s.colClue c' = n.colNums.getD c' [] := by
      unfold NonogramSolver.colClue; rw [hC]
    rw [hcl] at hrun
    rw [hR, hcl] at hfin
    have hwf : WellFormedClue (n.colNums.getD c' []) := hw.2 _ (getD_mem_or_default _ c' [] hc')
    refine ⟨fun hfull => ?_, ?_⟩
    · rw [hfull] at hrun
      exact (lineAccepts_iff hwf _).1 (lineAccepts_of_done _ _ _ hrun (hfin hfull))
    · obtain ⟨ext, hext⟩ := accepted_extension _ hwf _ _ hrun
      exact ⟨ext, (lineAccepts_iff hwf _).1 hext⟩

/-- Witness of the amended C14: the call `backtrack(0, 1)` on the 2x2 board
with row and column clues `[[1],[1]]`, at which row 0 is fully decided as
`[false, true]`. -/
theorem decided_lines_extend_witness :
    board7.Fresh ∧ board7.WellFormed ∧
    NonogramSolver.Called board7 3 board7Row 0 1 ∧
    rowCells board7Row.nonogram.grid 0 board7.colNums.length = [false, true] ∧
    ∃ r c : Nat, (0 : Int) = (r : Int) ∧ (1 : Int) + 1 = (c : Int) ∧
      (∀ r', r' < board7.rowNums.length →
        (rowLen board7.colNums.length r c r' = board7.colNums.length →
          LineMatches (rowCells board7Row.nonogram.grid r' board7.colNums.length)
            (board7.rowNums.getD r' [])) ∧
        ∃ ext, LineMatches
          (rowCells board7Row.nonogram.grid r' (rowLen board7.colNums.length r c r') ++ ext)
          (board7.rowNums.getD r' [])) ∧
      (∀ c', c' < board7.colNums.length →
        (colLen r c c' = board7.rowNums.length →
          LineMatches (colCells board7Row.nonogram.grid c' board7.rowNums.length)
            (board7.colNums.getD c' [])) ∧
        ∃ ext, LineMatches (colCells board7Row.nonogram.grid c' (colLen r c c') ++ ext)
          (board7.colNums.getD c' [])) :=
  ⟨fresh_ofClues _ _ (by decide) (by decide), by decide, called_board7Row, by decide,
    decided_lines_extend board7 (fresh_ofClues _ _ (by decide) (by decide)) (by decide)
      called_board7Row⟩

/-! ## The first solution -/

namespace NonogramSolver

/-- An iteration of the loop of `backtrack` that returns `true` has placed
its value and got `true` from the recursive call. -/
theorem tryVal_found (k : NonogramSolver → Int → Int → Except Fault (Bool × NonogramSolver))
    (s : NonogramSolver) (r c : Nat) (h : s.Inv r c)
    (hr : r < s.nonogram.rowNums.length) (hc : c < s.nonogram.colNums.length) (v : Bool)
    (s' : NonogramSolver) (hres : tryVal k s (r : Int) (c : Int) v = .ok (true, s')) :
    (s.placedAt r c v).Inv r (c + 1) ∧ k (s.placedAt r c v) (r : Int) (c : Int) = .ok (true, s') := by
  have hs := h.shape
  have hrow := h.rowSt r hr
  rw [rowLen_self] at hrow
  have hcol := h.colSt c hc
  rw [colLen_self] at hcol
  unfold tryVal at hres
  rcases isLegal_cases s hs r c hr hc v with hleg | ⟨hleg, _⟩
  · rw [hleg] at hres
    simp only [Except_ok_bind] at hres
    by_cases hb : (lineLegal (s.rowClue r) (s.rowState r) v &&
        lineLegal (s.colClue c) (s.colState c) v) = true
    · rw [if_pos hb] at hres
      simp only [Bool.and_eq_true] at hb
      obtain ⟨hrl, hcl⟩ := hb
      rw [place_eq s hs r c hr hc v] at hres
      simp only [Except_ok_bind] at hres
      have hp := hs.placedAt r c v
      have hri : (s.placedAt r c v).rowClue r = [] → ((s.placedAt r c v).rowState r).1 = 0 := by
        intro hnil
        rw [rowState_placedAt s hs r c hr v r, if_pos rfl]
        have := next_idx_zero hrow hrl hnil
        rw [rowCells_getLast] at this
        exact this
      have hci : (s.placedAt r c v).colClue c = [] → ((s.placedAt r c v).colState c).1 = 0 := by
        intro hnil
        rw [colState_placedAt s hs r c hc v c, if_pos rfl]
        have := next_idx_zero hcol hcl hnil
        rw [colCells_getLast] at this
        exact this
      rw [isIllegalEnd_eq _ hp r c hr hc hri hci] at hres
      simp only [Except_ok_bind] at hres
      rw [rowState_placedAt s hs r c hr v r, if_pos rfl,
        colState_placedAt s hs r c hc v c, if_pos rfl] at hres
      have e1 : (s.placedAt r c v).nonogram.colNums = s.nonogram.colNums := rfl
      have e2 : (s.placedAt r c v).nonogram.rowNums = s.nonogram.rowNums := rfl
      have e3 : (s.placedAt r c v).rowClue r = s.rowClue r := rfl
      have e4 : (s.placedAt r c v).colClue c = s.colClue c := rfl
      rw [e1, e2, e3, e4] at hres
      by_cases he : ((decide (c + 1 = s.nonogram.colNums.length) &&
            !lineDone (s.rowClue r) (lineNext (s.rowClue r) (s.rowState r) (s.rowPrev r c) v)) ||
          (decide (r + 1 = s.nonogram.rowNums.length) &&
            !lineDone (s.colClue c) (lineNext (s.colClue c) (s.colState c) (s.colPrev r c) v)))
          = true
      · rw [if_pos he] at hres
        simp only [Except_pure_eq, Except_ok_bind, Bool.false_eq_true, if_false] at hres
        cases hu : (s.placedAt r c v).undo (r : Int) (c : Int) v with
        | error e => rw [hu] at hres; cases hres
        | ok s2 =>
          rw [hu] at hres
          simp only [Except_ok_bind] at hres
          injection hres with hres
          injection hres with hres _
          cases hres
      · rw [if_neg he] at hres
        simp only [Bool.or_eq_true, Bool.and_eq_true, decide_eq_true_eq, Bool.not_eq_true',
          not_or, not_and, Bool.not_eq_false] at he
        have hinv : (s.placedAt r c v).Inv r (c + 1) := h.step hr hc v hrl hcl he.1 he.2
        refine ⟨hinv, ?_⟩
        cases hk : k (s.placedAt r c v) (r : Int) (c : Int) with
        | error e => rw [hk] at hres; cases hres
        | ok p =>
          obtain ⟨found, s2⟩ := p
          rw [hk] at hres
          simp only [Except_ok_bind] at hres
          cases found with
          | true =>
            simp only [if_true, Except_pure_eq] at hres
            exact hres
          | false =>
            simp only [Bool.false_eq_true, if_false] at hres
            cases hu : s2.undo (r : Int) (c : Int) v with
            | error e => rw [hu] at hres; cases hres
            | ok s3 =>
              rw [hu] at hres
              simp only [Except_ok_bind] at hres
              injection hres with hres
              injection hres with hres _
              cases hres
    · rw [if_neg hb] at hres
      injection hres with hres
      injection hres with hres _
      cases hres
  · rw [hleg] at hres
    cases hres

/-- The loop of `backtrack` tries the empty tile first: what it finds comes
first among the accepted grids. -/
theorem tryBoth_lex (k : NonogramSolver → Int → Int → Except Fault (Bool × NonogramSolver))
    (s : NonogramSolver) (r c : Nat) (h : s.Inv r c)
    (hr : r < s.nonogram.rowNums.length) (hc : c < s.nonogram.colNums.length)
    (hk : ∀ s1, s.SameBoard s1 → s1.Inv r (c + 1) →
      SearchResult s1 r (c + 1) (k s1 (r : Int) (c : Int)))
    (hkl : ∀ s1, s.SameBoard s1 → s1.Inv r (c + 1) →
      LexLeast s1 r (c + 1) (k s1 (r : Int) (c : Int))) :
    LexLeast s r c (tryBoth k s (r : Int) (c : Int)) := by
  have hs := h.shape
  intro s' hres G hG hag
  -- what the recursive call gives for the value `v` it was made with
  have hrec : ∀ v, tryVal k s (r : Int) (c : Int) v = .ok (true, s') → cell G r c = v →
      (∀ r' c', r' < s.nonogram.rowNums.length → c' < s.nonogram.colNums.length →
        cell G r' c' = cell s'.nonogram.grid r' c') ∨
      LexBefore s.nonogram.colNums.length s'.nonogram.grid G := by
    intro v hv hcell
    obtain ⟨hinv1, hk1⟩ := tryVal_found k s r c h hr hc v s' hv
    exact hkl _ (sameBoard_placedAt s r c v) hinv1 s' hk1 G hG
      (agree_placedAt hs hr hc G v hcell hag)
  unfold tryBoth at hres
  rcases tryVal_result k s r c h hr hc false hk with
    ⟨s'', h1, _, _, _⟩ | ⟨h1, hno⟩ | ⟨h1, _⟩
  · rw [h1] at hres
    simp only [Except_ok_bind, if_true] at hres
    injection hres with hres
    injection hres with _ hres
    subst hres
    cases hv : cell G r c with
    | false => exact hrec false h1 hv
    | true =>
      right
      obtain ⟨hinv1, hk1⟩ := tryVal_found k s r c h hr hc false s'' h1
      have hag1 : Agree s.nonogram.colNums.length s''.nonogram.grid
          (s.placedAt r c false).nonogram.grid r (c + 1) := by
        rcases hk _ (sameBoard_placedAt s r c false) hinv1 with
          ⟨s3, h3, _, _, hag3⟩ | ⟨h3, _⟩ | ⟨h3, _⟩
        · rw [h3] at hk1
          injection hk1 with hk1
          injection hk1 with _ hk1
          subst hk1
          exact hag3
        · rw [h3] at hk1
          injection hk1 with hk1
          injection hk1 with hk1 _
          cases hk1
        · rw [h3] at hk1; cases hk1
      refine ⟨r, c, hc, ?_, ?_, hv⟩
      · intro r' c' hlt
        rw [hag r' c' hlt, agree_of_placedAt hs hr hc _ false hag1 r' c' hlt]
      · rw [hag1 r c (by rw [rowLen_self]; omega), cell_placedAt s hs r c hr hc false]
        simp
  · rw [h1] at hres
    simp only [Except_ok_bind, Bool.false_eq_true, if_false] at hres
    have hv : cell G r c = true := by
      cases hv : cell G r c with
      | false => exact absurd hv (hno G hG hag)
      | true => rfl
    cases ht : tryVal k s (r : Int) (c : Int) true with
    | error e => rw [ht] at hres; cases hres
    | ok p =>
      obtain ⟨found, s2⟩ := p
      rw [ht] at hres
      simp only [Except_ok_bind] at hres
      cases found with
      | true =>
        simp only [if_true] at hres
        injection hres with hres
        injection hres with _ hres
        subst hres
        exact hrec true ht hv
      | false =>
        simp only [Bool.false_eq_true, if_false] at hres
        injection hres with hres
        injection hres with hres _
        cases hres
  · rw [h1] at hres
    cases hres

theorem lexLeast_nextRow {s : NonogramSolver} {r : Nat}
    {res : Except Fault (Bool × NonogramSolver)}
    (h : LexLeast s (r + 1) 0 res) : LexLeast s r s.nonogram.colNums.length res := by
  unfold LexLeast Agree at h ⊢
  simp only [rowLen_end] at h
  exact h

/-- What `backtrack` finds comes first among the accepted grids that extend
the decided cells. -/
theorem backtrack_lex (fuel : Nat) :
    ∀ (s : NonogramSolver) (r c : Nat) (col : Int), s.Inv r c →
      r < s.nonogram.rowNums.length → c ≤ s.nonogram.colNums.length → col + 1 = (c : Int) →
      (s.nonogram.rowNums.length - r) * s.nonogram.colNums.length - c < fuel →
      LexLeast s r c (backtrack fuel s (r : Int) col) := by
  induction fuel with
  | zero => intro s r c col _ _ _ _ hf; omega
  | succ fuel ih =>
    intro s r c col h hr hc hcol hf
    have hs := h.shape
    unfold backtrack
    rw [hs.cols_eq, hs.rows_eq, hcol]
    by_cases hcC : c = s.nonogram.colNums.length
    · subst hcC
      rw [if_pos rfl]
      by_cases hrR : r + 1 = s.nonogram.rowNums.length
      · have : (r : Int) + 1 = (s.nonogram.rowNums.length : Int) := by omega
        rw [if_pos this]
        intro s' hres G _ hag
        injection hres with hres
        injection hres with _ hres
        subst hres
        left
        intro r' c' hr' hc'
        apply hag
        unfold rowLen
        by_cases e : r' < r
        · rw [if_pos e]; exact hc'
        · rw [if_neg e, if_pos (by omega)]; exact hc'
      · have : ¬ ((r : Int) + 1 = (s.nonogram.rowNums.length : Int)) := by omega
        rw [if_neg this]
        have hr1 : r + 1 < s.nonogram.rowNums.length := by omega
        have e : (r : Int) + 1 = ((r + 1 : Nat) : Int) := by push_cast; rfl
        have e0 : (0 : Int) = ((0 : Nat) : Int) := rfl
        rw [e, e0]
        apply lexLeast_nextRow
        have hfuel : (s.nonogram.rowNums.length - (r + 1)) * s.nonogram.colNums.length - (0 + 1)
            < fuel := by
          have hm := mul_sub_succ s.nonogram.rowNums.length r s.nonogram.colNums.length hr1
          have hpos : s.nonogram.colNums.length ≤
              (s.nonogram.rowNums.length - (r + 1)) * s.nonogram.colNums.length :=
            Nat.le_mul_of_pos_left _ (by omega)
          have := hs.cols_pos
          omega
        apply tryBoth_lex _ s (r + 1) 0 h.nextRow hr1 hs.cols_pos
          (backtrack_hk fuel s (r + 1) 0 hr1 hs.cols_pos hfuel)
        intro s1 hsb hinv
        have hR : s1.nonogram.rowNums.length = s.nonogram.rowNums.length := by rw [hsb.1]
        have hC : s1.nonogram.colNums.length = s.nonogram.colNums.length := by rw [hsb.2.1]
        apply ih s1 (r + 1) (0 + 1) _ hinv (by omega) (by have := hs.cols_pos; omega) (by simp)
        rw [hR, hC]
        exact hfuel
    · rw [if_neg (by omega)]
      have hc' : c < s.nonogram.colNums.length := by omega
      have hfuel : (s.nonogram.rowNums.length - r) * s.nonogram.colNums.length - (c + 1)
          < fuel := by
        have hpos : s.nonogram.colNums.length ≤
            (s.nonogram.rowNums.length - r) * s.nonogram.colNums.length :=
          Nat.le_mul_of_pos_left _ (by omega)
        omega
      apply tryBoth_lex _ s r c h hr hc' (backtrack_hk fuel s r c hr hc' hfuel)
      intro s1 hsb hinv
      have hR : s1.nonogram.rowNums.length = s.nonogram.rowNums.length := by rw [hsb.1]
      have hC : s1.nonogram.colNums.length = s.nonogram.colNums.length := by rw [hsb.2.1]
      apply ih s1 r (c + 1) _ hinv (by omega) (by omega) (by push_cast; rfl)
      rw [hR, hC]
      exact hfuel

/-- A `solve` that returns does so because the call `backtrack(0, -1)`
returned `true`. -/
theorem backtrack_of_returned (s s' : NonogramSolver) (h : s.solve = .ok (.returned s')) :
    backtrack s.solveFuel s 0 (-1) = .ok (true, s') := by
  unfold solve at h
  cases hb : backtrack s.solveFuel s 0 (-1) with
  | error e =>
    rw [hb] at h
    cases h
  | ok p =>
    obtain ⟨found, s2⟩ := p
    rw [hb] at h
    cases found with
    | false => cases h
    | true =>
      injection h with h
      injection h with h
      rw [h]

end NonogramSolver

theorem lexBefore_asymm (C : Nat) (g G : List (List Bool)) (h : LexBefore C g G) :
    ¬ LexBefore C G g := by
  rintro ⟨r', c', hc', hag', hG', hg'⟩
  obtain ⟨r, c, hc, hag, hg, hG⟩ := h
  by_cases h1 : r < r' ∨ (r = r' ∧ c < c')
  · have := hag' r c (by
      unfold rowLen
      rcases h1 with h1 | ⟨h1, h2⟩
      · rw [if_pos h1]; exact hc
      · rw [if_neg (by omega), if_pos h1]; exact h2)
    rw [hg, hG] at this
    cases this
  · by_cases h2 : r' < r ∨ (r' = r ∧ c' < c)
    · have := hag r' c' (by
        unfold rowLen
        rcases h2 with h2 | ⟨h2, h3⟩
        · rw [if_pos h2]; exact hc'
        · rw [if_neg (by omega), if_pos h2]; exact h3)
      rw [hG', hg'] at this
      cases this
    · have e1 : r = r' := by omega
      have e2 : c = c' := by omega
      subst e1 e2
      rw [hg] at hg'
      cases hg'

theorem grid_ext (R C : Nat) (g G : List (List Bool)) (hg : g.length = R) (hG : G.length = R)
    (hgr : ∀ row ∈ g, row.length = C) (hGr : ∀ row ∈ G, row.length = C)
    (h : ∀ r c, r < R → c < C → cell G r c = cell g r c) : G = g := by
  apply List.ext_getElem (by rw [hg, hG])
  intro i h1 h2
  have hl1 : G[i].length = C := hGr _ (List.getElem_mem h1)
  have hl2 : g[i].length = C := hgr _ (List.getElem_mem h2)
  apply List.ext_getElem (by rw [hl1, hl2])
  intro j h3 h4
  have e1 : G.getD i [] = G[i] := by
    rw [List.getD_eq_getElem?_getD, List.getElem?_eq_getElem h1]; rfl
  have e2 : g.getD i [] = g[i] := by
    rw [List.getD_eq_getElem?_getD, List.getElem?_eq_getElem h2]; rfl
  have e3 : G[i].getD j false = G[i][j] := by
    rw [List.getD_eq_getElem?_getD, List.getElem?_eq_getElem h3]; rfl
  have e4 : g[i].getD j false = g[i][j] := by
    rw [List.getD_eq_getElem?_getD, List.getElem?_eq_getElem h4]; rfl
  have := h i j (by omega) (by omega)
  unfold cell at this
  rw [e1, e2, e3, e4] at this
  exact this

theorem lex_of_firstDiff (l : List Bool) : ∀ (L : List Bool) (i : Nat), l.length = L.length →
    (∀ j, j < i → l.getD j false = L.getD j false) →
    l.getD i false = false → L.getD i false = true →
    List.Lex (fun a b : Bool => a < b) l L := by
  induction l with
  | nil =>
    intro L i hlen _ _ hL
    have : L = [] := List.length_eq_zero.1 hlen.symm
    subst this
    simp at hL
  | cons a l ih =>
    intro L i hlen hbefore hl hL
    cases L with
    | nil => simp at hlen
    | cons b L =>
      cases i with
      | zero =>
        simp only [List.getD_cons_zero] at hl hL
        subst hl hL
        exact List.Lex.rel (by decide)
      | succ i =>
        have hab : a = b := by
          have := hbefore 0 (by omega)
          simpa using this
        subst hab
        apply List.Lex.cons
        apply ih L i (by simpa using hlen)
        · intro j hj
          have := hbefore (j + 1) (by omega)
          simpa using this
        · simpa using hl
        · simpa using hL

theorem flatten_length (C : Nat) (g : List (List Bool)) (h : ∀ row ∈ g, row.length = C) :
    g.flatten.length = g.length * C := by
  induction g with
  | nil => simp
  | cons row g ih =>
    rw [List.flatten_cons, List.length_append, ih (fun r hr => h r (List.mem_cons_of_mem _ hr)),
      h row (List.mem_cons_self _ _), List.length_cons, Nat.succ_mul]
    omega

/-- Cell `(r, c)` is at place `r * C + c` of the grid read in row-major
order. -/
theorem flatten_getD (C : Nat) (g : List (List Bool)) (h : ∀ row ∈ g, row.length = C) :
    ∀ (r c : Nat), c < C → g.flatten.getD (r * C + c) false = cell g r c := by
  induction g with
  | nil => intro r c _; simp [cell]
  | cons row g ih =>
    intro r c hc
    have hrow : row.length = C := h row (List.mem_cons_self _ _)
    rw [List.flatten_cons]
    cases r with
    | zero =>
      simp only [Nat.zero_mul, Nat.zero_add, cell, List.getD_cons_zero]
      rw [List.getD_eq_getElem?_getD, List.getD_eq_getElem?_getD,
        List.getElem?_append_left (by omega)]
    | succ r =>
      have e : (r + 1) * C + c = row.length + (r * C + c) := by
        rw [hrow, Nat.succ_mul]; omega
      rw [e, List.getD_eq_getElem?_getD, List.getElem?_append_right (by omega),
        Nat.add_sub_cancel_left, ← List.getD_eq_getElem?_getD,
        ih (fun r hr => h r (List.mem_cons_of_mem _ hr)) r c hc]
      simp [cell]

/-- A grid that comes before another one comes before it in the
lexicographic order of the lists of their cells in row-major order. -/
theorem lex_of_lexBefore (R C : Nat) (g G : List (List Bool))
    (hg : g.length = R) (hG : G.length = R)
    (hgr : ∀ row ∈ g, row.length = C) (hGr : ∀ row ∈ G, row.length = C)
    (h : LexBefore C g G) : List.Lex (fun a b : Bool => a < b) g.flatten G.flatten := by
  obtain ⟨r, c, hc, hag, h1, h2⟩ := h
  apply lex_of_firstDiff g.flatten G.flatten (r * C + c)
  · rw [flatten_length C g hgr, flatten_length C G hGr, hg, hG]
  · intro j hj
    have hC : 0 < C := by omega
    have hj' : j = (j / C) * C + j % C := by
      rw [Nat.mul_comm]; exact (Nat.div_add_mod j C).symm
    have hm : j % C < C := Nat.mod_lt _ hC
    rw [hj', flatten_getD C g hgr _ _ hm, flatten_getD C G hGr _ _ hm]
    symm
    apply hag
    unfold rowLen
    have hle : j / C ≤ r := by
      have : j < (r + 1) * C := by rw [Nat.succ_mul]; omega
      have := (Nat.div_lt_iff_lt_mul hC).2 this
      omega
    by_cases e : j / C < r
    · rw [if_pos e]; exact hm
    · have e' : j / C = r := by omega
      rw [if_neg e, if_pos e']
      rw [e'] at hj'
      omega
  · rw [flatten_getD C g hgr r c hc]; exact h1
  · rw [flatten_getD C G hGr r c hc]; exact h2

/-- C18. First solution in search order: on a well-formed board with an
all-false grid, the grid a `solve` on a fresh solver leaves when it returns
is a solution, and every solution is that grid or comes after it in the
lexicographic order on grids read in row-major order with `false < true`
(at the first cell where the two differ the grid found is empty; as lists of
cells, the grid found is below the solution in the lexicographic order of
lists); no solution comes before it. -/
theorem first_solution (n : Nonogram) (hf : n.Fresh) (hw : n.WellFormed) (s' : NonogramSolver)
    (hret : (NonogramSolver.new n).solve = .ok (.returned s')) :
    IsSolution n s'.nonogram.grid ∧
    (∀ G, IsSolution n G → G = s'.nonogram.grid ∨ LexBefore n.colNums.length s'.nonogram.grid G) ∧
    (∀ G, IsSolution n G → ¬ LexBefore n.colNums.length G s'.nonogram.grid) ∧
    (∀ G, IsSolution n G → G = s'.nonogram.grid ∨
      List.Lex (fun a b : Bool => a < b) s'.nonogram.grid.flatten G.flatten) := by
  have hsol := isSolution_of_returned n hf hw s' hret
  have hleast : ∀ G, IsSolution n G →
      G = s'.nonogram.grid ∨ LexBefore n.colNums.length s'.nonogram.grid G := by
    intro G hG
    have hacc : Accepted n G := (accepted_iff_isSolution n hw G hG.1 hG.2.1).2 hG
    have hb := NonogramSolver.backtrack_of_returned _ _ hret
    have hinv := NonogramSolver.inv_new n hf
    have hlex := NonogramSolver.backtrack_lex (NonogramSolver.new n).solveFuel
      (NonogramSolver.new n) 0 0 (-1) hinv hf.rows_pos (Nat.zero_le _) (by simp) (by
        rw [NonogramSolver.solveFuel_new n hf]
        show (n.rowNums.length - 0) * n.colNums.length - 0 < _
        simp)
    have e0 : ((0 : Nat) : Int) = 0 := rfl
    rw [e0] at hlex
    rcases hlex s' hb G hacc (fun r' c' hlt => by rw [rowLen_zero] at hlt; omega) with h | h
    · left
      exact grid_ext n.rowNums.length n.colNums.length _ _ hsol.1 hG.1 hsol.2.1 hG.2.1 h
    · right
      exact h
  refine ⟨hsol, hleast, fun G hG hlt => ?_, fun G hG => (hleast G hG).imp id
    (lex_of_lexBefore n.rowNums.length n.colNums.length _ _ hsol.1 hG.1 hsol.2.1 hG.2.1)⟩
  rcases hleast G hG with h | h
  · rw [h] at hlt
    exact lexBefore_asymm _ _ _ hlt hlt
  · exact lexBefore_asymm _ _ _ h hlt

/-- Witness of C18: the 2x2 board with row and column clues `[[1],[1]]` has
two solutions, and `solve` leaves the one with the empty first cell. -/
theorem first_solution_witness :
    board7.Fresh ∧ board7.WellFormed ∧
    (NonogramSolver.new board7).solve = .ok (.returned board7Solved) ∧
    board7Solved.nonogram.grid = [[false, true], [true, false]] ∧
    IsSolution board7 [[true, false], [false, true]] ∧
    ([[true, false], [false, true]] = board7Solved.nonogram.grid ∨
      LexBefore board7.colNums.length board7Solved.nonogram.grid [[true, false], [false, true]]) :=
  ⟨fresh_ofClues _ _ (by decide) (by decide), by decide, by decide, rfl, by decide,
    (first_solution board7 (fresh_ofClues _ _ (by decide) (by decide)) (by decide) board7Solved
      (by decide)).2.1 _ (by decide)⟩

/-! ## Independence from the initial grid -/

theorem grid_set_self (g : List (List Bool)) (r c : Nat) (v : Bool) (h : cell g r c = v) :
    g.set r ((g.getD r []).set c v) = g := by
  have hrow : (g.getD r []).set c v = g.getD r [] := by
    have : (g.getD r []).getD c false = v := h
    conv_lhs => rw [← this]
    exact set_getD_self _ _ _
  rw [hrow]
  exact set_getD_self _ _ _

theorem grid_set_set (g : List (List Bool)) (r c : Nat) (a b : Bool) :
    (g.set r ((g.getD r []).set c a)).set r
        (((g.set r ((g.getD r []).set c a)).getD r []).set c b)
      = g.set r ((g.getD r []).set c b) := by
  by_cases hr : r < g.length
  · rw [getD_set _ _ _ _ _ hr, if_pos rfl, List.set_set, List.set_set]
  · have e : g.set r ((g.getD r []).set c a) = g := List.set_eq_of_length_le (by omega)
    rw [e]

namespace NonogramSolver

theorem shape_withGrid {t : NonogramSolver} (ht : t.Shape) (g : List (List Bool))
    (h1 : g.length = t.nonogram.rowNums.length)
    (h2 : ∀ row ∈ g, row.length = t.nonogram.colNums.length) : (t.withGrid g).Shape :=
  ⟨ht.rows_pos, ht.cols_pos, ht.rows_eq, ht.cols_eq, h1, h2, ht.rowIdxs_len, ht.rowPlaced_len,
    ht.colIdxs_len, ht.colPlaced_len⟩

theorem withGrid_self (t : NonogramSolver) : t.withGrid t.nonogram.grid = t := rfl

theorem rowPrev_withGrid (t : NonogramSolver) (g : List (List Bool)) (r c : Nat)
    (hag : Agree t.nonogram.colNums.length g t.nonogram.grid r c) :
    (t.withGrid g).rowPrev r c = t.rowPrev r c := by
  unfold rowPrev
  by_cases h0 : 0 < c
  · have : cell (t.withGrid g).nonogram.grid r (c - 1) = cell t.nonogram.grid r (c - 1) :=
      hag r (c - 1) (by rw [rowLen_self]; omega)
    rw [this]
  · simp [h0]

theorem colPrev_withGrid (t : NonogramSolver) (g : List (List Bool)) (r c : Nat)
    (hc : c < t.nonogram.colNums.length)
    (hag : Agree t.nonogram.colNums.length g t.nonogram.grid r c) :
    (t.withGrid g).colPrev r c = t.colPrev r c := by
  unfold colPrev
  by_cases h0 : 0 < r
  · have : cell (t.withGrid g).nonogram.grid (r - 1) c = cell t.nonogram.grid (r - 1) c :=
      hag (r - 1) c (by
        unfold rowLen
        rw [if_pos (by omega)]
        exact hc)
    rw [this]
  · simp [h0]

theorem placedAt_withGrid (t : NonogramSolver) (g : List (List Bool)) (r c : Nat) (v : Bool)
    (h1 : (t.withGrid g).rowPrev r c = t.rowPrev r c)
    (h2 : (t.withGrid g).colPrev r c = t.colPrev r c) :
    (t.withGrid g).placedAt r c v
      = (t.placedAt r c v).withGrid (g.set r ((g.getD r []).set c v)) := by
  unfold placedAt
  rw [h1, h2]
  rfl

/-- A shadow stays a shadow when the same value is placed in both states. -/
theorem shadow_placedAt {t : NonogramSolver} (ht : t.Shape) {r c : Nat}
    (hr : r < t.nonogram.rowNums.length) (hc : c < t.nonogram.colNums.length) (v : Bool)
    (g : List (List Bool)) (h1 : g.length = t.nonogram.rowNums.length)
    (h2 : ∀ row ∈ g, row.length = t.nonogram.colNums.length)
    (hag : Agree t.nonogram.colNums.length g t.nonogram.grid r c) :
    (t.withGrid g).placedAt r c v
        = (t.placedAt r c v).withGrid (g.set r ((g.getD r []).set c v)) ∧
      Shadow (t.placedAt r c v) r (c + 1)
        ((t.placedAt r c v).withGrid (g.set r ((g.getD r []).set c v))) := by
  have hsg := shape_withGrid ht g h1 h2
  have hsc := hsg.withCell r c v
  refine ⟨placedAt_withGrid t g r c v (rowPrev_withGrid t g r c hag)
    (colPrev_withGrid t g r c hc hag), _, rfl, hsc.grid_len, hsc.grid_row, ?_⟩
  intro r' c' hlt
  have hrow : (g.getD r []).length = t.nonogram.colNums.length := hsg.row_len hr
  rw [cell_set g r c r' c' v (by rw [h1]; exact hr) (by rw [hrow]; exact hc),
    cell_placedAt t ht r c hr hc v]
  by_cases e : r' = r ∧ c' = c
  · rw [if_pos e, if_pos e]
  · rw [if_neg e, if_neg e]
    apply hag
    by_cases e1 : r' = r
    · subst e1
      have hlt' : c' < c + 1 := by
        have := hlt
        rw [rowLen_self] at this
        exact this
      rw [rowLen_self]
      have : c' ≠ c := fun h => e ⟨rfl, h⟩
      omega
    · have := hlt
      rw [rowLen_succ_of_ne _ _ _ _ e1] at this
      exact this

/-- The undo of a placement, made from a shadow of the state the placement
led to, gives a shadow of the state the placement was made in. -/
theorem undo_shadow (t : NonogramSolver) (r c : Nat) (h : t.Inv r c)
    (hr : r < t.nonogram.rowNums.length) (hc : c < t.nonogram.colNums.length) (v : Bool)
    (hrl : lineLegal (t.rowClue r) (t.rowState r) v = true)
    (hcl : lineLegal (t.colClue c) (t.colState c) v = true)
    (s1 : NonogramSolver) (hsh : Shadow (t.placedAt r c v) r (c + 1) s1) :
    ∃ s0, s1.undo (r : Int) (c : Int) v = .ok s0 ∧ Shadow t r c s0 := by
  have ht := h.shape
  obtain ⟨g1, hs1, hl1, hl2, hag1⟩ := hsh
  subst hs1
  have hl1' : g1.length = t.nonogram.rowNums.length := hl1
  have hl2' : ∀ row ∈ g1, row.length = t.nonogram.colNums.length := hl2
  have hag1' : Agree t.nonogram.colNums.length g1 (t.placedAt r c v).nonogram.grid r (c + 1) :=
    hag1
  have hsg1 := shape_withGrid ht g1 hl1' hl2'
  have hrow1 : (g1.getD r []).length = t.nonogram.colNums.length := hsg1.row_len hr
  have hs0 : (t.withGrid (g1.set r ((g1.getD r []).set c false))).Shape := hsg1.withCell r c false
  have hcellv : cell g1 r c = v := by
    rw [hag1' r c (by rw [rowLen_self]; omega), cell_placedAt t ht r c hr hc v]
    simp
  have hg01 : (g1.set r ((g1.getD r []).set c false)).set r
      (((g1.set r ((g1.getD r []).set c false)).getD r []).set c v) = g1 := by
    rw [grid_set_set, grid_set_self _ _ _ _ hcellv]
  have hag0 : Agree t.nonogram.colNums.length (g1.set r ((g1.getD r []).set c false))
      t.nonogram.grid r c := by
    intro r' c' hlt
    have hne : ¬ (r' = r ∧ c' = c) := by
      rintro ⟨e1, e2⟩
      subst e1 e2
      rw [rowLen_self] at hlt
      omega
    have hlt' : c' < rowLen t.nonogram.colNums.length r (c + 1) r' := by
      by_cases e1 : r' = r
      · subst e1
        rw [rowLen_self] at hlt ⊢
        omega
      · rw [rowLen_succ_of_ne _ _ _ _ e1]; exact hlt
    rw [cell_set g1 r c r' c' false (by rw [hl1']; exact hr) (by rw [hrow1]; exact hc),
      if_neg hne, hag1' r' c' hlt', cell_placedAt t ht r c hr hc v, if_neg hne]
  have hp1 := rowPrev_withGrid t _ r c hag0
  have hp2 := colPrev_withGrid t _ r c hc hag0
  have key : (t.withGrid (g1.set r ((g1.getD r []).set c false))).placedAt r c v
      = (t.placedAt r c v).withGrid g1 := by
    rw [placedAt_withGrid t _ r c v hp1 hp2, hg01]
  have hcell0 : cell (t.withGrid (g1.set r ((g1.getD r []).set c false))).nonogram.grid r c
      = false := by
    show cell (g1.set r ((g1.getD r []).set c false)) r c = false
    rw [cell_set g1 r c r c false (by rw [hl1']; exact hr) (by rw [hrow1]; exact hc)]
    simp
  refine ⟨t.withGrid (g1.set r ((g1.getD r []).set c false)), ?_,
    _, rfl, hs0.grid_len, hs0.grid_row, hag0⟩
  rw [← key]
  exact undo_placedAt _ hs0 r c hr hc v hcell0 hrl hcl
    (by rw [hp1]; exact h.row_open hr) (by rw [hp2]; exact h.col_open hc)

/-- One iteration of the loop of `backtrack` from a shadow of `t`. -/
theorem tryVal_shadow (k : NonogramSolver → Int → Int → Except Fault (Bool × NonogramSolver))
    (t s : NonogramSolver) (r c : Nat) (h : t.Inv r c)
    (hr : r < t.nonogram.rowNums.length) (hc : c < t.nonogram.colNums.length) (v : Bool)
    (hsh : Shadow t r c s)
    (hks : ∀ t1 s1, t.SameBoard t1 → t1.Inv r (c + 1) → Shadow t1 r (c + 1) s1 →
      ShadowResult t1 r (c + 1) (k t1 (r : Int) (c : Int)) (k s1 (r : Int) (c : Int))) :
    ShadowResult t r c (tryVal k t (r : Int) (c : Int) v) (tryVal k s (r : Int) (c : Int) v) := by
  have ht := h.shape
  have hrow := h.rowSt r hr
  rw [rowLen_self] at hrow
  have hcol := h.colSt c hc
  rw [colLen_self] at hcol
  obtain ⟨g, hsg, hl1, hl2, hag⟩ := hsh
  have hshs : Shadow t r c s := ⟨g, hsg, hl1, hl2, hag⟩
  subst hsg
  have hsgs := shape_withGrid ht g hl1 hl2
  obtain ⟨hpl, hsh1⟩ := shadow_placedAt ht hr hc v g hl1 hl2 hag
  unfold tryVal
  have e0 : (t.withGrid g).isLegal (r : Int) (c : Int) v = t.isLegal (r : Int) (c : Int) v := rfl
  rw [e0]
  rcases isLegal_cases t ht r c hr hc v with hleg | ⟨hleg, _⟩
  · rw [hleg]
    simp only [Except_ok_bind]
    by_cases hb : (lineLegal (t.rowClue r) (t.rowState r) v &&
        lineLegal (t.colClue c) (t.colState c) v) = true
    · simp only [if_pos hb]
      simp only [Bool.and_eq_true] at hb
      obtain ⟨hrl, hcl⟩ := hb
      have hplace : (t.withGrid g).place (r : Int) (c : Int) v
          = .ok ((t.placedAt r c v).withGrid (g.set r ((g.getD r []).set c v))) := by
        rw [place_eq _ hsgs r c hr hc v, hpl]
      rw [place_eq t ht r c hr hc v, hplace]
      simp only [Except_ok_bind]
      have hp := ht.placedAt r c v
      have hundo := undo_placedAt t ht r c hr hc v h.cell_false hrl hcl
        (h.row_open hr) (h.col_open hc)
      have hri : (t.placedAt r c v).rowClue r = [] → ((t.placedAt r c v).rowState r).1 = 0 := by
        intro hnil
        rw [rowState_placedAt t ht r c hr v r, if_pos rfl]
        have := next_idx_zero hrow hrl hnil
        rw [rowCells_getLast] at this
        exact this
      have hci : (t.placedAt r c v).colClue c = [] → ((t.placedAt r c v).colState c).1 = 0 := by
        intro hnil
        rw [colState_placedAt t ht r c hc v c, if_pos rfl]
        have := next_idx_zero hcol hcl hnil
        rw [colCells_getLast] at this
        exact this
      have e1 : ((t.placedAt r c v).withGrid (g.set r ((g.getD r []).set c v))).isIllegalEnd
          (r : Int) (c : Int) = (t.placedAt r c v).isIllegalEnd (r : Int) (c : Int) := rfl
      rw [e1, isIllegalEnd_eq _ hp r c hr hc hri hci]
      simp only [Except_ok_bind]
      rw [rowState_placedAt t ht r c hr v r, if_pos rfl,
        colState_placedAt t ht r c hc v c, if_pos rfl]
      have e2 : (t.placedAt r c v).nonogram.colNums = t.nonogram.colNums := rfl
      have e3 : (t.placedAt r c v).nonogram.rowNums = t.nonogram.rowNums := rfl
      have e4 : (t.placedAt r c v).rowClue r = t.rowClue r := rfl
      have e5 : (t.placedAt r c v).colClue c = t.colClue c := rfl
      rw [e2, e3, e4, e5]
      by_cases he : ((decide (c + 1 = t.nonogram.colNums.length) &&
            !lineDone (t.rowClue r) (lineNext (t.rowClue r) (t.rowState r) (t.rowPrev r c) v)) ||
          (decide (r + 1 = t.nonogram.rowNums.length) &&
            !lineDone (t.colClue c) (lineNext (t.colClue c) (t.colState c) (t.colPrev r c) v)))
          = true
      · simp only [if_pos he]
        simp only [Except_pure_eq, Except_ok_bind, Bool.false_eq_true, if_false]
        obtain ⟨s0, hu, hsh0⟩ := undo_shadow t r c h hr hc v hrl hcl _ hsh1
        rw [hundo, hu]
        exact Or.inr (Or.inl ⟨rfl, s0, rfl, hsh0⟩)
      · simp only [if_neg he]
        simp only [Bool.or_eq_true, Bool.and_eq_true, decide_eq_true_eq, Bool.not_eq_true',
          not_or, not_and, Bool.not_eq_false] at he
        have hinv : (t.placedAt r c v).Inv r (c + 1) := h.step hr hc v hrl hcl he.1 he.2
        rcases hks _ _ (sameBoard_placedAt t r c v) hinv hsh1 with
          ⟨t', h1, h2⟩ | ⟨h1, s1', h2, hsh1'⟩ | ⟨e, h1, h2⟩
        · rw [h1, h2]
          simp only [Except_pure_eq, Except_ok_bind, if_true]
          exact Or.inl ⟨t', rfl, rfl⟩
        · rw [h1, h2]
          simp only [Except_pure_eq, Except_ok_bind, Bool.false_eq_true, if_false]
          obtain ⟨s0, hu, hsh0⟩ := undo_shadow t r c h hr hc v hrl hcl _ hsh1'
          rw [hundo, hu]
          exact Or.inr (Or.inl ⟨rfl, s0, rfl, hsh0⟩)
        · rw [h1, h2]
          exact Or.inr (Or.inr ⟨e, rfl, rfl⟩)
    · simp only [if_neg hb]
      exact Or.inr (Or.inl ⟨rfl, _, rfl, hshs⟩)
  · rw [hleg]
    exact Or.inr (Or.inr ⟨_, rfl, rfl⟩)

/-- The loop of `backtrack` from a shadow of `t`. -/
theorem tryBoth_shadow (k : NonogramSolver → Int → Int → Except Fault (Bool × NonogramSolver))
    (t s : NonogramSolver) (r c : Nat) (h : t.Inv r c)
    (hr : r < t.nonogram.rowNums.length) (hc : c < t.nonogram.colNums.length)
    (hsh : Shadow t r c s)
    (hks : ∀ t1 s1, t.SameBoard t1 → t1.Inv r (c + 1) → Shadow t1 r (c + 1) s1 →
      ShadowResult t1 r (c + 1) (k t1 (r : Int) (c : Int)) (k s1 (r : Int) (c : Int))) :
    ShadowResult t r c (tryBoth k t (r : Int) (c : Int)) (tryBoth k s (r : Int) (c : Int)) := by
  unfold tryBoth
  rcases tryVal_shadow k t s r c h hr hc false hsh hks with
    ⟨t', h1, h2⟩ | ⟨h1, s', h2, hsh'⟩ | ⟨e, h1, h2⟩
  · rw [h1, h2]
    exact Or.inl ⟨t', rfl, rfl⟩
  · rw [h1, h2]
    simp only [Except_ok_bind, Bool.false_eq_true, if_false]
    rcases tryVal_shadow k t s' r c h hr hc true hsh' hks with
      ⟨t', h3, h4⟩ | ⟨h3, s'', h4, hsh''⟩ | ⟨e, h3, h4⟩
    · rw [h3, h4]
      exact Or.inl ⟨t', rfl, rfl⟩
    · rw [h3, h4]
      exact Or.inr (Or.inl ⟨rfl, s'', rfl, hsh''⟩)
    · rw [h3, h4]
      exact Or.inr (Or.inr ⟨e, rfl, rfl⟩)
  · rw [h1, h2]
    exact Or.inr (Or.inr ⟨e, rfl, rfl⟩)

theorem shadow_nextRow {t s : NonogramSolver} {r : Nat}
    (h : Shadow t r t.nonogram.colNums.length s) : Shadow t (r + 1) 0 s := by
  unfold Shadow Agree at h ⊢
  simp only [rowLen_end]
  exact h

theorem shadowResult_nextRow {t : NonogramSolver} {r : Nat}
    {rt rs : Except Fault (Bool × NonogramSolver)}
    (h : ShadowResult t (r + 1) 0 rt rs) : ShadowResult t r t.nonogram.colNums.length rt rs := by
  unfold ShadowResult Shadow Agree at h ⊢
  simp only [rowLen_end] at h
  exact h

/-- The search from a shadow of `t` goes as the search from `t`. -/
theorem backtrack_shadow (fuel : Nat) :
    ∀ (t s : NonogramSolver) (r c : Nat) (col : Int), t.Inv r c →
      r < t.nonogram.rowNums.length → c ≤ t.nonogram.colNums.length → col + 1 = (c : Int) →
      Shadow t r c s →
      ShadowResult t r c (backtrack fuel t (r : Int) col) (backtrack fuel s (r : Int) col) := by
  induction fuel with
  | zero =>
    intro t s r c col _ _ _ _ _
    exact Or.inr (Or.inr ⟨.outOfFuel, rfl, rfl⟩)
  | succ fuel ih =>
    intro t s r c col h hr hc hcol hsh
    have ht := h.shape
    obtain ⟨g, hsg, hl1, hl2, hag⟩ := hsh
    have hshs : Shadow t r c s := ⟨g, hsg, hl1, hl2, hag⟩
    have ec : s.nonogram.cols = t.nonogram.cols := by rw [hsg]; rfl
    have er : s.nonogram.rows = t.nonogram.rows := by rw [hsg]; rfl
    unfold backtrack
    rw [ec, er, ht.cols_eq, ht.rows_eq, hcol]
    by_cases hcC : c = t.nonogram.colNums.length
    · subst hcC
      simp only [if_pos rfl, if_true]
      by_cases hrR : r + 1 = t.nonogram.rowNums.length
      · have : (r : Int) + 1 = (t.nonogram.rowNums.length : Int) := by omega
        simp only [if_pos this, if_true]
        left
        refine ⟨t, rfl, ?_⟩
        have hgt : g = t.nonogram.grid := by
          apply grid_ext t.nonogram.rowNums.length t.nonogram.colNums.length _ _ ht.grid_len hl1
            ht.grid_row hl2
          intro r' c' hr' hc'
          apply hag
          unfold rowLen
          by_cases e : r' < r
          · rw [if_pos e]; exact hc'
          · rw [if_neg e, if_pos (by omega)]; exact hc'
        rw [hsg, hgt, withGrid_self]
      · have : ¬ ((r : Int) + 1 = (t.nonogram.rowNums.length : Int)) := by omega
        simp only [if_neg this, if_true, if_false]
        have hr1 : r + 1 < t.nonogram.rowNums.length := by omega
        have e : (r : Int) + 1 = ((r + 1 : Nat) : Int) := by push_cast; rfl
        have e0 : (0 : Int) = ((0 : Nat) : Int) := rfl
        rw [e, e0]
        apply shadowResult_nextRow
        apply tryBoth_shadow _ t s (r + 1) 0 h.nextRow hr1 ht.cols_pos (shadow_nextRow hshs)
        intro t1 s1 hsb hinv hsh1
        have hR : t1.nonogram.rowNums.length = t.nonogram.rowNums.length := by rw [hsb.1]
        have hC : t1.nonogram.colNums.length = t.nonogram.colNums.length := by rw [hsb.2.1]
        exact ih t1 s1 (r + 1) (0 + 1) _ hinv (by omega) (by have := ht.cols_pos; omega)
          (by simp) hsh1
    · simp only [if_neg (show ¬ ((c : Int) = (t.nonogram.colNums.length : Int)) by omega)]
      have hc' : c < t.nonogram.colNums.length := by omega
      apply tryBoth_shadow _ t s r c h hr hc' hshs
      intro t1 s1 hsb hinv hsh1
      have hR : t1.nonogram.rowNums.length = t.nonogram.rowNums.length := by rw [hsb.1]
      have hC : t1.nonogram.colNums.length = t.nonogram.colNums.length := by rw [hsb.2.1]
      exact ih t1 s1 r (c + 1) _ hinv (by omega) (by omega) (by push_cast; rfl) hsh1

end NonogramSolver

/-- A `solve` by a fresh solver on a board whose grid is not cleared ends as
the `solve` on the cleared board does. -/
theorem solve_withGrid (n : Nonogram) (hf : n.Fresh) (g : List (List Bool))
    (h1 : g.length = n.rowNums.length) (h2 : ∀ row ∈ g, row.length = n.colNums.length) :
    (∃ s', (NonogramSolver.new n).solve = .ok (.returned s') ∧
        (NonogramSolver.new { n with grid := g }).solve = .ok (.returned s')) ∨
    ((NonogramSolver.new n).solve
        = .ok (.thrown NonogramSolver.unsolvableMsg (NonogramSolver.new n)) ∧
      ∃ s', (NonogramSolver.new { n with grid := g }).solve
        = .ok (.thrown NonogramSolver.unsolvableMsg s')) ∨
    (∃ e, (NonogramSolver.new n).solve = .error e ∧
      (NonogramSolver.new { n with grid := g }).solve = .error e) := by
  have hinv := NonogramSolver.inv_new n hf
  have hsh : NonogramSolver.Shadow (NonogramSolver.new n) 0 0
      (NonogramSolver.new { n with grid := g }) :=
    ⟨g, rfl, h1, h2, fun r' c' hlt => by rw [rowLen_zero] at hlt; omega⟩
  have hres := NonogramSolver.backtrack_shadow (NonogramSolver.new n).solveFuel
    (NonogramSolver.new n) (NonogramSolver.new { n with grid := g }) 0 0 (-1) hinv
    hf.rows_pos (Nat.zero_le _) (by simp) hsh
  have e0 : ((0 : Nat) : Int) = 0 := rfl
  rw [e0] at hres
  have ef : (NonogramSolver.new { n with grid := g }).solveFuel
      = (NonogramSolver.new n).solveFuel := rfl
  unfold NonogramSolver.solve
  rw [ef]
  rcases hres with ⟨t', h3, h4⟩ | ⟨h3, s', h4, _⟩ | ⟨e, h3, h4⟩
  · rw [h3, h4]
    exact Or.inl ⟨t', rfl, rfl⟩
  · rw [h3, h4]
    exact Or.inr (Or.inl ⟨rfl, s', rfl⟩)
  · rw [h3, h4]
    exact Or.inr (Or.inr ⟨e, rfl, rfl⟩)

/-- Solving a solved board again with a new solver, the grid being left as
the first `solve` left it, gives the same state again. -/
theorem solve_new_of_returned (n : Nonogram) (hf : n.Fresh) (s' : NonogramSolver)
    (hret : (NonogramSolver.new n).solve = .ok (.returned s')) :
    (NonogramSolver.new s'.nonogram).solve = .ok (.returned s') := by
  rcases NonogramSolver.solve_cases n hf with ⟨s'', h, hsb, hinv⟩ | ⟨h, _⟩ | ⟨h, _⟩
  · rw [h] at hret
    injection hret with hret
    injection hret with hret
    subst hret
    have hR : s''.nonogram.rowNums = n.rowNums := hsb.1
    have hC : s''.nonogram.colNums = n.colNums := hsb.2.1
    have hrows : s''.nonogram.rows = n.rows := hsb.2.2.1
    have hcols : s''.nonogram.cols = n.cols := hsb.2.2.2
    have hn : s''.nonogram = { n with grid := s''.nonogram.grid } := by
      cases hs : s''.nonogram with
      | mk a b c d e =>
        rw [hs] at hR hC hrows hcols
        simp only at hR hC hrows hcols
        subst hR hC hrows hcols
        rfl
    have hs := hinv.shape
    rcases solve_withGrid n hf s''.nonogram.grid (by rw [hs.grid_len, hR])
        (fun row hrow => by rw [hs.grid_row row hrow, hC]) with
      ⟨s3, a, b⟩ | ⟨a, _⟩ | ⟨e, a, _⟩
    · rw [h] at a
      injection a with a
      injection a with a
      subst a
      rw [hn]
      exact b
    · rw [h] at a
      injection a with a
      cases a
    · rw [h] at a
      cases a
  · rw [h] at hret
    injection hret with hret
    cases hret
  · rw [h] at hret
    cases hret

/-- C20. Independence from the initial grid contents: on a well-formed board
with at least one row and one column, for any two initial grids `g1` and `g2`
of `rows x cols` cells, `solve` on a freshly constructed solver gives the same
outcome for both: both calls return normally and leave the same solver state,
hence the same grid, or both throw the unsolvable error; and solving an
already solved board again with a new solver, the grid not being cleared,
gives the same state again. -/
theorem solve_ignores_grid (n : Nonogram) (hf : n.Fresh) (hw : n.WellFormed)
    (g1 g2 : List (List Bool))
    (h1 : g1.length = n.rowNums.length) (h1' : ∀ row ∈ g1, row.length = n.colNums.length)
    (h2 : g2.length = n.rowNums.length) (h2' : ∀ row ∈ g2, row.length = n.colNums.length) :
    ((∃ s', (NonogramSolver.new { n with grid := g1 }).solve = .ok (.returned s') ∧
        (NonogramSolver.new { n with grid := g2 }).solve = .ok (.returned s')) ∨
      (∃ s1 s2, (NonogramSolver.new { n with grid := g1 }).solve
          = .ok (.thrown NonogramSolver.unsolvableMsg s1) ∧
        (NonogramSolver.new { n with grid := g2 }).solve
          = .ok (.thrown NonogramSolver.unsolvableMsg s2))) ∧
    (∀ s', (NonogramSolver.new n).solve = .ok (.returned s') →
      (NonogramSolver.new s'.nonogram).solve = .ok (.returned s')) := by
  have hne := not_hasEmptyClue_of_wellFormed n hw
  have hok : ∀ e, (NonogramSolver.new n).solve ≠ .error e := by
    intro e he
    rcases NonogramSolver.solve_cases n hf with ⟨s', h, _⟩ | ⟨h, _⟩ | ⟨_, hempty⟩
    · rw [h] at he; cases he
    · rw [h] at he; cases he
    · exact hne hempty
  constructor
  · rcases solve_withGrid n hf g1 h1 h1' with ⟨s', a1, b1⟩ | ⟨a1, s1, b1⟩ | ⟨e, a1, _⟩
    · rcases solve_withGrid n hf g2 h2 h2' with ⟨s'', a2, b2⟩ | ⟨a2, s2, b2⟩ | ⟨e, a2, _⟩
      · rw [a1] at a2
        injection a2 with a2
        injection a2 with a2
        subst a2
        exact Or.inl ⟨s', b1, b2⟩
      · rw [a1] at a2
        injection a2 with a2
        cases a2
      · exact absurd a2 (hok e)
    · rcases solve_withGrid n hf g2 h2 h2' with ⟨s'', a2, b2⟩ | ⟨a2, s2, b2⟩ | ⟨e, a2, _⟩
      · rw [a1] at a2
        injection a2 with a2
        cases a2
      · exact Or.inr ⟨s1, s2, b1, b2⟩
      · exact absurd a2 (hok e)
    · exact absurd a1 (hok e)
  · exact solve_new_of_returned n hf

/-- Witness of C20: scenario 2 solved from the all-false grid and from the
grid `[[true]]` its solution leaves. -/
theorem solve_ignores_grid_witness :
    board2.Fresh ∧ board2.WellFormed ∧
    ((∃ s', (NonogramSolver.new { board2 with grid := [[false]] }).solve = .ok (.returned s') ∧
        (NonogramSolver.new { board2 with grid := [[true]] }).solve = .ok (.returned s')) ∨
      (∃ s1 s2, (NonogramSolver.new { board2 with grid := [[false]] }).solve
          = .ok (.thrown NonogramSolver.unsolvableMsg s1) ∧
        (NonogramSolver.new { board2 with grid := [[true]] }).solve
          = .ok (.thrown NonogramSolver.unsolvableMsg s2))) ∧
    (NonogramSolver.new board2Solved.nonogram).solve = .ok (.returned board2Solved) :=
  ⟨fresh_ofClues _ _ (by decide) (by decide), by decide,
    (solve_ignores_grid board2 (fresh_ofClues _ _ (by decide) (by decide)) (by decide)
      [[false]] [[true]] (by decide) (by decide) (by decide) (by decide)).1,
    (solve_ignores_grid board2 (fresh_ofClues _ _ (by decide) (by decide)) (by decide)
      [[false]] [[true]] (by decide) (by decide) (by decide) (by decide)).2 board2Solved
      (by decide)⟩

/-! ## Solving again with a new solver -/

/-- C5, amended. Repeated solves give the identical grid when each is made
by a freshly constructed solver: on a solvable well-formed board, after a
first `solve` on a fresh solver has returned, a second `solve` by a freshly
constructed solver on the same board, its grid as the first call left it and
nothing else changed, returns normally too and leaves the grid equal, cell
for cell, to the grid the first call left. -/
theorem solve_again_fresh (n : Nonogram) (hf : n.Fresh) (hw : n.WellFormed)
    (hsol : ∃ g, IsSolution n g) :
    ∃ s1, (NonogramSolver.new n).solve = .ok (.returned s1) ∧
      ∃ s2, (NonogramSolver.new s1.nonogram).solve = .ok (.returned s2) ∧
        s2.nonogram.grid = s1.nonogram.grid := by
  obtain ⟨g, hg⟩ := hsol
  have hacc : Accepted n g := (accepted_iff_isSolution n hw g hg.1 hg.2.1).2 hg
  rcases NonogramSolver.solve_cases n hf with ⟨s1, hres, _, _⟩ | ⟨_, hno⟩ | ⟨_, hempty⟩
  · exact ⟨s1, hres, s1, solve_new_of_returned n hf s1 hres, rfl⟩
  · exact absurd hacc (hno g)
  · exact absurd hempty (not_hasEmptyClue_of_wellFormed n hw)

/-- Witness of the amended C5: scenario 2, solved again by a new solver
from the grid `[[true]]` the first call left. -/
theorem solve_again_fresh_witness :
    board2.Fresh ∧ board2.WellFormed ∧ (∃ g, IsSolution board2 g) ∧
    (NonogramSolver.new board2).solve = .ok (.returned board2Solved) ∧
    board2Solved.nonogram.grid = [[true]] ∧
    ∃ s1, (NonogramSolver.new board2).solve = .ok (.returned s1) ∧
      ∃ s2, (NonogramSolver.new s1.nonogram).solve = .ok (.returned s2) ∧
        s2.nonogram.grid = s1.nonogram.grid :=
  ⟨fresh_ofClues _ _ (by decide) (by decide), by decide, ⟨[[true]], by decide⟩, by decide, rfl,
    solve_again_fresh board2 (fresh_ofClues _ _ (by decide) (by decide)) (by decide)
      ⟨[[true]], by decide⟩⟩
